import Mathlib

/-!
# Verification of the RUST-CBS multi-agent path-finding engine

This file gives a shallow embedding, in Lean 4, of the core of the RUST-CBS
repository (a Conflict-Based Search engine for multi-agent path finding on
4-connected grids) and proves or refutes the specification claims about it.

Conventions of the embedding:

* Rust `usize` values are modelled as `Nat`.  Where overflow matters (the claim
  about the `usize::MAX` unreachable marker) the point of overflow is stated
  explicitly against `USIZE_MAX = 2 ^ 64 - 1`.
* Rust `f64` suboptimality factors are modelled as exact rationals `ℚ`;
  the source only multiplies and compares them.
* `HashSet` fields are modelled as lists with set-semantic insertion; every
  fold the source performs over such a set (`any`, `max`) is order-insensitive.
* `BTreeSet` (used for the open/focal lists) is modelled as a list together
  with the source's comparator: `insert` refuses an element comparing `Eq`
  with a present one, `pop_first`/`first` select the comparator-least element,
  `remove` removes the element comparing `Eq`.
* `HashMap` (the trace of the low-level searches) is modelled as an
  association list where insertion prepends (lookup takes the first match,
  giving Rust's overwrite semantics).
* Loops are modelled with an explicit fuel parameter; `none` denotes fuel
  exhaustion and is distinguished from the source's own `None` result.
* Functions keep the names of the Rust items they embed.
-/

namespace RustCBS

/-- A grid cell `(row, col)`, Rust `(usize, usize)`. -/
abbrev Pos : Type := Nat × Nat

/-- Rust tuple comparison on `(usize, usize)`: lexicographic. -/
def posCmp (a b : Pos) : Ordering :=
  (compare a.1 b.1).then (compare a.2 b.2)

/-- `src/common.rs`: `Agent`. -/
structure Agent where
  id : Nat
  start : Pos
  goal : Pos
deriving DecidableEq, Repr

/-- `src/common.rs`: `type Path = Vec<(usize, usize)>`. -/
abbrev Path : Type := List Pos

/-- `src/common/highlevel.rs`: `enum Constraint`. -/
inductive Constraint where
  | Vertex (position : Pos) (time_step : Nat) (is_permanent : Bool)
  | Edge (from_position : Pos) (to_position : Pos) (to_time_step : Nat)
deriving DecidableEq, Repr

/-- `src/common/highlevel.rs`: `Constraint::is_violated`. -/
def Constraint.is_violated (c : Constraint) (from_pos to_pos : Pos) (to_tmstep : Nat) : Bool :=
  match c with
  | .Vertex position time_step is_permanent =>
      if to_pos ≠ position then false
      else if is_permanent then decide (to_tmstep ≥ time_step)
      else decide (to_tmstep = time_step)
  | .Edge from_position to_position to_time_step =>
      from_pos = from_position ∧ to_pos = to_position ∧ to_tmstep = to_time_step

/-- The time step referenced by a constraint (`Vertex.time_step` or
`Edge.to_time_step`); used to compute the constraint horizon. -/
def Constraint.refTime : Constraint → Nat
  | .Vertex _ time_step _ => time_step
  | .Edge _ _ to_time_step => to_time_step

/-- A `HashSet<Constraint>` is modelled as a list with set-semantic insert. -/
abbrev ConstraintSet : Type := List Constraint

/-- `HashSet::insert`: add the element if it is not already present. -/
def hsInsert [DecidableEq α] (s : List α) (a : α) : List α :=
  if a ∈ s then s else a :: s

/-- The constraint horizon `T*`: the maximum time step referenced by any
constraint of the set, `0` for the empty set (`src/algorithm/astar.rs`,
`constraint_limit_time_step`). -/
def constraintLimit (constraints : ConstraintSet) : Nat :=
  (constraints.map Constraint.refTime).foldr max 0

/-- The grid map together with the per-agent heuristic tables
(`src/map.rs`: `Map { height, width, grid, heuristic }`).  The grid is
modelled as its passability predicate; the heuristic table (precomputed by
backward Dijkstra in `Map::heuristic_dji`, an external collaborator per the
spec) is modelled as a function from agent id and cell to the tabulated
distance, with `USIZE_MAX` as the unreachable marker. -/
structure Map where
  height : Nat
  width : Nat
  passable : Pos → Bool
  heuristic : Nat → Pos → Nat

/-- `src/map.rs`: `Map::is_passable` (in-bounds accesses only in the source). -/
def Map.is_passable (m : Map) (x y : Nat) : Bool :=
  m.passable (x, y)

/-- Modelled from the spec: the current revision's `Map::get_neighbors(x, y,
include_wait)` is missing from the sources — the shipped `src/map.rs` is an
older two-argument revision that always includes the stay move, while every
call site of the current low level (`src/algorithm/astar.rs`,
`src/algorithm/astarfocal.rs`, `src/algorithm.rs`) passes the `include_wait`
flag as a third argument.  Per spec section 4.1 the operation returns the four
4-adjacent passable in-bounds cells, plus `(x, y)` itself iff `include_wait`;
the direction order `Up, Down, Left, Right, Stay` is kept from the shipped
older revision. -/
def Map.get_neighbors (m : Map) (x y : Nat) (include_wait : Bool) : List Pos :=
  let directions : List (Int × Int) :=
    [(-1, 0), (1, 0), (0, -1), (0, 1)] ++ (if include_wait then [(0, 0)] else [])
  directions.foldr (fun d acc =>
    let new_x : Int := (x : Int) + d.1
    let new_y : Int := (y : Int) + d.2
    if new_x ≥ 0 ∧ new_y ≥ 0 ∧ new_x < (m.height : Int) ∧ new_y < (m.width : Int) ∧
        m.passable (new_x.toNat, new_y.toNat) = true then
      (new_x.toNat, new_y.toNat) :: acc
    else acc) []

/-- Two cells are 4-adjacent (they differ by one in exactly one coordinate). -/
def fourAdjacent (p q : Pos) : Prop :=
  (p.1 = q.1 ∧ (max p.2 q.2 - min p.2 q.2) = 1) ∨
  (p.2 = q.2 ∧ (max p.1 q.1 - min p.1 q.1) = 1)

instance : DecidablePred fun pq : Pos × Pos => fourAdjacent pq.1 pq.2 := by
  intro pq; unfold fourAdjacent; infer_instance

instance (p q : Pos) : Decidable (fourAdjacent p q) := by
  unfold fourAdjacent; infer_instance

/-! ## High-level data model (`src/common/highlevel.rs`) -/

/-- `src/common/highlevel.rs`: `enum ConflictType`. -/
inductive ConflictType where
  | Vertex (position : Pos) (time_step : Nat)
  | Edge (from_position : Pos) (to_position : Pos) (to_time_step : Nat)
  | Target (position : Pos) (time_step : Nat)
deriving DecidableEq, Repr

/-- `src/common/highlevel.rs`: `enum CardinalType`. -/
inductive CardinalType where
  | Cardinal
  | SemiCardinal
  | NonCardinal
  | Unknown
deriving DecidableEq, Repr

/-- `src/common/highlevel.rs`: `struct Conflict`. -/
structure Conflict where
  agent_1 : Nat
  agent_2 : Nat
  conflict_type : ConflictType
  cardinal_type : CardinalType
deriving DecidableEq, Repr

/-- Rust's derived `Ord` on `ConflictType`: variant order, then fields
lexicographically. -/
def conflictTypeCmp (a b : ConflictType) : Ordering :=
  match a, b with
  | .Vertex p t, .Vertex p' t' => (posCmp p p').then (compare t t')
  | .Vertex _ _, _ => .lt
  | .Edge _ _ _, .Vertex _ _ => .gt
  | .Edge f t s, .Edge f' t' s' => ((posCmp f f').then (posCmp t t')).then (compare s s')
  | .Edge _ _ _, .Target _ _ => .lt
  | .Target p t, .Target p' t' => (posCmp p p').then (compare t t')
  | .Target _ _, _ => .gt

/-- Rust's derived `Ord` on `CardinalType`: variant order. -/
def cardinalTypeCmp (a b : CardinalType) : Ordering :=
  let rank : CardinalType → Nat
    | .Cardinal => 0
    | .SemiCardinal => 1
    | .NonCardinal => 2
    | .Unknown => 3
  compare (rank a) (rank b)

/-- Rust's derived `Ord` on `Conflict`: fields in declaration order. -/
def conflictCmp (a b : Conflict) : Ordering :=
  (((compare a.agent_1 b.agent_1).then (compare a.agent_2 b.agent_2)).then
    (conflictTypeCmp a.conflict_type b.conflict_type)).then
    (cardinalTypeCmp a.cardinal_type b.cardinal_type)

/-- Rust's `Ord` on `Vec<T>`/slices: lexicographic element-wise comparison,
shorter prefix first. -/
def listCmp (cmp : α → α → Ordering) : List α → List α → Ordering
  | [], [] => .eq
  | [], _ :: _ => .lt
  | _ :: _, [] => .gt
  | a :: as_, b :: bs => (cmp a b).then (listCmp cmp as_ bs)

/-- `src/common.rs`: `struct MddNode { parents, children }` (cell-valued link
sets, modelled as lists with set-semantic insertion). -/
structure MddNode where
  parents : List Pos
  children : List Pos
deriving DecidableEq, Repr

/-- `src/common.rs`: `type Mdd = Vec<HashMap<(usize, usize), MddNode>>`;
each layer is modelled as an association list keyed by cell. -/
abbrev Mdd : Type := List (List (Pos × MddNode))

/-- `src/common.rs`: `is_singleton_at_position`. -/
def is_singleton_at_position (mdd : Mdd) (time_step : Nat) (position : Pos) : Bool :=
  if time_step ≥ mdd.length then
    true
  else
    let layer := mdd.getD time_step []
    layer.length = 1 ∧ (layer.any fun kv => kv.1 = position)

/-- `src/common/highlevel.rs`: `convert_conflict_to_constraint`.  The two
`&mut` slice parameters are modelled by returning the updated pair
`(new_constraints, new_path_length_constraints)`. -/
def convert_conflict_to_constraint (conflict : Conflict) (resolve_first : Bool)
    (target_reasoning : Bool) (agent_to_update : Nat)
    (new_constraints : List ConstraintSet) (new_path_length_constraints : List Nat) :
    List ConstraintSet × List Nat :=
  match conflict.conflict_type with
  | .Vertex position time_step =>
      (new_constraints.set agent_to_update
        (hsInsert (new_constraints.getD agent_to_update [])
          (.Vertex position time_step false)),
       new_path_length_constraints)
  | .Edge from_position to_position to_time_step =>
      (new_constraints.set agent_to_update
        (hsInsert (new_constraints.getD agent_to_update [])
          (if resolve_first then .Edge from_position to_position to_time_step
           else .Edge to_position from_position to_time_step)),
       new_path_length_constraints)
  | .Target position time_step =>
      if target_reasoning ∧ ¬resolve_first then
        ((List.range new_constraints.length).map (fun agent =>
            if agent ≠ conflict.agent_1 then
              hsInsert (new_constraints.getD agent []) (.Vertex position time_step true)
            else new_constraints.getD agent []),
         new_path_length_constraints)
      else
        (new_constraints.set agent_to_update
          (hsInsert (new_constraints.getD agent_to_update [])
            (.Vertex position time_step false)),
         if resolve_first then
           new_path_length_constraints.set agent_to_update
             (max (new_path_length_constraints.getD agent_to_update 0) time_step)
         else new_path_length_constraints)

/-! ## Low-level nodes and the ordered-set model (`src/common/lowlevel.rs`) -/

/-- `src/common/lowlevel.rs`: `struct LowLevelNode`. -/
structure LowLevelNode where
  position : Pos
  f_open_cost : Nat
  f_focal_cost : Nat
  g_cost : Nat
  time_step : Nat
deriving DecidableEq, Repr

/-- `OpenOrderWrapper`'s `Ord`: by `f_open_cost`, then by `g_cost`
descending, then by position. -/
def openCmp (a b : LowLevelNode) : Ordering :=
  (compare a.f_open_cost b.f_open_cost).then
    ((compare b.g_cost a.g_cost).then (posCmp a.position b.position))

/-- `FocalOrderWrapper`'s `Ord`: by `f_focal_cost`, then `f_open_cost`,
then `g_cost` descending, then position. -/
def focalCmp (a b : LowLevelNode) : Ordering :=
  (compare a.f_focal_cost b.f_focal_cost).then
    ((compare a.f_open_cost b.f_open_cost).then
      ((compare b.g_cost a.g_cost).then (posCmp a.position b.position)))

/-- `src/common/lowlevel.rs`: `create_open_node` (default `f_focal_cost = 0`). -/
def create_open_node (position : Pos) (f_open_cost g_cost time_step : Nat) : LowLevelNode :=
  ⟨position, f_open_cost, 0, g_cost, time_step⟩

/-- `src/common/lowlevel.rs`: `create_focal_node`. -/
def create_focal_node (position : Pos) (f_open_cost f_focal_cost g_cost time_step : Nat) :
    LowLevelNode :=
  ⟨position, f_open_cost, f_focal_cost, g_cost, time_step⟩

/-- `src/common/lowlevel.rs`: `create_open_focal_node` builds one node shared
by the open and the focal wrapper; in the value model both wrappers are the
same record. -/
def create_open_focal_node (position : Pos) (f_open_cost f_focal_cost g_cost time_step : Nat) :
    LowLevelNode × LowLevelNode :=
  let node : LowLevelNode := ⟨position, f_open_cost, f_focal_cost, g_cost, time_step⟩
  (node, node)

/-- `BTreeSet::first` / minimum under a comparator: the leftmost least
element of the list model. -/
def btMin? (cmp : α → α → Ordering) : List α → Option α
  | [] => none
  | a :: l => some (l.foldl (fun best x => if cmp x best = .lt then x else best) a)

/-- Remove the first element comparing `Eq` to `a`. -/
def btErase (cmp : α → α → Ordering) : List α → α → List α
  | [], _ => []
  | x :: l, a => if cmp x a = .eq then l else x :: btErase cmp l a

/-- `BTreeSet::contains` under the comparator. -/
def btContains (cmp : α → α → Ordering) (l : List α) (a : α) : Bool :=
  l.any fun x => cmp x a == .eq

/-- `BTreeSet::pop_first`. -/
def btPopFirst (cmp : α → α → Ordering) (l : List α) : Option (α × List α) :=
  match btMin? cmp l with
  | none => none
  | some m => some (m, btErase cmp l m)

/-- `BTreeSet::insert`: refused (returning `false`) iff an element comparing
`Eq` is already present. -/
def btInsert (cmp : α → α → Ordering) (l : List α) (a : α) : List α × Bool :=
  if btContains cmp l a then (l, false) else (a :: l, true)

/-- `BTreeSet::remove`: drop the element comparing `Eq`, report whether it
was present. -/
def btRemove (cmp : α → α → Ordering) (l : List α) (a : α) : List α × Bool :=
  (btErase cmp l a, btContains cmp l a)

/-- `src/stat.rs`: `struct Stats` (the fields the searches touch). -/
structure Stats where
  costs : Nat
  time_ms : Nat
  low_level_expand_open_nodes : Nat
  low_level_expand_focal_nodes : Nat
  high_level_expand_nodes : Nat
deriving DecidableEq, Repr

/-- `Stats::default()`. -/
def Stats.default : Stats := ⟨0, 0, 0, 0, 0⟩

/-! ## Shared low-level helpers (`src/algorithm.rs`) -/

/-- The low-level trace, Rust `HashMap<((usize,usize),usize), ((usize,usize),usize)>`;
insertion prepends, lookup takes the first binding. -/
abbrev Trace : Type := List ((Pos × Nat) × (Pos × Nat))

/-- `HashMap::get` on the trace. -/
def traceLookup (trace : Trace) (k : Pos × Nat) : Option (Pos × Nat) :=
  (trace.find? fun kv => kv.1 = k).map (·.2)

/-- The recursion of `construct_path`, with fuel bounding the number of trace
steps (in every run the trace maps `g` to `g - 1`, so `g` steps suffice). -/
def construct_path_go (trace : Trace) : Nat → (Pos × Nat) → List Pos
  | 0, current => [current.1]
  | fuel + 1, current =>
      match traceLookup trace current with
      | none => [current.1]
      | some prev => current.1 :: construct_path_go trace fuel prev

/-- `src/algorithm.rs`: `construct_path`: walk the trace backwards from the
accepted `(cell, g)` pair and reverse. -/
def construct_path (trace : Trace) (current : Pos × Nat) : Path :=
  (construct_path_go trace current.2 current).reverse

/-- `path.get(time).unwrap_or_else(|| path.last().unwrap())`: the position at
`time`, padded by the final cell. -/
def padPos (path : Path) (t : Nat) : Pos :=
  if t < path.length then path.getD t (0, 0) else (path.getLast?).getD (0, 0)

/-- `src/algorithm.rs`: `heuristic_focal`, the conflict count of a move into
`position` at `time` with previous cell `prev_position` against the other
agents' paths (never called with `time = 0`). -/
def heuristic_focal (agent : Nat) (position prev_position : Pos) (time : Nat)
    (paths : List Path) : Nat :=
  paths.enum.foldl (fun conflict_count ap =>
    let agent_id := ap.1
    let path := ap.2
    if agent_id = agent then conflict_count
    else
      let other_position := padPos path time
      let conflict_count :=
        if other_position = position then conflict_count + 1 else conflict_count
      if time ≥ path.length then conflict_count
      else
        let other_prev_position := path.getD (time - 1) (0, 0)
        if other_position = prev_position ∧ other_prev_position = position then
          conflict_count + 1
        else conflict_count) 0

/-- Binding lookup in one MDD layer. -/
def mddLayerGet (layer : List (Pos × MddNode)) (p : Pos) : Option MddNode :=
  (layer.find? fun kv => kv.1 = p).map (·.2)

/-- Replace (or add) the binding of `p` in one MDD layer. -/
def mddLayerSet (layer : List (Pos × MddNode)) (p : Pos) (node : MddNode) :
    List (Pos × MddNode) :=
  match layer with
  | [] => [(p, node)]
  | kv :: rest => if kv.1 = p then (p, node) :: rest else kv :: mddLayerSet rest p node

/-- `src/algorithm.rs`: `construct_mdd`.  The forward pass adds every
neighbor reachable at the next depth that can still reach the goal within the
optimal cost; the backward pass prunes cells whose children all died.  The
debug assertion that the top layer is exactly the goal is not modelled. -/
def construct_mdd (map : Map) (agent : Agent) (constraints : ConstraintSet)
    (optimal_cost : Nat) : Mdd :=
  let empty_layers : Mdd := List.replicate (optimal_cost + 1) []
  let mdd0 : Mdd := empty_layers.set 0 [(agent.start, ⟨[], []⟩)]
  let forward := (List.range optimal_cost).foldl (fun (mdd : Mdd) depth =>
    let layer := mdd.getD depth []
    layer.foldl (fun (mdd : Mdd) kv =>
      let pos := kv.1
      (map.get_neighbors pos.1 pos.2 true).foldl (fun (mdd : Mdd) neighbor =>
        if constraints.any fun c => c.is_violated pos neighbor (depth + 1) then mdd
        else if map.heuristic agent.id neighbor ≤ optimal_cost - (depth + 1) then
          let next_layer := mdd.getD (depth + 1) []
          let next_node := (mddLayerGet next_layer neighbor).getD ⟨[], []⟩
          let next_node : MddNode := { next_node with parents := hsInsert next_node.parents pos }
          let mdd := mdd.set (depth + 1) (mddLayerSet next_layer neighbor next_node)
          let cur_layer := mdd.getD depth []
          match mddLayerGet cur_layer pos with
          | none => mdd
          | some cur_node =>
              mdd.set depth (mddLayerSet cur_layer pos
                { cur_node with children := hsInsert cur_node.children neighbor })
        else mdd) mdd) mdd) mdd0
  ((List.range optimal_cost).reverse).foldl (fun (mdd : Mdd) depth =>
    let next_layer := mdd.getD (depth + 1) []
    mdd.set depth ((mdd.getD depth []).filter fun kv =>
      kv.2.children.any fun child => (mddLayerGet next_layer child).isSome)) forward

/-! ## The constrained temporal A* (`src/algorithm/astar.rs`) -/

/-- The mutable state of one low-level search loop. -/
structure AStarState where
  open_list : List LowLevelNode
  closed_list : List (Pos × Nat)
  trace : Trace
  stats : Stats
deriving DecidableEq, Repr

/-- The neighbor-expansion body of `standard_a_star_search_open_cost`: skip
closed or constraint-violating cells, otherwise insert the fresh node into
the open list and (when the insertion was not a duplicate) record the trace
edge. -/
def astarExpandNeighbor (map : Map) (agent : Agent) (constraints : ConstraintSet)
    (current : LowLevelNode) (tentative_g tentative_ts : Nat) (closed : List (Pos × Nat))
    (acc : List LowLevelNode × Trace) (neighbor : Pos) : List LowLevelNode × Trace :=
  if (neighbor, tentative_ts) ∈ closed then acc
  else if constraints.any fun c =>
      c.is_violated current.position neighbor tentative_g then acc
  else
    let h_open_cost := map.heuristic agent.id neighbor
    let node := create_open_node neighbor (tentative_g + h_open_cost)
      tentative_g tentative_ts
    let ins := btInsert openCmp acc.1 node
    if ins.2 then
      (ins.1, ((neighbor, tentative_g), (current.position, current.g_cost)) :: acc.2)
    else (ins.1, acc.2)

/-- One iteration of `standard_a_star_search_open_cost`: pop the least open
node, accept it if it is the goal with `g` beyond the length bound, otherwise
close it and expand its neighbors.  `Sum.inl` is the function's own return
(`none` = open set exhausted), `Sum.inr` the next state. -/
def standard_a_star_search_open_cost_step (map : Map) (agent : Agent)
    (constraints : ConstraintSet) (path_length_constraint constraint_limit_time_step : Nat)
    (st : AStarState) : (Option (Path × Nat) × Stats) ⊕ AStarState :=
  match btPopFirst openCmp st.open_list with
  | none => .inl (none, st.stats)
  | some (current, open1) =>
    let exceed := current.time_step > constraint_limit_time_step
    let stats1 :=
      { st.stats with low_level_expand_open_nodes := st.stats.low_level_expand_open_nodes + 1 }
    if current.position = agent.goal ∧ current.g_cost > path_length_constraint then
      .inl (some (construct_path st.trace (current.position, current.g_cost),
                  current.f_open_cost), stats1)
    else
      let closed1 := hsInsert st.closed_list (current.position, current.time_step)
      let tentative_g := current.g_cost + 1
      let tentative_ts := if exceed then current.time_step else current.time_step + 1
      let expansion := (map.get_neighbors current.position.1 current.position.2 (!exceed)).foldl
        (astarExpandNeighbor map agent constraints current tentative_g tentative_ts closed1)
        (open1, st.trace)
      .inr { open_list := expansion.1, closed_list := closed1,
             trace := expansion.2, stats := stats1 }

/-- The loop of `standard_a_star_search_open_cost`, with fuel (`none` means
fuel ran out; `some (none, _)` is the source's `None`). -/
def standard_a_star_search_open_cost_loop (map : Map) (agent : Agent)
    (constraints : ConstraintSet) (path_length_constraint constraint_limit_time_step : Nat) :
    Nat → AStarState → Option (Option (Path × Nat) × Stats)
  | 0, _ => none
  | fuel + 1, st =>
      match standard_a_star_search_open_cost_step map agent constraints
          path_length_constraint constraint_limit_time_step st with
      | .inl r => some r
      | .inr st' => standard_a_star_search_open_cost_loop map agent constraints
          path_length_constraint constraint_limit_time_step fuel st'

/-- The initial state of a low-level search starting from the agent's start
cell (the focal variants reuse it with the paired focal list). -/
def initAStarState (map : Map) (agent : Agent) (stats : Stats) : AStarState :=
  let start_h_open_cost := map.heuristic agent.id agent.start
  { open_list := [create_open_node agent.start start_h_open_cost 0 0],
    closed_list := [], trace := [], stats := stats }

/-- `src/algorithm/astar.rs`: `standard_a_star_search_open_cost`. -/
def standard_a_star_search_open_cost (fuel : Nat) (map : Map) (agent : Agent)
    (constraints : ConstraintSet) (path_length_constraint constraint_limit_time_step : Nat)
    (stats : Stats) : Option (Option (Path × Nat) × Stats) :=
  standard_a_star_search_open_cost_loop map agent constraints path_length_constraint
    constraint_limit_time_step fuel (initAStarState map agent stats)

/-- `src/common.rs`: `enum SearchResult`. -/
inductive SearchResult where
  | Standard : Option (Path × Nat) → SearchResult
  | WithMDD : Option (Path × Nat × Mdd) → SearchResult

/-- `src/algorithm/astar.rs`: `a_star_search`: compute the constraint horizon,
run the open-cost search and optionally build the MDD at the optimal cost. -/
def a_star_search (fuel : Nat) (map : Map) (agent : Agent) (constraints : ConstraintSet)
    (path_length_constraint : Nat) (build_mdd : Bool) (stats : Stats) :
    Option (SearchResult × Stats) :=
  let constraint_limit_time_step := constraintLimit constraints
  if !build_mdd then
    match standard_a_star_search_open_cost fuel map agent constraints
        path_length_constraint constraint_limit_time_step stats with
    | none => none
    | some (r, stats') => some (.Standard r, stats')
  else
    match standard_a_star_search_open_cost fuel map agent constraints
        path_length_constraint constraint_limit_time_step stats with
    | none => none
    | some (none, stats') => some (.WithMDD none, stats')
    | some (some (path, f_min), stats') =>
        some (.WithMDD (some (path, f_min, construct_mdd map agent constraints f_min)), stats')

/-! ## The focal A* family (`src/algorithm/astar.rs`, `src/algorithm/astarfocal.rs`) -/

/-- The neighbor-expansion body of `standard_a_star_search_focal_cost`: like
the open-cost one, but pruning neighbors whose `f_open` exceeds the bound and
ordering the single queue by the focal cost. -/
def focalCostExpandNeighbor (map : Map) (agent : Agent) (constraints : ConstraintSet)
    (paths : List Path) (opt_cost : ℚ) (current : LowLevelNode)
    (tentative_g tentative_ts : Nat) (closed : List (Pos × Nat))
    (acc : List LowLevelNode × Trace) (neighbor : Pos) : List LowLevelNode × Trace :=
  let f_open_cost := tentative_g + map.heuristic agent.id neighbor
  if (f_open_cost : ℚ) > opt_cost then acc
  else if (neighbor, tentative_ts) ∈ closed then acc
  else if constraints.any fun c =>
      c.is_violated current.position neighbor tentative_g then acc
  else
    let f_focal_cost := current.f_focal_cost +
      heuristic_focal agent.id neighbor current.position tentative_g paths
    let node := create_focal_node neighbor f_open_cost f_focal_cost
      tentative_g tentative_ts
    let ins := btInsert focalCmp acc.1 node
    if ins.2 then
      (ins.1, ((neighbor, tentative_g), (current.position, current.g_cost)) :: acc.2)
    else (ins.1, acc.2)

/-- One iteration of `standard_a_star_search_focal_cost` (`src/algorithm/astar.rs`),
the bounded second pass of the DECBS double search: a single focal-ordered
list, neighbors with `f_open > opt_cost` pruned. -/
def standard_a_star_search_focal_cost_step (map : Map) (agent : Agent)
    (constraints : ConstraintSet) (path_length_constraint : Nat) (paths : List Path)
    (constraint_limit_time_step : Nat) (opt_cost : ℚ) (st : AStarState) :
    (Option (Path × Nat) × Stats) ⊕ AStarState :=
  match btPopFirst focalCmp st.open_list with
  | none => .inl (none, st.stats)
  | some (current, focal1) =>
    let exceed := current.time_step > constraint_limit_time_step
    let stats1 :=
      { st.stats with low_level_expand_open_nodes := st.stats.low_level_expand_open_nodes + 1 }
    if current.position = agent.goal ∧ current.g_cost > path_length_constraint then
      .inl (some (construct_path st.trace (current.position, current.g_cost),
                  current.f_open_cost), stats1)
    else
      let closed1 := hsInsert st.closed_list (current.position, current.time_step)
      let tentative_g := current.g_cost + 1
      let tentative_ts := if exceed then current.time_step else current.time_step + 1
      let expansion := (map.get_neighbors current.position.1 current.position.2 (!exceed)).foldl
        (focalCostExpandNeighbor map agent constraints paths opt_cost current
          tentative_g tentative_ts closed1)
        (focal1, st.trace)
      .inr { open_list := expansion.1, closed_list := closed1,
             trace := expansion.2, stats := stats1 }

/-- The loop of `standard_a_star_search_focal_cost`. -/
def standard_a_star_search_focal_cost_loop (map : Map) (agent : Agent)
    (constraints : ConstraintSet) (path_length_constraint : Nat) (paths : List Path)
    (constraint_limit_time_step : Nat) (opt_cost : ℚ) :
    Nat → AStarState → Option (Option (Path × Nat) × Stats)
  | 0, _ => none
  | fuel + 1, st =>
      match standard_a_star_search_focal_cost_step map agent constraints
          path_length_constraint paths constraint_limit_time_step opt_cost st with
      | .inl r => some r
      | .inr st' => standard_a_star_search_focal_cost_loop map agent constraints
          path_length_constraint paths constraint_limit_time_step opt_cost fuel st'

/-- `src/algorithm/astar.rs`: `standard_a_star_search_focal_cost` (the start
node is built by `create_focal_node(start, h, 0, 0, 0)`). -/
def standard_a_star_search_focal_cost (fuel : Nat) (map : Map) (agent : Agent)
    (constraints : ConstraintSet) (path_length_constraint : Nat) (paths : List Path)
    (constraint_limit_time_step : Nat) (opt_cost : ℚ) (stats : Stats) :
    Option (Option (Path × Nat) × Stats) :=
  let start_h_open_cost := map.heuristic agent.id agent.start
  standard_a_star_search_focal_cost_loop map agent constraints path_length_constraint
    paths constraint_limit_time_step opt_cost fuel
    { open_list := [create_focal_node agent.start start_h_open_cost 0 0 0],
      closed_list := [], trace := [], stats := stats }

/-- The mutable state of the dual-queue focal searches
(`standard_focal_a_star_search`, `alternating_focal_a_star_search`). -/
structure FocalState where
  f_min : Nat
  open_list : List LowLevelNode
  focal_list : List LowLevelNode
  closed_list : List (Pos × Nat)
  trace : Trace
  f_focal_cost_map : List ((Pos × Nat) × Nat)
  stats : Stats
deriving DecidableEq, Repr

/-- Lookup in the `(position, g)` → `f_focal` map. -/
def ffmLookup (m : List ((Pos × Nat) × Nat)) (k : Pos × Nat) : Option Nat :=
  (m.find? fun kv => kv.1 = k).map (·.2)

/-- The shared neighbor-expansion step of the dual-queue focal searches.
`node_time_step` is the time step stored into the freshly created node:
`standard_focal_a_star_search` passes `tentative_g` there (`src/algorithm/astarfocal.rs`
line 249) while the alternating variant passes `tentative_time_step`. -/
def focalExpandNeighbor (map : Map) (agent : Agent) (constraints : ConstraintSet)
    (paths : List Path) (subopt_factor : ℚ) (current : LowLevelNode)
    (tentative_g tentative_ts node_time_step : Nat) (closed : List (Pos × Nat))
    (st : FocalState) (neighbor : Pos) : FocalState :=
  if (neighbor, tentative_ts) ∈ closed then st
  else if constraints.any fun c => c.is_violated current.position neighbor tentative_g then st
  else
    let h_open_cost := map.heuristic agent.id neighbor
    let f_open_cost := tentative_g + h_open_cost
    let f_focal_cost := current.f_focal_cost +
      heuristic_focal agent.id neighbor current.position tentative_g paths
    let pair := create_open_focal_node neighbor f_open_cost f_focal_cost
      tentative_g node_time_step
    match ffmLookup st.f_focal_cost_map (neighbor, tentative_g) with
    | some old_f_focal_cost =>
        if f_focal_cost < old_f_focal_cost then
          let st := { st with f_focal_cost_map :=
            ((neighbor, tentative_g), f_focal_cost) :: st.f_focal_cost_map }
          let old_pair := create_open_focal_node neighbor f_open_cost old_f_focal_cost
            tentative_g tentative_ts
          let rem_focal := btRemove focalCmp st.focal_list old_pair.2
          if rem_focal.2 then
            let rem_open := btRemove openCmp st.open_list old_pair.1
            { st with open_list := (btInsert openCmp rem_open.1 pair.1).1,
                      focal_list := (btInsert focalCmp rem_focal.1 pair.2).1 }
          else
            let rem_open := btRemove openCmp st.open_list old_pair.1
            if rem_open.2 then
              { st with open_list := (btInsert openCmp rem_open.1 pair.1).1 }
            else st
        else st
    | none =>
        let st := { st with
          open_list := (btInsert openCmp st.open_list pair.1).1,
          trace := ((neighbor, tentative_g), (current.position, current.g_cost)) :: st.trace,
          f_focal_cost_map := ((neighbor, tentative_g), f_focal_cost) :: st.f_focal_cost_map }
        if (f_open_cost : ℚ) ≤ (st.f_min : ℚ) * subopt_factor then
          { st with focal_list := (btInsert focalCmp st.focal_list pair.2).1 }
        else st

/-- The focal-list maintenance after an expansion: promote every open node
whose `f_open` crosses into the window `(f_min · w, new_f_min · w]`
(`src/algorithm/astarfocal.rs` lines 299-313).  Returns the new focal list
and the fresh open minimum (the alternating variant also assigns it). -/
def focalMaintain (subopt_factor : ℚ) (st : FocalState) : FocalState × Option Nat :=
  match btMin? openCmp st.open_list with
  | none => (st, none)
  | some first =>
      let new_f_min := first.f_open_cost
      if st.f_min < new_f_min then
        let focal := st.open_list.foldl (fun focal node =>
          if (node.f_open_cost : ℚ) > (st.f_min : ℚ) * subopt_factor ∧
              (node.f_open_cost : ℚ) ≤ (new_f_min : ℚ) * subopt_factor then
            (btInsert focalCmp focal node).1
          else focal) st.focal_list
        ({ st with focal_list := focal }, some new_f_min)
      else (st, some new_f_min)

/-- One iteration of `standard_focal_a_star_search`
(`src/algorithm/astarfocal.rs` lines 179-316). -/
def standard_focal_a_star_search_step (map : Map) (agent : Agent) (subopt_factor : ℚ)
    (constraints : ConstraintSet) (path_length_constraint constraint_limit_time_step : Nat)
    (paths : List Path) (st : FocalState) : (Option (Path × Nat) × Stats) ⊕ FocalState :=
  match btPopFirst focalCmp st.focal_list with
  | none => .inl (none, st.stats)
  | some (current, focal1) =>
    let exceed := current.time_step > constraint_limit_time_step
    let stats1 :=
      { st.stats with low_level_expand_focal_nodes := st.stats.low_level_expand_focal_nodes + 1 }
    let closed1 := hsInsert st.closed_list (current.position, current.time_step)
    let f_min1 := max (((btMin? openCmp st.open_list).map
      LowLevelNode.f_open_cost).getD 0) st.f_min
    let open1 := btErase openCmp st.open_list current
    if current.position = agent.goal ∧ current.g_cost > path_length_constraint then
      .inl (some (construct_path st.trace (current.position, current.g_cost), f_min1), stats1)
    else
      let tentative_g := current.g_cost + 1
      let tentative_ts := if exceed then current.time_step else current.time_step + 1
      let st1 : FocalState :=
        { st with f_min := f_min1, open_list := open1, focal_list := focal1,
                  closed_list := closed1, stats := stats1 }
      let st2 := (map.get_neighbors current.position.1 current.position.2 (!exceed)).foldl
        (fun st neighbor =>
          focalExpandNeighbor map agent constraints paths subopt_factor current
            tentative_g tentative_ts tentative_g closed1 st neighbor) st1
      .inr (focalMaintain subopt_factor st2).1

/-- The loop of `standard_focal_a_star_search`. -/
def standard_focal_a_star_search_loop (map : Map) (agent : Agent) (subopt_factor : ℚ)
    (constraints : ConstraintSet) (path_length_constraint constraint_limit_time_step : Nat)
    (paths : List Path) : Nat → FocalState → Option (Option (Path × Nat) × Stats)
  | 0, _ => none
  | fuel + 1, st =>
      match standard_focal_a_star_search_step map agent subopt_factor constraints
          path_length_constraint constraint_limit_time_step paths st with
      | .inl r => some r
      | .inr st' => standard_focal_a_star_search_loop map agent subopt_factor constraints
          path_length_constraint constraint_limit_time_step paths fuel st'

/-- The initial dual-queue state: the shared start node in both lists,
`f_min = 0`, `(start, 0) ↦ 0` in the focal-cost map. -/
def initFocalState (map : Map) (agent : Agent) (stats : Stats) : FocalState :=
  let start_h_open_cost := map.heuristic agent.id agent.start
  let pair := create_open_focal_node agent.start start_h_open_cost 0 0 0
  { f_min := 0, open_list := [pair.1], focal_list := [pair.2],
    closed_list := [], trace := [], f_focal_cost_map := [((agent.start, 0), 0)],
    stats := stats }

/-- `src/algorithm/astarfocal.rs`: `standard_focal_a_star_search`. -/
def standard_focal_a_star_search (fuel : Nat) (map : Map) (agent : Agent)
    (subopt_factor : ℚ) (constraints : ConstraintSet)
    (path_length_constraint constraint_limit_time_step : Nat) (paths : List Path)
    (stats : Stats) : Option (Option (Path × Nat) × Stats) :=
  standard_focal_a_star_search_loop map agent subopt_factor constraints
    path_length_constraint constraint_limit_time_step paths fuel
    (initFocalState map agent stats)

/-- `src/algorithm/astarfocal.rs`: `standard_focal_double_search`: run the
optimal open-cost pass, then the focal-cost pass bounded by `f_min · w`,
returning the latter's result directly. -/
def standard_focal_double_search (fuel : Nat) (map : Map) (agent : Agent)
    (subopt_factor : ℚ) (constraints : ConstraintSet)
    (path_length_constraint constraint_limit_time_step : Nat) (paths : List Path)
    (stats : Stats) : Option (Option (Path × Nat) × Stats) :=
  match standard_a_star_search_open_cost fuel map agent constraints
      path_length_constraint constraint_limit_time_step stats with
  | none => none
  | some (none, stats') => some (none, stats')
  | some (some (_, f_min), stats') =>
      standard_a_star_search_focal_cost fuel map agent constraints path_length_constraint
        paths constraint_limit_time_step ((f_min : ℚ) * subopt_factor) stats'

/-- The pop of one alternating iteration: take from the focal queue when
`use_focal` is set and it is nonempty, otherwise from the open queue; return
the popped node, the toggled flag and the updated state
(`src/algorithm/astarfocal.rs` lines 407-441). -/
def altPop (use_focal : Bool) (st : FocalState) : LowLevelNode × Bool × FocalState :=
  if use_focal ∧ ¬st.focal_list.isEmpty then
    match btPopFirst focalCmp st.focal_list with
    | none => (create_open_node (0, 0) 0 0 0, false, st)
    | some (current, focal1) =>
        let f_min1 := max (((btMin? openCmp st.open_list).map
          LowLevelNode.f_open_cost).getD 0) st.f_min
        let open1 := btErase openCmp st.open_list current
        let stats1 := { st.stats with low_level_expand_focal_nodes :=
          st.stats.low_level_expand_focal_nodes + 1 }
        (current, false,
         { st with f_min := f_min1, open_list := open1, focal_list := focal1,
                   stats := stats1 })
  else
    match btPopFirst openCmp st.open_list with
    | none => (create_open_node (0, 0) 0 0 0, true, st)
    | some (current, open1) =>
        let f_min1 := max current.f_open_cost st.f_min
        let focal1 := (btRemove focalCmp st.focal_list current).1
        let stats1 := { st.stats with low_level_expand_open_nodes :=
          st.stats.low_level_expand_open_nodes + 1 }
        (current, true,
         { st with f_min := f_min1, open_list := open1, focal_list := focal1,
                   stats := stats1 })

/-- One iteration of `alternating_focal_a_star_search`
(`src/algorithm/astarfocal.rs` lines 400-579).  The boolean is the
`use_focal` flag; the loop runs while the open list is nonempty. -/
def alternating_focal_a_star_search_step (map : Map) (agent : Agent) (subopt_factor : ℚ)
    (constraints : ConstraintSet) (path_length_constraint constraint_limit_time_step : Nat)
    (paths : List Path) (use_focal : Bool) (st : FocalState) :
    (Option (Path × Nat) × Stats) ⊕ (Bool × FocalState) :=
  if st.open_list.isEmpty then .inl (none, st.stats)
  else
    let popped := altPop use_focal st
    let current := popped.1
    let use_focal' := popped.2.1
    let st := popped.2.2
    let exceed := current.time_step > constraint_limit_time_step
    let stats2 :=
      if use_focal' then
        { st.stats with low_level_expand_focal_nodes :=
          st.stats.low_level_expand_focal_nodes + 1 }
      else
        { st.stats with low_level_expand_open_nodes :=
          st.stats.low_level_expand_open_nodes + 1 }
    let closed1 := hsInsert st.closed_list (current.position, current.time_step)
    let st := { st with stats := stats2, closed_list := closed1 }
    if current.position = agent.goal ∧ current.g_cost > path_length_constraint then
      .inl (some (construct_path st.trace (current.position, current.g_cost), st.f_min),
            st.stats)
    else
      let tentative_g := current.g_cost + 1
      let tentative_ts := if exceed then current.time_step else current.time_step + 1
      let st2 := (map.get_neighbors current.position.1 current.position.2 (!exceed)).foldl
        (fun st neighbor =>
          focalExpandNeighbor map agent constraints paths subopt_factor current
            tentative_g tentative_ts tentative_ts closed1 st neighbor) st
      let maintained := focalMaintain subopt_factor st2
      match maintained.2 with
      | none => .inr (use_focal', maintained.1)
      | some new_f_min => .inr (use_focal', { maintained.1 with f_min := new_f_min })

/-- The loop of `alternating_focal_a_star_search`. -/
def alternating_focal_a_star_search_loop (map : Map) (agent : Agent) (subopt_factor : ℚ)
    (constraints : ConstraintSet) (path_length_constraint constraint_limit_time_step : Nat)
    (paths : List Path) : Nat → Bool → FocalState → Option (Option (Path × Nat) × Stats)
  | 0, _, _ => none
  | fuel + 1, use_focal, st =>
      match alternating_focal_a_star_search_step map agent subopt_factor constraints
          path_length_constraint constraint_limit_time_step paths use_focal st with
      | .inl r => some r
      | .inr (use_focal', st') => alternating_focal_a_star_search_loop map agent
          subopt_factor constraints path_length_constraint constraint_limit_time_step
          paths fuel use_focal' st'

/-- `src/algorithm/astarfocal.rs`: `alternating_focal_a_star_search`
(`use_focal` starts `true`). -/
def alternating_focal_a_star_search (fuel : Nat) (map : Map) (agent : Agent)
    (subopt_factor : ℚ) (constraints : ConstraintSet)
    (path_length_constraint constraint_limit_time_step : Nat) (paths : List Path)
    (stats : Stats) : Option (Option (Path × Nat) × Stats) :=
  alternating_focal_a_star_search_loop map agent subopt_factor constraints
    path_length_constraint constraint_limit_time_step paths fuel true
    (initFocalState map agent stats)

/-- `src/algorithm/astarfocal.rs`: `focal_a_star_search`: compute the horizon,
dispatch on the solver name ("decbs" double-searches only under a nonempty
constraint set; "lbcbs"/"bcbs"/"ecbs" use the standard dual queue; "acbs"
alternates), then optionally build the MDD when the returned cost matches
`f_min`.  The unmatched-solver arm is `unreachable!()` in the source and is
modelled as a `Standard none` result. -/
def focal_a_star_search (fuel : Nat) (map : Map) (agent : Agent) (subopt_factor : ℚ)
    (constraints : ConstraintSet) (path_length_constraint : Nat) (paths : List Path)
    (build_mdd : Bool) (solver : String) (stats : Stats) :
    Option (SearchResult × Stats) :=
  let constraint_limit_time_step := constraintLimit constraints
  let run : Option (Option (Path × Nat) × Stats) :=
    if solver = "decbs" then
      if ¬constraints.isEmpty then
        standard_focal_double_search fuel map agent subopt_factor constraints
          path_length_constraint constraint_limit_time_step paths stats
      else
        standard_focal_a_star_search fuel map agent subopt_factor constraints
          path_length_constraint constraint_limit_time_step paths stats
    else if solver = "lbcbs" ∨ solver = "bcbs" ∨ solver = "ecbs" then
      standard_focal_a_star_search fuel map agent subopt_factor constraints
        path_length_constraint constraint_limit_time_step paths stats
    else if solver = "acbs" then
      alternating_focal_a_star_search fuel map agent subopt_factor constraints
        path_length_constraint constraint_limit_time_step paths stats
    else some (none, stats)
  match run with
  | none => none
  | some (none, stats') =>
      some (if build_mdd then .WithMDD none else .Standard none, stats')
  | some (some (sub_optimal_result, f_min), stats') =>
      if !build_mdd then some (.Standard (some (sub_optimal_result, f_min)), stats')
      else if sub_optimal_result.length - 1 = f_min then
        some (.WithMDD (some (sub_optimal_result, f_min,
          construct_mdd map agent constraints f_min)), stats')
      else some (.Standard (some (sub_optimal_result, f_min)), stats')

/-! ## The high-level CT node (`src/common/highlevel.rs`) -/

/-- The fields of `src/config.rs` `Config` that the core reads.  The Rust
tuple `sub_optimal: (Option<f64>, Option<f64>)` is `(w_high, w_low)`;
its components are modelled as exact rationals. -/
structure Config where
  solver : String
  sub_optimal : Option ℚ × Option ℚ
  op_prioritize_conflicts : Bool
  op_bypass_conflicts : Bool
  op_target_reasoning : Bool

/-- `src/common/highlevel.rs`: `struct HighLevelOpenNode`. -/
structure HighLevelOpenNode where
  node_id : Nat
  agents : List Agent
  constraints : List ConstraintSet
  path_length_constraints : List Nat
  conflicts : List Conflict
  paths : List Path
  cost : Nat
  low_level_f_min_agents : List Nat
  mdds : List (Option Mdd)
deriving DecidableEq, Repr

/-- `HighLevelOpenNode`'s `Ord`: by cost, then conflicts, then paths. -/
def highLevelOpenCmp (a b : HighLevelOpenNode) : Ordering :=
  ((compare a.cost b.cost).then (listCmp conflictCmp a.conflicts b.conflicts)).then
    (listCmp (listCmp posCmp) a.paths b.paths)

/-- Placeholder agent for out-of-bounds indexing (the source would panic). -/
def dummyAgent : Agent := ⟨0, (0, 0), (0, 0)⟩

/-- One time step of the conflict scan of `detect_conflicts` for the ordered
agent pair `(i, j)` with goals `goal1`/`goal2`, paths `path1`/`path2` and
MDDs `mdd1`/`mdd2`: append the target/vertex conflict when the padded
positions coincide, then the edge conflict when the agents swap. -/
def detectPairStep (op_target_reasoning : Bool) (goal1 goal2 : Pos)
    (path1 path2 : Path) (mdd1 mdd2 : Option Mdd) (i j : Nat)
    (conflicts : List Conflict) (step : Nat) : List Conflict :=
  if step = 0 then conflicts
  else
    let pos1 := padPos path1 step
    let pos2 := padPos path2 step
    let conflicts :=
      if pos1 = pos2 then
        let cardinal_type :=
          match mdd1, mdd2 with
          | some m1, some m2 =>
              let singleton1 := is_singleton_at_position m1 step pos1
              let singleton2 := is_singleton_at_position m2 step pos2
              if singleton1 ∧ singleton2 then CardinalType.Cardinal
              else if singleton1 ∨ singleton2 then CardinalType.SemiCardinal
              else CardinalType.NonCardinal
          | some m, none =>
              if is_singleton_at_position m step pos1 then CardinalType.SemiCardinal
              else CardinalType.NonCardinal
          | none, some m =>
              if is_singleton_at_position m step pos1 then CardinalType.SemiCardinal
              else CardinalType.NonCardinal
          | none, none => CardinalType.Unknown
        if step ≥ path1.length - 1 ∧ pos1 = goal1 then
          conflicts ++ [⟨i, j, .Target pos1 step,
            if op_target_reasoning then cardinal_type else .Unknown⟩]
        else if step ≥ path2.length - 1 ∧ pos2 = goal2 then
          conflicts ++ [⟨j, i, .Target pos2 step,
            if op_target_reasoning then cardinal_type else .Unknown⟩]
        else
          conflicts ++ [⟨i, j, .Vertex pos1 step, cardinal_type⟩]
      else conflicts
    if step ≥ path1.length ∨ step ≥ path2.length then conflicts
    else
      let prev_pos1 := path1.getD (step - 1) (0, 0)
      let prev_pos2 := path2.getD (step - 1) (0, 0)
      if prev_pos1 = pos2 ∧ prev_pos2 = pos1 then
        let cardinal_type :=
          match mdd1, mdd2 with
          | some m1, some m2 =>
              let s1 := is_singleton_at_position m1 (step - 1) prev_pos1 ∧
                        is_singleton_at_position m1 step pos1
              let s2 := is_singleton_at_position m2 (step - 1) prev_pos2 ∧
                        is_singleton_at_position m2 step pos2
              if s1 ∧ s2 then CardinalType.Cardinal
              else if s1 ∨ s2 then CardinalType.SemiCardinal
              else CardinalType.NonCardinal
          | some m, none =>
              if is_singleton_at_position m (step - 1) prev_pos1 ∧
                  is_singleton_at_position m step pos1 then CardinalType.SemiCardinal
              else CardinalType.NonCardinal
          | none, some m =>
              if is_singleton_at_position m (step - 1) prev_pos1 ∧
                  is_singleton_at_position m step pos1 then CardinalType.SemiCardinal
              else CardinalType.NonCardinal
          | none, none => CardinalType.Unknown
        conflicts ++ [⟨i, j, .Edge prev_pos1 pos1 step, cardinal_type⟩]
      else conflicts

/-- The conflicts `detect_conflicts` emits for one ordered agent pair
`i < j`, in emission order (per time step, vertex/target before edge). -/
def detect_conflicts_pair (op_target_reasoning : Bool) (agents : List Agent)
    (paths : List Path) (mdds : List (Option Mdd)) (i j : Nat) : List Conflict :=
  let path1 := paths.getD i []
  let path2 := paths.getD j []
  let max_length := max path1.length path2.length
  (List.range max_length).foldl
    (detectPairStep op_target_reasoning (agents.getD i dummyAgent).goal
      (agents.getD j dummyAgent).goal path1 path2 (mdds.getD i none)
      (mdds.getD j none) i j) []

/-- `src/common/highlevel.rs`: `HighLevelOpenNode::detect_conflicts`: compare
every ordered pair of agent paths and collect the conflicts. -/
def detectConflictsList (op_target_reasoning : Bool) (agents : List Agent)
    (paths : List Path) (mdds : List (Option Mdd)) : List Conflict :=
  (List.range agents.length).foldl (fun conflicts i =>
    ((List.range agents.length).filter (fun j => i < j)).foldl (fun conflicts j =>
      conflicts ++ detect_conflicts_pair op_target_reasoning agents paths mdds i j)
      conflicts) []

/-- `detect_conflicts` as a state update on the node. -/
def HighLevelOpenNode.detect_conflicts (self : HighLevelOpenNode)
    (op_target_reasoning : Bool) : HighLevelOpenNode :=
  { self with conflicts :=
      detectConflictsList op_target_reasoning self.agents self.paths self.mdds }

/-- The per-agent low-level call of `HighLevelOpenNode::new` and
`update_constraint`, dispatching on the solver string exactly as
`src/common/highlevel.rs` does ("cbs"/"hbcbs" run the optimal A*, the
bounded-suboptimal family runs the focal search with `w_low =
config.sub_optimal.1`; `build_mdd` is `config.op_prioritize_conflicts`). -/
def lowLevelSolve (fuel : Nat) (map : Map) (config : Config) (solver : String)
    (agent : Agent) (constraints : ConstraintSet) (path_length_constraint : Nat)
    (paths : List Path) (stats : Stats) : Option (SearchResult × Stats) :=
  if solver = "cbs" ∨ solver = "hbcbs" then
    a_star_search fuel map agent constraints path_length_constraint
      config.op_prioritize_conflicts stats
  else if solver = "lbcbs" ∨ solver = "bcbs" ∨ solver = "ecbs" ∨ solver = "decbs" then
    focal_a_star_search fuel map agent ((config.sub_optimal.2).getD 0) constraints
      path_length_constraint paths config.op_prioritize_conflicts solver stats
  else some (.Standard none, stats)

/-- The accumulating loop of `HighLevelOpenNode::new` over the agents: build
each path with an empty constraint set and `L = 0`, inserting it at index
`agent.id`, and fail when any agent is unsolvable.  Outer `none` is fuel
exhaustion of a low-level search. -/
def rootLoop (fuel : Nat) (map : Map) (config : Config) (solver : String) :
    List Agent → (List Path × List Nat × List (Option Mdd) × Nat × Stats) →
    Option (Option (List Path × List Nat × List (Option Mdd) × Nat) × Stats)
  | [], acc => some (some (acc.1, acc.2.1, acc.2.2.1, acc.2.2.2.1), acc.2.2.2.2)
  | agent :: rest, acc =>
      match lowLevelSolve fuel map config solver agent [] 0 acc.1 acc.2.2.2.2 with
      | none => none
      | some (.Standard none, stats') => some (none, stats')
      | some (.WithMDD none, stats') => some (none, stats')
      | some (.Standard (some (path, f_min)), stats') =>
          rootLoop fuel map config solver rest
            (acc.1.insertIdx agent.id path, acc.2.1 ++ [f_min], acc.2.2.1 ++ [none],
             acc.2.2.2.1 + (path.length - 1), stats')
      | some (.WithMDD (some (path, f_min, mdd)), stats') =>
          rootLoop fuel map config solver rest
            (acc.1.insertIdx agent.id path, acc.2.1 ++ [f_min], acc.2.2.1 ++ [some mdd],
             acc.2.2.2.1 + (path.length - 1), stats')

/-- `src/common/highlevel.rs`: `HighLevelOpenNode::new`: the root CT node. -/
def HighLevelOpenNode.new (fuel : Nat) (agents : List Agent) (map : Map)
    (config : Config) (solver : String) (stats : Stats) :
    Option (Option HighLevelOpenNode × Stats) :=
  match rootLoop fuel map config solver agents ([], [], [], 0, stats) with
  | none => none
  | some (none, stats') => some (none, stats')
  | some (some (paths, low_level_f_min_agents, mdds, total_cost), stats') =>
      let start : HighLevelOpenNode :=
        { node_id := 0, agents := agents,
          constraints := List.replicate agents.length [],
          path_length_constraints := List.replicate agents.length 0,
          conflicts := [], paths := paths, cost := total_cost,
          low_level_f_min_agents := low_level_f_min_agents, mdds := mdds }
      some (some (start.detect_conflicts config.op_target_reasoning), stats')

/-- The splice step of `update_constraint`: replace the updated agent's path,
`f_min` and MDD, recompute the aggregate cost by
`cost - (old_len) + (new_len)` (the off-by-one corrections cancel, as the
source comments), and re-detect conflicts. -/
def HighLevelOpenNode.spliceChild (self : HighLevelOpenNode) (config : Config)
    (new_node_id agent_to_update : Nat) (new_constraints : List ConstraintSet)
    (new_path_length_constraints : List Nat) (new_path : Path)
    (new_low_level_f_min : Nat) (new_mdd : Option Mdd) : HighLevelOpenNode :=
  let new_node : HighLevelOpenNode :=
    { node_id := new_node_id, agents := self.agents,
      constraints := new_constraints,
      path_length_constraints := new_path_length_constraints,
      conflicts := [],
      paths := self.paths.set agent_to_update new_path,
      cost := self.cost - (self.paths.getD agent_to_update []).length + new_path.length,
      low_level_f_min_agents :=
        self.low_level_f_min_agents.set agent_to_update new_low_level_f_min,
      mdds := self.mdds.set agent_to_update new_mdd }
  new_node.detect_conflicts config.op_target_reasoning

/-- `src/common/highlevel.rs`: `HighLevelOpenNode::update_constraint`:
construct a child by deriving constraints from the conflict, re-solving the
chosen agent's path and splicing it in.  Outer `none` is fuel exhaustion. -/
def HighLevelOpenNode.update_constraint (self : HighLevelOpenNode) (conflict : Conflict)
    (resolve_first : Bool) (map : Map) (config : Config) (fuel : Nat)
    (new_node_id : Nat) (stats : Stats) : Option (Option HighLevelOpenNode × Stats) :=
  let agent_to_update := if resolve_first then conflict.agent_1 else conflict.agent_2
  let updated := convert_conflict_to_constraint conflict resolve_first
    config.op_target_reasoning agent_to_update self.constraints
    self.path_length_constraints
  match lowLevelSolve fuel map config config.solver
      (self.agents.getD agent_to_update dummyAgent)
      (updated.1.getD agent_to_update [])
      (updated.2.getD agent_to_update 0) self.paths stats with
  | none => none
  | some (.Standard none, stats') => some (none, stats')
  | some (.WithMDD none, stats') => some (none, stats')
  | some (.Standard (some (new_path, new_low_level_f_min)), stats') =>
      some (some (self.spliceChild config new_node_id agent_to_update updated.1 updated.2
        new_path new_low_level_f_min none), stats')
  | some (.WithMDD (some (new_path, new_low_level_f_min, new_mdd)), stats') =>
      some (some (self.spliceChild config new_node_id agent_to_update updated.1 updated.2
        new_path new_low_level_f_min (some new_mdd)), stats')

/-- `src/common/highlevel.rs`: `HighLevelOpenNode::update_bypass_node`: adopt
the child's path, conflicts, MDD, cost and `f_min` for the branched agent
while keeping the parent's constraints. -/
def HighLevelOpenNode.update_bypass_node (self new_node : HighLevelOpenNode)
    (agent_id : Nat) : HighLevelOpenNode :=
  { self with
    node_id := new_node.node_id,
    paths := self.paths.set agent_id (new_node.paths.getD agent_id []),
    conflicts := new_node.conflicts,
    mdds := self.mdds.set agent_id (new_node.mdds.getD agent_id none),
    cost := new_node.cost,
    low_level_f_min_agents := self.low_level_f_min_agents.set agent_id
      (new_node.low_level_f_min_agents.getD agent_id 0) }

/-! ## Solutions and their verifier (`src/common.rs`) -/

/-- `src/common.rs`: `struct Solution`. -/
structure Solution where
  paths : List Path
deriving DecidableEq, Repr

/-- `src/common.rs`: `Solution::are_neighbors`: identical or 4-adjacent. -/
def Solution.are_neighbors (pos1 pos2 : Pos) : Bool :=
  (pos1.1 = pos2.1 ∧ (max pos1.2 pos2.2 - min pos1.2 pos2.2) = 1) ∨
  (pos1.2 = pos2.2 ∧ (max pos1.1 pos2.1 - min pos1.1 pos2.1) = 1) ∨
  (pos1.1 = pos2.1 ∧ pos1.2 = pos2.2)

/-- The per-path body of the collision check of `Solution::verify`: record
the padded position and the traversed edge, failing on a shared cell, an
impassable cell or an opposite-direction edge. -/
def verifyStepFold (map : Map) (time_step : Nat)
    (acc : Bool × List Pos × List (Pos × Pos)) (path : Path) :
    Bool × List Pos × List (Pos × Pos) :=
  let ok := acc.1
  let seen_positions := acc.2.1
  let seen_edges := acc.2.2
  let pos := padPos path time_step
  if ¬map.is_passable pos.1 pos.2 then (false, seen_positions, seen_edges)
  else if pos ∈ seen_positions then (false, pos :: seen_positions, seen_edges)
  else
    let seen_positions := pos :: seen_positions
    if time_step ≥ 1 ∧ time_step < path.length then
      let prev_pos := path.getD (time_step - 1) (0, 0)
      if prev_pos ≠ pos then
        let edge := (prev_pos, pos)
        let reverse_edge := (pos, prev_pos)
        if edge ∈ seen_edges ∨ reverse_edge ∈ seen_edges then
          (false, seen_positions, edge :: seen_edges)
        else (ok, seen_positions, edge :: seen_edges)
      else (ok, seen_positions, seen_edges)
    else (ok, seen_positions, seen_edges)

/-- The per-timestep collision check of `Solution::verify`: fold over the
paths carrying the seen positions and seen directed edges. -/
def verifyStep (map : Map) (paths : List Path) (time_step : Nat) : Bool :=
  (paths.foldl (verifyStepFold map time_step) (true, [], [])).1

/-- `src/common.rs`: `Solution::verify`: each path must start at its agent's
start and end at its goal, take only wait-or-adjacent steps, and at every
time step up to the makespan (shorter paths padded by their last cell) no
two agents may share a cell or traverse an edge in opposite directions. -/
def Solution.verify (self : Solution) (map : Map) (agents : List Agent) : Bool :=
  if self.paths.isEmpty then true
  else if self.paths.length ≠ agents.length then false
  else
    let per_path := (self.paths.zip agents).all fun pa =>
      let path := pa.1
      let agent := pa.2
      (match path.head? with
       | none => false
       | some s => decide (s = agent.start)) &&
      (match path.getLast? with
       | none => false
       | some g => decide (g = agent.goal)) &&
      ((path.zip path.tail).all fun w => Solution.are_neighbors w.1 w.2)
    let max_path_length := (self.paths.map List.length).foldr max 0
    per_path && (List.range max_path_length).all fun t => verifyStep map self.paths t

/-! ## The CBS driver (`src/solver/cbs.rs`) -/

/-- The mutable selection state of the conflict loop inside `CBS::solve`. -/
structure CBSSel where
  find_cardinal : Bool
  find_semi_cardinal : Bool
  find_adopting : Bool
  child_left : Option HighLevelOpenNode
  child_right : Option HighLevelOpenNode
  adopting_node : Option HighLevelOpenNode
  stats : Stats

/-- The conflict-selection loop of `CBS::solve` (`src/solver/cbs.rs` lines
47-166): solve both children of each conflict in turn, classify it by the
children's costs, and stop early on a cardinal conflict (or, without the
optimizations, on the first fully solved conflict).  Outer `none` is fuel
exhaustion of a low-level search. -/
def cbsConflictLoop (fuel : Nat) (map : Map) (config : Config)
    (current_node : HighLevelOpenNode) :
    List Conflict → CBSSel → Option CBSSel
  | [], s => some s
  | conflict :: rest, s =>
      match current_node.update_constraint conflict true map config fuel 0 s.stats with
      | none => none
      | some (none, stats') => cbsConflictLoop fuel map config current_node rest
          { s with stats := stats' }
      | some (some child_l, stats') =>
        let stats' := { stats' with high_level_expand_nodes :=
          stats'.high_level_expand_nodes + 1 }
        let cardinal0 := ¬(child_l.cost ≤ current_node.cost)
        match current_node.update_constraint conflict false map config fuel 0 stats' with
        | none => none
        | some (none, stats'') => cbsConflictLoop fuel map config current_node rest
            { s with stats := stats'' }
        | some (some child_r, stats'') =>
          let stats'' := { stats'' with high_level_expand_nodes :=
            stats''.high_level_expand_nodes + 1 }
          let cardinal1 := ¬(child_r.cost ≤ current_node.cost)
          if cardinal0 ∧ cardinal1 then
            some { s with find_cardinal := true, child_left := some child_l,
                          child_right := some child_r, stats := stats'' }
          else if cardinal0 ∨ cardinal1 then
            let s := { s with find_semi_cardinal := true, child_left := some child_l,
                              child_right := some child_r, stats := stats'' }
            if ¬config.op_prioritize_conflicts ∧ ¬config.op_bypass_conflicts then some s
            else if config.op_bypass_conflicts ∧ ¬s.find_adopting then
              if cardinal0 ∧ child_r.conflicts.length < current_node.conflicts.length then
                let s := { s with find_adopting := true, adopting_node := some child_r }
                if ¬config.op_prioritize_conflicts then some s
                else cbsConflictLoop fuel map config current_node rest s
              else if cardinal1 ∧ child_l.conflicts.length < current_node.conflicts.length then
                let s := { s with find_adopting := true, adopting_node := some child_l }
                if ¬config.op_prioritize_conflicts then some s
                else cbsConflictLoop fuel map config current_node rest s
              else cbsConflictLoop fuel map config current_node rest s
            else cbsConflictLoop fuel map config current_node rest s
          else
            if s.find_semi_cardinal then
              cbsConflictLoop fuel map config current_node rest { s with stats := stats'' }
            else
              let s := { s with child_left := some child_l, child_right := some child_r,
                                stats := stats'' }
              if ¬config.op_prioritize_conflicts ∧ ¬config.op_bypass_conflicts then some s
              else if config.op_bypass_conflicts ∧ ¬s.find_adopting then
                if child_r.conflicts.length < current_node.conflicts.length then
                  let s := { s with find_adopting := true, adopting_node := some child_r }
                  if ¬config.op_prioritize_conflicts then some s
                  else cbsConflictLoop fuel map config current_node rest s
                else if child_l.conflicts.length < current_node.conflicts.length then
                  let s := { s with find_adopting := true, adopting_node := some child_l }
                  if ¬config.op_prioritize_conflicts then some s
                  else cbsConflictLoop fuel map config current_node rest s
                else cbsConflictLoop fuel map config current_node rest s
              else cbsConflictLoop fuel map config current_node rest s

/-- The high-level loop of `CBS::solve`: pop the least CT node; if it is
conflict-free return its paths, otherwise branch on the selected conflict and
insert the children (or the adopted bypass node).  `some none` is the
source's `None` (frontier exhausted); the `unwrap` of a missing child (the
source would panic when no conflict produced both children) is modelled as
fuel exhaustion `none`. -/
def cbsSolveLoop (fuel : Nat) (map : Map) (config : Config) :
    Nat → List HighLevelOpenNode → Stats → Option (Option Solution × Stats)
  | 0, _, _ => none
  | iter + 1, open_list, stats =>
      match btPopFirst highLevelOpenCmp open_list with
      | none => some (none, stats)
      | some (current_node, open1) =>
          if current_node.conflicts.isEmpty then
            some (some ⟨current_node.paths⟩, stats)
          else
            match cbsConflictLoop fuel map config current_node current_node.conflicts
                ⟨false, false, false, none, none, none, stats⟩ with
            | none => none
            | some sel =>
                if sel.find_cardinal then
                  match sel.child_left, sel.child_right with
                  | some l, some r =>
                      cbsSolveLoop fuel map config iter
                        ((btInsert highLevelOpenCmp
                          (btInsert highLevelOpenCmp open1 l).1 r).1) sel.stats
                  | _, _ => none
                else if config.op_bypass_conflicts ∧ sel.find_adopting then
                  match sel.adopting_node with
                  | some a =>
                      cbsSolveLoop fuel map config iter
                        ((btInsert highLevelOpenCmp open1 a).1) sel.stats
                  | none => none
                else
                  match sel.child_left, sel.child_right with
                  | some l, some r =>
                      cbsSolveLoop fuel map config iter
                        ((btInsert highLevelOpenCmp
                          (btInsert highLevelOpenCmp open1 l).1 r).1) sel.stats
                  | _, _ => none

/-- `src/solver/cbs.rs`: `CBS::solve` (the timing and stats output are not
modelled; the shipped driver passes the "cbs" solver tag to the node
constructors). -/
def CBS.solve (fuel : Nat) (agents : List Agent) (map : Map) (config : Config) :
    Option (Option Solution × Stats) :=
  match HighLevelOpenNode.new fuel agents map config "cbs" Stats.default with
  | none => none
  | some (none, stats) => some (none, stats)
  | some (some root, stats) => cbsSolveLoop fuel map config fuel [root] stats

/-! ## Specification-side predicates -/

/-- `usize::MAX`, the unreachable marker of the precomputed heuristic. -/
def USIZE_MAX : Nat := 2 ^ 64 - 1

/-- |a - b| on `Nat`. -/
def natDist (a b : Nat) : Nat := max a b - min a b

/-- Every consecutive pair of the path is a legal grid move (identical or
4-adjacent, target passable and in bounds) — phrased through the map's own
neighbor oracle with waits allowed. -/
def pathChainOK (m : Map) (p : Path) : Prop :=
  List.Chain' (fun x y => y ∈ m.get_neighbors x.1 x.2 true) p

/-- A structurally valid path for an agent: nonempty, from its start to its
goal, taking only legal grid moves. -/
def validPath (m : Map) (a : Agent) (p : Path) : Prop :=
  p.head? = some a.start ∧ p.getLast? = some a.goal ∧ pathChainOK m p

/-- A `C`-satisfying path in the sense of the specification's data model:
a structurally valid path of the agent that violates no constraint of `C`
at any arrival time (waits allowed at any time). -/
def specSatPath (m : Map) (a : Agent) (C : ConstraintSet) (p : Path) : Prop :=
  validPath m a p ∧
  ∀ i : Nat, i + 1 < p.length →
    ∀ c ∈ C, c.is_violated (p.getD i (0, 0)) (p.getD (i + 1) (0, 0)) (i + 1) = false

/-- The invariant of one trace entry `((q, g), (p, g'))` of a low-level
search for an agent starting at `start` under constraint set `C`: the step
goes from time `g' = g - 1` to `g`, moves along the neighbor relation (wait
included), violates no constraint at arrival time `g`, and its source key is
anchored (it is the start at time 0, or itself resolvable in the trace). -/
def traceEntryOK (m : Map) (C : ConstraintSet) (start : Pos) (tr : Trace)
    (e : (Pos × Nat) × (Pos × Nat)) : Prop :=
  e.1.2 = e.2.2 + 1 ∧
  e.1.1 ∈ m.get_neighbors e.2.1.1 e.2.1.2 true ∧
  (∀ c ∈ C, c.is_violated e.2.1 e.1.1 e.1.2 = false) ∧
  (e.2.2 = 0 → e.2.1 = start) ∧
  (1 ≤ e.2.2 → ∃ prev, traceLookup tr e.2 = some prev)

/-- All entries of the trace satisfy the entry invariant. -/
def traceOK (m : Map) (C : ConstraintSet) (start : Pos) (tr : Trace) : Prop :=
  ∀ e ∈ tr, traceEntryOK m C start tr e

/-- A `(cell, g)` key is anchored: it is the start at time 0, or the trace
resolves it. -/
def keyAnchored (start : Pos) (tr : Trace) (k : Pos × Nat) : Prop :=
  (k.2 = 0 ∧ k.1 = start) ∨ (1 ≤ k.2 ∧ ∃ prev, traceLookup tr k = some prev)

/-- Every node of a queue is anchored in the trace. -/
def nodesAnchored (start : Pos) (tr : Trace) (l : List LowLevelNode) : Prop :=
  ∀ n ∈ l, keyAnchored start tr (n.position, n.g_cost)

/-- The invariant of the single-queue A* state: a well-formed trace with both
queue nodes anchored in it. -/
def astarInv (m : Map) (C : ConstraintSet) (start : Pos) (st : AStarState) : Prop :=
  traceOK m C start st.trace ∧ nodesAnchored start st.trace st.open_list

/-- The invariant of the dual-queue focal state: a well-formed trace, both
queues anchored, and every key of the focal-cost map anchored. -/
def focalInv (m : Map) (C : ConstraintSet) (start : Pos) (st : FocalState) : Prop :=
  traceOK m C start st.trace ∧ nodesAnchored start st.trace st.open_list ∧
  nodesAnchored start st.trace st.focal_list ∧
  ∀ kv ∈ st.f_focal_cost_map, keyAnchored start st.trace kv.1

/-- The time step the search assigns to the `g`-th step of a walk: it equals
`g` until it exceeds the constraint horizon `T`, where it freezes at `T + 1`
(`src/algorithm/astar.rs`: the `exceed` logic). -/
def tsOf (T g : Nat) : Nat := min g (T + 1)

/-- The path violates no constraint of `C` at any arrival time (the check the
low level performs with `tentative_g_cost` during expansion). -/
def consOKPath (C : ConstraintSet) (q : Path) : Prop :=
  ∀ i : Nat, i + 1 < q.length →
    ∀ c ∈ C, c.is_violated (q.getD i (0, 0)) (q.getD (i + 1) (0, 0)) (i + 1) = false

/-- The path waits in place only while the search still branches on time:
a stay step at index `i` is allowed only for `i ≤ T`.  Beyond the horizon the
search suppresses wait successors, so only such paths are traceable. -/
def discOK (T : Nat) (q : Path) : Prop :=
  ∀ i : Nat, i + 1 < q.length → q.getD (i + 1) (0, 0) = q.getD i (0, 0) → i ≤ T

/-- A walk of the time-expanded search graph: starts at `start`, moves along
the neighbor oracle, violates no constraint, and waits only below the
horizon. -/
def runPath (m : Map) (start : Pos) (C : ConstraintSet) (T : Nat) (q : Path) : Prop :=
  q ≠ [] ∧ q.head? = some start ∧ pathChainOK m q ∧ consOKPath C q ∧ discOK T q

/-- `(v, g)` is reachable in the search graph: some run path of cost `g` ends
at `v`. -/
def reach (m : Map) (start : Pos) (C : ConstraintSet) (T : Nat) (v : Pos) (g : Nat) :
    Prop :=
  ∃ q, runPath m start C T q ∧ q.length = g + 1 ∧ q.getLast? = some v

/-- The open list holds a node standing for position `p` at walk index `j`:
either exactly (its `g` is `j`) or as a beyond-horizon representative with a
cost not larger than `j`. -/
def openW (T : Nat) (st : AStarState) (p : Pos) (j : Nat) : Prop :=
  ∃ n ∈ st.open_list, n.position = p ∧ n.g_cost ≤ j ∧
    (n.g_cost = j ∨ T + 1 ≤ n.g_cost)

/-- Well-formedness of a single open node of `standard_a_star_search_open_cost`:
its time step follows the freeze rule, its `f_open` is `g + h`, its focal cost
is the constant `0` of `create_open_node`, and its position is reachable at
cost `g`. -/
def nodeShape (m : Map) (aid : Nat) (start : Pos) (C : ConstraintSet) (T : Nat)
    (n : LowLevelNode) : Prop :=
  n.time_step = tsOf T n.g_cost ∧
  n.f_open_cost = n.g_cost + m.heuristic aid n.position ∧
  n.f_focal_cost = 0 ∧
  reach m start C T n.position n.g_cost

/-- The optimality invariant of the open-cost A* state: every open node is
well-formed; goal nodes in the open list stay within one step of every open
`f`; every closed key is reachable at a cost matching its frozen time, goal
keys only at rejected (`≤ L`) costs, and cheaper than every open `f`; once the
beyond-horizon goal key closes, surviving beyond-horizon goal nodes cost at
most `L + 1`; the start key is closed or still open at cost `0`; and closed
keys cascade along every run path: the successor key is closed too or an open
node stands for it. -/
def astarOpt (m : Map) (agent : Agent) (C : ConstraintSet) (L T : Nat)
    (st : AStarState) : Prop :=
  (∀ n ∈ st.open_list, nodeShape m agent.id agent.start C T n) ∧
  (∀ n ∈ st.open_list, n.position = agent.goal →
    ∀ x ∈ st.open_list, n.g_cost ≤ x.f_open_cost + 1) ∧
  (∀ k ∈ st.closed_list, ∃ g', reach m agent.start C T k.1 g' ∧ tsOf T g' = k.2 ∧
    (k.1 = agent.goal → g' ≤ L) ∧
    ∀ n ∈ st.open_list, g' + m.heuristic agent.id k.1 ≤ n.f_open_cost) ∧
  ((agent.goal, T + 1) ∈ st.closed_list →
    ∀ n ∈ st.open_list, n.position = agent.goal → n.time_step = T + 1 →
      n.g_cost ≤ L + 1) ∧
  ((agent.start, 0) ∈ st.closed_list ∨
    ∃ n ∈ st.open_list, n.position = agent.start ∧ n.g_cost = 0) ∧
  (∀ q, runPath m agent.start C T q → ∀ i, i + 1 < q.length →
    (q.getD i (0, 0), tsOf T i) ∈ st.closed_list →
    (q.getD (i + 1) (0, 0), tsOf T (i + 1)) ∈ st.closed_list ∨
    openW T st (q.getD (i + 1) (0, 0)) (i + 1))

/-- The `f_open` of the open list's minimum (`0` when the list is empty),
the candidate lower bound the dual-queue searches read at each pop. -/
def openMinF (st : FocalState) : Nat :=
  (((btMin? openCmp st.open_list).map LowLevelNode.f_open_cost).getD 0)

/-- Every focal node's `f_open` is within the suboptimality window of the
stored lower bound (the tight form holding between a pop and the focal
maintenance). -/
def focalTight (w : ℚ) (st : FocalState) : Prop :=
  ∀ n ∈ st.focal_list, (n.f_open_cost : ℚ) ≤ (st.f_min : ℚ) * w

/-- Every focal node's `f_open` is within the window of the lower bound the
next pop will compute (the invariant holding across iterations). -/
def focalLoose (w : ℚ) (st : FocalState) : Prop :=
  ∀ n ∈ st.focal_list,
    (n.f_open_cost : ℚ) ≤ ((max (openMinF st) st.f_min : Nat) : ℚ) * w

/-- Every queued node's `f_open` is its `g` plus the heuristic of its cell. -/
def focalFEq (map : Map) (aid : Nat) (st : FocalState) : Prop :=
  (∀ n ∈ st.open_list, n.f_open_cost = n.g_cost + map.heuristic aid n.position) ∧
  (∀ n ∈ st.focal_list, n.f_open_cost = n.g_cost + map.heuristic aid n.position)

/-- The path carried by a `SearchResult`, when there is one. -/
def resultPath : SearchResult → Option Path
  | .Standard none => none
  | .Standard (some pf) => some pf.1
  | .WithMDD none => none
  | .WithMDD (some pfm) => some pfm.1

/-- A low-level call result that carries the path `p`. -/
def resultHasPath (res : Option (SearchResult × Stats)) (p : Path) : Prop :=
  ∃ r s, res = some (r, s) ∧ resultPath r = some p

/-- The positions the `verifyStep` fold has recorded after processing a
prefix of the paths (most recent first). -/
def seenPositions (t : Nat) (pre : List Path) : List Pos :=
  (pre.map (fun p => padPos p t)).reverse

/-- The directed move a path contributes to the seen-edge set of
`verifyStep` at time `t`, when it makes one. -/
def edgeAt (t : Nat) (p : Path) : Option (Pos × Pos) :=
  if 1 ≤ t ∧ t < p.length ∧ p.getD (t - 1) (0, 0) ≠ padPos p t then
    some (p.getD (t - 1) (0, 0), padPos p t)
  else none

/-- The directed edges the `verifyStep` fold has recorded after processing a
prefix of the paths (most recent first). -/
def seenEdges (t : Nat) (pre : List Path) : List (Pos × Pos) :=
  (pre.filterMap (edgeAt t)).reverse

/-- Well-formedness of a CT node for a fixed instance: its agent vector is
the input one, the per-agent vectors line up, every path is a structurally
valid path of its agent, and the conflict list is the one
`detect_conflicts` computes for its paths and MDDs. -/
def NodeWF (m : Map) (op_target_reasoning : Bool) (agents : List Agent)
    (n : HighLevelOpenNode) : Prop :=
  n.agents = agents ∧
  n.paths.length = agents.length ∧
  n.mdds.length = agents.length ∧
  (∀ i, i < agents.length → validPath m (agents.getD i dummyAgent) (n.paths.getD i [])) ∧
  n.conflicts = detectConflictsList op_target_reasoning agents n.paths n.mdds

/-- The CT nodes every high-level driver can place on its frontier: the root
node of `HighLevelOpenNode::new`, a child produced by `update_constraint`,
or a bypass adoption `update_bypass_node` of a child for the branched agent
(`agent_to_update` of the branched conflict).  Every variant
(CBS/LBCBS/HBCBS/BCBS/ECBS/DECBS) returns the paths of such a node once its
conflict list is empty. -/
inductive ReachableNode (m : Map) (agents : List Agent) (config : Config) :
    HighLevelOpenNode → Prop where
  | root (fuel : Nat) (solver : String) (stats stats' : Stats) (n : HighLevelOpenNode) :
      HighLevelOpenNode.new fuel agents m config solver stats = some (some n, stats') →
      ReachableNode m agents config n
  | child (parent : HighLevelOpenNode) (conflict : Conflict) (resolve_first : Bool)
      (fuel new_node_id : Nat) (stats stats' : Stats) (n : HighLevelOpenNode) :
      ReachableNode m agents config parent →
      parent.update_constraint conflict resolve_first m config fuel new_node_id stats =
        some (some n, stats') →
      ReachableNode m agents config n
  | bypass (parent child : HighLevelOpenNode) (conflict : Conflict) (resolve_first : Bool)
      (fuel new_node_id : Nat) (stats stats' : Stats) :
      ReachableNode m agents config parent →
      parent.update_constraint conflict resolve_first m config fuel new_node_id stats =
        some (some child, stats') →
      ReachableNode m agents config
        (parent.update_bypass_node child
          (if resolve_first then conflict.agent_1 else conflict.agent_2))

/-! ## Concrete instances used by the counterexamples and witnesses -/

/-- A fully open 3×3 map with true-distance heuristics for two agents with
goals `(0,1)` (agent 0) and `(2,1)` (agent 1). -/
def map3 : Map :=
  { height := 3, width := 3, passable := fun _ => true,
    heuristic := fun aid p =>
      if aid = 0 then natDist p.1 0 + natDist p.2 1 else natDist p.1 2 + natDist p.2 1 }

/-- Two agents sharing the start cell `(1,1)` — a legal input to the solver
(both cells passable) that no loader or driver rejects. -/
def agentsShared : List Agent := [⟨0, (1, 1), (0, 1)⟩, ⟨1, (1, 1), (2, 1)⟩]

/-- A plain CBS configuration (no optimizations, no suboptimality factors). -/
def cfgCBS : Config := ⟨"cbs", (none, none), false, false, false⟩

/-- A 1×3 corridor whose middle cell is blocked: the goal `(0,2)` is
unreachable from `(0,0)`, so backward Dijkstra tabulates `usize::MAX`
for both cells of the start's component. -/
def mapBlocked : Map :=
  { height := 1, width := 3, passable := fun p => decide (p ≠ (0, 1)),
    heuristic := fun _ p => if p = (0, 2) then 0 else USIZE_MAX }

/-- The agent of the unreachable instance. -/
def agentBlocked : Agent := ⟨0, (0, 0), (0, 2)⟩

/-- A fully open 1×3 corridor with the true-distance heuristic to `(0,2)`. -/
def mapRow3 : Map :=
  { height := 1, width := 3, passable := fun _ => true,
    heuristic := fun _ p => natDist p.2 2 }

/-- The agent walking the 1×3 corridor. -/
def agentRow3 : Agent := ⟨0, (0, 0), (0, 2)⟩

/-- A fully open 2×3 map with the true-distance heuristic to `(0,2)`. -/
def mapTwoRows : Map :=
  { height := 2, width := 3, passable := fun _ => true,
    heuristic := fun _ p => natDist p.1 0 + natDist p.2 2 }

/-- Agent 1 crossing `mapTwoRows` from `(0,0)` to `(0,2)` while agent 0 is
parked on `(0,1)` forever. -/
def agentTwoRows : Agent := ⟨1, (0, 0), (0, 2)⟩

/-- The other agents' paths for the double-search instance: agent 0 parked on
the middle of the top row. -/
def pathsParked : List Path := [[(0, 1)]]

/-- A fully open 3×3 map with true-distance heuristics for goals `(0,2)`
(agent 0) and `(2,2)` (agent 1), used by the `update_constraint` witness. -/
def mapTopBottom : Map :=
  { height := 3, width := 3, passable := fun _ => true,
    heuristic := fun aid p =>
      if aid = 0 then natDist p.1 0 + natDist p.2 2 else natDist p.1 2 + natDist p.2 2 }

/-- A concrete parent CT node: two agents crossing the top and bottom rows. -/
def parentNode : HighLevelOpenNode :=
  { node_id := 0,
    agents := [⟨0, (0, 0), (0, 2)⟩, ⟨1, (2, 0), (2, 2)⟩],
    constraints := [[], []],
    path_length_constraints := [0, 0],
    conflicts := [⟨0, 1, .Vertex (1, 1) 1, .Unknown⟩],
    paths := [[(0, 0), (0, 1), (0, 2)], [(2, 0), (2, 1), (2, 2)]],
    cost := 4,
    low_level_f_min_agents := [2, 2],
    mdds := [none, none] }

/-- The concrete `update_constraint` call of the C10 witness. -/
def updateRes : Option (Option HighLevelOpenNode × Stats) :=
  parentNode.update_constraint ⟨0, 1, .Vertex (1, 1) 1, .Unknown⟩ true mapTopBottom
    cfgCBS 64 7 Stats.default

/-- The child node the C10 witness call produces. -/
def childNode : HighLevelOpenNode :=
  ((updateRes.getD (none, Stats.default)).1).getD parentNode

/-- The statistics the C10 witness call produces. -/
def childStats : Stats :=
  (updateRes.getD (none, Stats.default)).2

/-- The first iteration of the dual-queue focal search on the open 1×3
corridor (no constraints, so the constraint horizon is `0`). -/
def focalRow3Step1 : (Option (Path × Nat) × Stats) ⊕ FocalState :=
  standard_focal_a_star_search_step mapRow3 agentRow3 1 [] 0 0 []
    (initFocalState mapRow3 agentRow3 Stats.default)

/-- The second iteration of the same run. -/
def focalRow3Step2 : (Option (Path × Nat) × Stats) ⊕ FocalState :=
  match focalRow3Step1 with
  | .inl r => .inl r
  | .inr st => standard_focal_a_star_search_step mapRow3 agentRow3 1 [] 0 0 [] st

/-- An all-empty dual-queue state, used as the default of `focalStateOr`. -/
def emptyFocalState : FocalState :=
  ⟨0, [], [], [], [], [], Stats.default⟩

/-- Project the continuing state out of a focal-search step result. -/
def focalStateOr (d : FocalState) :
    (Option (Path × Nat) × Stats) ⊕ FocalState → FocalState
  | .inl _ => d
  | .inr st => st

/-- Project the continuing state out of an open-search step result. -/
def astarStateOr (d : AStarState) :
    (Option (Path × Nat) × Stats) ⊕ AStarState → AStarState
  | .inl _ => d
  | .inr st => st

/-- Project the continuing state out of an alternating-search step result. -/
def altStateOr (d : Bool × FocalState) :
    (Option (Path × Nat) × Stats) ⊕ (Bool × FocalState) → Bool × FocalState
  | .inl _ => d
  | .inr x => x

/-- An empty CT node, used only as a projection default. -/
def emptyHLNode : HighLevelOpenNode :=
  ⟨0, [], [], [], [], [], 0, [], []⟩

/-- Two conflict-free agents crossing the top and bottom rows of the open
3×3 map `mapTopBottom`. -/
def agentsTB : List Agent := [⟨0, (0, 0), (0, 2)⟩, ⟨1, (2, 0), (2, 2)⟩]

/-- A concrete root-construction call on the conflict-free instance. -/
def rootTBRes : Option (Option HighLevelOpenNode × Stats) :=
  HighLevelOpenNode.new 64 agentsTB mapTopBottom cfgCBS "cbs" Stats.default

/-- The root CT node that call produces. -/
def rootTB : HighLevelOpenNode :=
  ((rootTBRes.getD (none, Stats.default)).1).getD emptyHLNode

/-- The statistics that call produces. -/
def rootTBStats : Stats := (rootTBRes.getD (none, Stats.default)).2

/-! ## Theorems -/

theorem getD_range_map {f : Nat → α} {n i : Nat} {d : α} (h : i < n) :
    (((List.range n).map f).getD i d) = f i := by
  rw [List.getD_eq_getElem?_getD, List.getElem?_map, List.getElem?_range h]
  rfl

/-- **C6**: For every `Target{pos, t}` conflict, `convert_conflict_to_constraint`
behaves as follows: with target reasoning enabled and `resolve_first = false`
it adds the permanent constraint `Vertex{pos, t, true}` to the constraint set
of every agent other than `conflict.agent_1` and changes nothing else (the
path-length bounds are untouched); in every other case it adds the
non-permanent `Vertex{pos, t, false}` to the chosen agent's constraint set
and, exactly when `resolve_first` is true, raises that agent's path-length
lower bound to `max(previous bound, t)`. -/
theorem C6_target_conflict_to_constraint (conflict : Conflict)
    (resolve_first target_reasoning : Bool) (agent_to_update : Nat)
    (cs : List ConstraintSet) (plc : List Nat) (pos : Pos) (t : Nat)
    (h : conflict.conflict_type = .Target pos t) :
    (target_reasoning = true ∧ resolve_first = false →
      (convert_conflict_to_constraint conflict resolve_first target_reasoning
        agent_to_update cs plc).2 = plc ∧
      (convert_conflict_to_constraint conflict resolve_first target_reasoning
        agent_to_update cs plc).1.length = cs.length ∧
      ∀ i, i < cs.length →
        (convert_conflict_to_constraint conflict resolve_first target_reasoning
          agent_to_update cs plc).1.getD i [] =
          (if i ≠ conflict.agent_1 then hsInsert (cs.getD i []) (.Vertex pos t true)
           else cs.getD i [])) ∧
    (¬(target_reasoning = true ∧ resolve_first = false) →
      (convert_conflict_to_constraint conflict resolve_first target_reasoning
        agent_to_update cs plc).1 =
        cs.set agent_to_update
          (hsInsert (cs.getD agent_to_update []) (.Vertex pos t false)) ∧
      (convert_conflict_to_constraint conflict resolve_first target_reasoning
        agent_to_update cs plc).2 =
        (if resolve_first = true then
          plc.set agent_to_update (max (plc.getD agent_to_update 0) t)
         else plc)) := by
  obtain ⟨a1, a2, ct, card⟩ := conflict
  simp only at h
  subst h
  constructor
  · rintro ⟨htr, hrf⟩
    subst htr; subst hrf
    simp only [convert_conflict_to_constraint, Bool.not_false, and_self, if_pos]
    refine ⟨rfl, by simp, ?_⟩
    intro i hi
    exact getD_range_map hi
  · intro hne
    rcases Bool.eq_false_or_eq_true resolve_first with hr | hr <;>
      rcases Bool.eq_false_or_eq_true target_reasoning with ht | ht <;>
      subst hr <;> subst ht <;>
      simp_all [convert_conflict_to_constraint]

/-- Witness for C6, with target reasoning on and `resolve_first = false`:
agent 0 (the conflict's `agent_1`) keeps its constraint set while agent 1
receives the permanent vertex constraint. -/
theorem C6_target_conflict_to_constraint_witness :
    (convert_conflict_to_constraint ⟨0, 1, .Target (2, 2) 3, .Cardinal⟩ false true 1
      [[], []] [0, 0]).1.getD 1 [] = [Constraint.Vertex (2, 2) 3 true] ∧
    (convert_conflict_to_constraint ⟨0, 1, .Target (2, 2) 3, .Cardinal⟩ false true 1
      [[], []] [0, 0]).2 = [0, 0] := by
  have h := C6_target_conflict_to_constraint ⟨0, 1, .Target (2, 2) 3, .Cardinal⟩
    false true 1 [[], []] [0, 0] (2, 2) 3 rfl
  have h1 := h.1 (by decide)
  refine ⟨?_, h1.1⟩
  have h2 := h1.2.2 1 (by decide)
  simpa using h2

theorem foldr_ite_cons_eq_filterMap (P : α → Prop) [DecidablePred P] (c : α → β)
    (l : List α) :
    l.foldr (fun d acc => if P d then c d :: acc else acc) [] =
    l.filterMap (fun d => if P d then some (c d) else none) := by
  induction l with
  | nil => rfl
  | cons a l ih => by_cases h : P a <;> simp [h, ih]

theorem mem_get_neighbors (m : Map) (x y : Nat) (iw : Bool) (p : Pos) :
    p ∈ m.get_neighbors x y iw ↔
      (1 ≤ x ∧ x - 1 < m.height ∧ y < m.width ∧ m.passable (x - 1, y) = true ∧
        p = (x - 1, y)) ∨
      (x + 1 < m.height ∧ y < m.width ∧ m.passable (x + 1, y) = true ∧ p = (x + 1, y)) ∨
      (1 ≤ y ∧ x < m.height ∧ y - 1 < m.width ∧ m.passable (x, y - 1) = true ∧
        p = (x, y - 1)) ∨
      (x < m.height ∧ y + 1 < m.width ∧ m.passable (x, y + 1) = true ∧ p = (x, y + 1)) ∨
      (iw = true ∧ x < m.height ∧ y < m.width ∧ m.passable (x, y) = true ∧ p = (x, y)) := by
  unfold Map.get_neighbors
  rw [foldr_ite_cons_eq_filterMap
    (fun d : Int × Int => (x : Int) + d.1 ≥ 0 ∧ (y : Int) + d.2 ≥ 0 ∧
      (x : Int) + d.1 < (m.height : Int) ∧ (y : Int) + d.2 < (m.width : Int) ∧
      m.passable (((x : Int) + d.1).toNat, ((y : Int) + d.2).toNat) = true)
    (fun d : Int × Int => (((x : Int) + d.1).toNat, ((y : Int) + d.2).toNat))]
  have e1 : ((x : Int) + (-1 : Int)).toNat = x - 1 := by omega
  have e2 : ((x : Int) + (0 : Int)).toNat = x := by omega
  have e3 : ((x : Int) + (1 : Int)).toNat = x + 1 := by omega
  have f1 : ((y : Int) + (-1 : Int)).toNat = y - 1 := by omega
  have f2 : ((y : Int) + (0 : Int)).toNat = y := by omega
  have f3 : ((y : Int) + (1 : Int)).toNat = y + 1 := by omega
  cases iw
  · simp only [List.cons_append, List.nil_append, List.append_nil,
      List.mem_filterMap, List.mem_cons, List.not_mem_nil, or_false,
      exists_eq_or_imp, exists_eq_left, Option.ite_none_right_eq_some,
      Option.some.injEq, e1, e2, e3, f1, f2, f3, if_true, if_false,
      Bool.false_eq_true, false_and, List.mem_singleton, and_true, true_and]
    constructor
    · rintro (⟨⟨h1, h2, h3, h4, h5⟩, rfl⟩ | ⟨⟨h1, h2, h3, h4, h5⟩, rfl⟩ |
        ⟨⟨h1, h2, h3, h4, h5⟩, rfl⟩ | ⟨⟨h1, h2, h3, h4, h5⟩, rfl⟩)
      · exact Or.inl ⟨by omega, by omega, by omega, h5, rfl⟩
      · exact Or.inr (Or.inl ⟨by omega, by omega, h5, rfl⟩)
      · exact Or.inr (Or.inr (Or.inl ⟨by omega, by omega, by omega, h5, rfl⟩))
      · exact Or.inr (Or.inr (Or.inr ⟨by omega, by omega, h5, rfl⟩))
    · rintro (⟨h1, h2, h3, h4, rfl⟩ | ⟨h1, h2, h3, rfl⟩ | ⟨h1, h2, h3, h4, rfl⟩ |
        ⟨h1, h2, h3, rfl⟩)
      · exact Or.inl ⟨⟨by omega, by omega, by omega, by omega, h4⟩, rfl⟩
      · exact Or.inr (Or.inl ⟨⟨by omega, by omega, by omega, by omega, h3⟩, rfl⟩)
      · exact Or.inr (Or.inr (Or.inl ⟨⟨by omega, by omega, by omega, by omega, h4⟩, rfl⟩))
      · exact Or.inr (Or.inr (Or.inr
          ⟨⟨by omega, by omega, by omega, by omega, h3⟩, rfl⟩))
  · simp only [List.cons_append, List.nil_append, List.append_nil,
      List.mem_filterMap, List.mem_cons, List.not_mem_nil, or_false,
      exists_eq_or_imp, exists_eq_left, Option.ite_none_right_eq_some,
      Option.some.injEq, e1, e2, e3, f1, f2, f3, if_true, if_false,
      List.mem_singleton, and_true, true_and]
    constructor
    · rintro (⟨⟨h1, h2, h3, h4, h5⟩, rfl⟩ | ⟨⟨h1, h2, h3, h4, h5⟩, rfl⟩ |
        ⟨⟨h1, h2, h3, h4, h5⟩, rfl⟩ | ⟨⟨h1, h2, h3, h4, h5⟩, rfl⟩ |
        ⟨⟨h1, h2, h3, h4, h5⟩, rfl⟩)
      · exact Or.inl ⟨by omega, by omega, by omega, h5, rfl⟩
      · exact Or.inr (Or.inl ⟨by omega, by omega, h5, rfl⟩)
      · exact Or.inr (Or.inr (Or.inl ⟨by omega, by omega, by omega, h5, rfl⟩))
      · exact Or.inr (Or.inr (Or.inr (Or.inl ⟨by omega, by omega, h5, rfl⟩)))
      · exact Or.inr (Or.inr (Or.inr (Or.inr ⟨by omega, by omega, h5, rfl⟩)))
    · rintro (⟨h1, h2, h3, h4, rfl⟩ | ⟨h1, h2, h3, rfl⟩ | ⟨h1, h2, h3, h4, rfl⟩ |
        ⟨h1, h2, h3, rfl⟩ | ⟨h1, h2, h3, rfl⟩)
      · exact Or.inl ⟨⟨by omega, by omega, by omega, by omega, h4⟩, rfl⟩
      · exact Or.inr (Or.inl ⟨⟨by omega, by omega, by omega, by omega, h3⟩, rfl⟩)
      · exact Or.inr (Or.inr (Or.inl ⟨⟨by omega, by omega, by omega, by omega, h4⟩, rfl⟩))
      · exact Or.inr (Or.inr (Or.inr (Or.inl
          ⟨⟨by omega, by omega, by omega, by omega, h3⟩, rfl⟩)))
      · exact Or.inr (Or.inr (Or.inr (Or.inr
          ⟨⟨by omega, by omega, by omega, by omega, h3⟩, rfl⟩)))

theorem get_neighbors_nodup (m : Map) (x y : Nat) (iw : Bool) :
    (m.get_neighbors x y iw).Nodup := by
  unfold Map.get_neighbors
  rw [foldr_ite_cons_eq_filterMap
    (fun d : Int × Int => (x : Int) + d.1 ≥ 0 ∧ (y : Int) + d.2 ≥ 0 ∧
      (x : Int) + d.1 < (m.height : Int) ∧ (y : Int) + d.2 < (m.width : Int) ∧
      m.passable (((x : Int) + d.1).toNat, ((y : Int) + d.2).toNat) = true)
    (fun d : Int × Int => (((x : Int) + d.1).toNat, ((y : Int) + d.2).toNat))]
  apply List.Nodup.filterMap
  · intro a a' b hb hb'
    simp only [Option.mem_def, Option.ite_none_right_eq_some, Option.some.injEq] at hb hb'
    obtain ⟨⟨ha1, ha2, _, _, _⟩, hcell⟩ := hb
    obtain ⟨⟨ha1', ha2', _, _, _⟩, hcell'⟩ := hb'
    rw [← hcell'] at hcell
    have h1 : ((x : Int) + a.1).toNat = ((x : Int) + a'.1).toNat := congrArg Prod.fst hcell
    have h2 : ((y : Int) + a.2).toNat = ((y : Int) + a'.2).toNat := congrArg Prod.snd hcell
    have : a.1 = a'.1 := by omega
    have : a.2 = a'.2 := by omega
    exact Prod.ext ‹a.1 = a'.1› ‹a.2 = a'.2›
  · cases iw <;> decide

/-- **C7**: For every in-bounds passable cell `(x, y)`, the map oracle's
neighbor operation returns exactly the passable in-bounds 4-adjacent cells of
`(x, y)`, plus `(x, y)` itself iff the `include_wait` flag is set; the result
list is duplicate-free, and — being a pure function of its arguments — it is
deterministic across calls with the same arguments. -/
theorem C7_get_neighbors_exact (m : Map) (x y : Nat) (include_wait : Bool)
    (hx : x < m.height) (hy : y < m.width) (hpass : m.is_passable x y = true) :
    (∀ p : Pos, p ∈ m.get_neighbors x y include_wait ↔
      (p.1 < m.height ∧ p.2 < m.width ∧ m.passable p = true ∧
        (fourAdjacent (x, y) p ∨ (include_wait = true ∧ p = (x, y))))) ∧
    (m.get_neighbors x y include_wait).Nodup ∧
    m.get_neighbors x y include_wait = m.get_neighbors x y include_wait := by
  refine ⟨?_, get_neighbors_nodup m x y include_wait, rfl⟩
  intro p
  rw [mem_get_neighbors]
  unfold Map.is_passable at hpass
  constructor
  · rintro (⟨h1, h2, h3, h4, rfl⟩ | ⟨h1, h2, h3, rfl⟩ | ⟨h1, h2, h3, h4, rfl⟩ |
      ⟨h1, h2, h3, rfl⟩ | ⟨h0, h1, h2, h3, rfl⟩)
    · exact ⟨h2, h3, h4, Or.inl (Or.inr ⟨rfl, by omega⟩)⟩
    · exact ⟨h1, h2, h3, Or.inl (Or.inr ⟨rfl, by omega⟩)⟩
    · exact ⟨h2, h3, h4, Or.inl (Or.inl ⟨rfl, by omega⟩)⟩
    · exact ⟨h1, h2, h3, Or.inl (Or.inl ⟨rfl, by omega⟩)⟩
    · exact ⟨h1, h2, h3, Or.inr ⟨h0, rfl⟩⟩
  · obtain ⟨p1, p2⟩ := p
    rintro ⟨hb1, hb2, hb3, (hadj | ⟨hiw, heq⟩)⟩
    · rcases hadj with ⟨he, hd⟩ | ⟨he, hd⟩
      · simp only at he hd
        subst he
        rcases Nat.lt_or_ge p2 y with hlt | hge
        · have : p2 = y - 1 := by omega
          subst this
          exact Or.inr (Or.inr (Or.inl ⟨by omega, hx, hb2, hb3, rfl⟩))
        · have : p2 = y + 1 := by omega
          subst this
          exact Or.inr (Or.inr (Or.inr (Or.inl ⟨hx, hb2, hb3, rfl⟩)))
      · simp only at he hd
        subst he
        rcases Nat.lt_or_ge p1 x with hlt | hge
        · have : p1 = x - 1 := by omega
          subst this
          exact Or.inl ⟨by omega, hb1, hy, hb3, rfl⟩
        · have : p1 = x + 1 := by omega
          subst this
          exact Or.inr (Or.inl ⟨hb1, hy, hb3, rfl⟩)
    · obtain ⟨he1, he2⟩ := Prod.mk.injEq .. ▸ heq
      subst he1; subst he2
      exact Or.inr (Or.inr (Or.inr (Or.inr ⟨hiw, hx, hy, hpass, rfl⟩)))

/-- Witness for C7 at the center of the open 3×3 map without the wait flag:
the cell above is a neighbor, the result has no duplicates. -/
theorem C7_get_neighbors_exact_witness :
    ((0, 1) ∈ map3.get_neighbors 1 1 false ↔
      ((0 : Nat) < map3.height ∧ (1 : Nat) < map3.width ∧ map3.passable (0, 1) = true ∧
        (fourAdjacent (1, 1) (0, 1) ∨ (false = true ∧ ((0, 1) : Pos) = (1, 1))))) ∧
    (map3.get_neighbors 1 1 false).Nodup := by
  have h := C7_get_neighbors_exact map3 1 1 false (by decide) (by decide) (by decide)
  exact ⟨h.1 (0, 1), h.2.1⟩

theorem getD_set_ne (l : List α) (i j : Nat) (hij : j ≠ i) (a : α) (d : α) :
    (l.set i a).getD j d = l.getD j d := by
  rw [List.getD_eq_getElem?_getD, List.getD_eq_getElem?_getD,
    List.getElem?_set_ne (fun h => hij h.symm)]

/-- **C10**: `update_constraint` never mutates the CT node it is called on
(the embedding is by value, mirroring the source's fresh clones of the parent
fields), and in every child it returns exactly one agent's slot is replaced:
the updated agent's path together with its `f_min` and MDD bookkeeping are
set to the new search result, while every other agent's path, `f_min` and MDD
in the child equal the parent's; the agent vector is the parent's unchanged. -/
theorem C10_update_constraint_frame (self : HighLevelOpenNode) (conflict : Conflict)
    (resolve_first : Bool) (map : Map) (config : Config) (fuel new_node_id : Nat)
    (stats stats' : Stats) (child : HighLevelOpenNode)
    (h : self.update_constraint conflict resolve_first map config fuel new_node_id stats =
      some (some child, stats')) :
    child.agents = self.agents ∧
    (∃ new_path new_f_min new_mdd,
      child.paths = self.paths.set
        (if resolve_first then conflict.agent_1 else conflict.agent_2) new_path ∧
      child.low_level_f_min_agents = self.low_level_f_min_agents.set
        (if resolve_first then conflict.agent_1 else conflict.agent_2) new_f_min ∧
      child.mdds = self.mdds.set
        (if resolve_first then conflict.agent_1 else conflict.agent_2) new_mdd) ∧
    (∀ i, i ≠ (if resolve_first then conflict.agent_1 else conflict.agent_2) →
      child.paths.getD i [] = self.paths.getD i [] ∧
      child.low_level_f_min_agents.getD i 0 = self.low_level_f_min_agents.getD i 0 ∧
      child.mdds.getD i none = self.mdds.getD i none) := by
  unfold HighLevelOpenNode.update_constraint at h
  split at h <;> rename_i hrf
  · simp only [] at h
    split at h
    · exact absurd h (by simp)
    · exact absurd h (by simp)
    · exact absurd h (by simp)
    · rename_i path f stats1 heq
      simp only [Option.some.injEq, Prod.mk.injEq] at h
      obtain ⟨hc, -⟩ := h
      rw [← hc]
      simp only [hrf]
      unfold HighLevelOpenNode.spliceChild
      refine ⟨rfl, ⟨path, f, none, rfl, rfl, rfl⟩, ?_⟩
      intro i hi
      exact ⟨getD_set_ne _ _ _ hi _ _, getD_set_ne _ _ _ hi _ _,
        getD_set_ne _ _ _ hi _ _⟩
    · rename_i path f mdd stats1 heq
      simp only [Option.some.injEq, Prod.mk.injEq] at h
      obtain ⟨hc, -⟩ := h
      rw [← hc]
      simp only [hrf]
      unfold HighLevelOpenNode.spliceChild
      refine ⟨rfl, ⟨path, f, some mdd, rfl, rfl, rfl⟩, ?_⟩
      intro i hi
      exact ⟨getD_set_ne _ _ _ hi _ _, getD_set_ne _ _ _ hi _ _,
        getD_set_ne _ _ _ hi _ _⟩
  · simp only [] at h
    split at h
    · exact absurd h (by simp)
    · exact absurd h (by simp)
    · exact absurd h (by simp)
    · rename_i path f stats1 heq
      simp only [Option.some.injEq, Prod.mk.injEq] at h
      obtain ⟨hc, -⟩ := h
      rw [← hc]
      simp only [hrf]
      unfold HighLevelOpenNode.spliceChild
      refine ⟨rfl, ⟨path, f, none, rfl, rfl, rfl⟩, ?_⟩
      intro i hi
      exact ⟨getD_set_ne _ _ _ hi _ _, getD_set_ne _ _ _ hi _ _,
        getD_set_ne _ _ _ hi _ _⟩
    · rename_i path f mdd stats1 heq
      simp only [Option.some.injEq, Prod.mk.injEq] at h
      obtain ⟨hc, -⟩ := h
      rw [← hc]
      simp only [hrf]
      unfold HighLevelOpenNode.spliceChild
      refine ⟨rfl, ⟨path, f, some mdd, rfl, rfl, rfl⟩, ?_⟩
      intro i hi
      exact ⟨getD_set_ne _ _ _ hi _ _, getD_set_ne _ _ _ hi _ _,
        getD_set_ne _ _ _ hi _ _⟩

/-- Witness for C10 at a concrete two-agent node: the branched agent is 0,
so agent 1's path, `f_min` and MDD slots survive unchanged. -/
theorem C10_update_constraint_frame_witness :
    childNode.agents = parentNode.agents ∧
    (∃ new_path new_f_min new_mdd,
      childNode.paths = parentNode.paths.set 0 new_path ∧
      childNode.low_level_f_min_agents = parentNode.low_level_f_min_agents.set 0 new_f_min ∧
      childNode.mdds = parentNode.mdds.set 0 new_mdd) ∧
    (∀ i, i ≠ 0 →
      childNode.paths.getD i [] = parentNode.paths.getD i [] ∧
      childNode.low_level_f_min_agents.getD i 0 =
        parentNode.low_level_f_min_agents.getD i 0 ∧
      childNode.mdds.getD i none = parentNode.mdds.getD i none) := by
  have h := C10_update_constraint_frame parentNode ⟨0, 1, .Vertex (1, 1) 1, .Unknown⟩
    true mapTopBottom cfgCBS 64 7 Stats.default childStats childNode (by rfl)
  simpa using h

/-- **C3** (refuted; the spec is the intent and the code a slip): the claim
states that when `standard_focal_double_search` returns `Some((path, f))`,
the second component `f` equals the `f_min` computed by the first (optimal
open-cost) pass.  On the concrete input below (2×3 open map, agent from
`(0,0)` to `(0,2)`, `w = 2`, another agent parked on `(0,1)` forever) the
first pass computes `f_min = 2`, but the function returns the second pass's
accepted `f_open`, which is the suboptimal path cost `4 ≠ 2`.  The caller
(`focal_a_star_search`) binds this component as `f_min`, asserts the
suboptimality bound against it (rendered vacuous) and gates MDD construction
on it, so the source's own usage shows the first-pass `f_min` was intended. -/
theorem C3_double_search_returns_cost_not_f_min :
    (standard_focal_double_search 64 mapTwoRows agentTwoRows 2 [] 0 0 pathsParked
        Stats.default).map Prod.fst =
      some (some ([(0, 0), (1, 0), (1, 1), (1, 2), (0, 2)], 4)) ∧
    (standard_a_star_search_open_cost 64 mapTwoRows agentTwoRows [] 0 0
        Stats.default).map (fun r => r.1.map Prod.snd) = some (some 2) ∧
    (4 : Nat) ≠ 2 := by
  refine ⟨of_decide_eq_true (by with_unfolding_all rfl), by decide, by decide⟩

/-- **C4** (refuted; the spec is the intent and the code a slip): the claim
states that in every low-level search, once a node's `time_step` exceeds the
constraint horizon `T*`, its successors keep the same `time_step`.  In
`standard_focal_a_star_search` the freshly created successor nodes are given
`time_step = tentative_g_cost` (`src/algorithm/astarfocal.rs` line 249)
instead of the computed `tentative_time_step`, contradicting the comment
right above ("after constraint limit, we fixed time step as T + 1") and the
sibling searches.  Concretely, on the open 1×3 corridor with no constraints
(`T* = 0`), the second iteration pops the node at `(0,1)` with
`time_step = 1 > T*` and generates the successor at `(0,2)` with `g = 2` and
`time_step = 2 ≠ 1`. -/
theorem C4_focal_time_step_not_frozen :
    focalRow3Step1.isRight = true ∧
    ((btPopFirst focalCmp (focalStateOr emptyFocalState focalRow3Step1).focal_list).map
      fun x => (x.1.position, x.1.g_cost, x.1.time_step)) = some ((0, 1), 1, 1) ∧
    focalRow3Step2.isRight = true ∧
    (∃ n ∈ (focalStateOr emptyFocalState focalRow3Step2).open_list,
      n.position = (0, 2) ∧ n.g_cost = 2 ∧ n.time_step = 2) ∧
    (1 : Nat) > 0 := by
  refine ⟨of_decide_eq_true (by with_unfolding_all rfl),
    of_decide_eq_true (by with_unfolding_all rfl),
    of_decide_eq_true (by with_unfolding_all rfl),
    of_decide_eq_true (by with_unfolding_all rfl), by decide⟩

/-- **C8** (refuted; the spec is the intent and the code a slip): the claim
states that for an agent whose goal is unreachable (heuristic `usize::MAX`)
the low-level search returns a clean `None` without panic or arithmetic
overflow while computing `f_open = g + h`.  On the 1×3 corridor with a
blocked middle cell the very first expansion computes
`f_open = 1 + usize::MAX`, which overflows `usize` (a panic in debug builds,
a silent wrap in release); the embedding, which uses unbounded naturals,
exhibits the node with `f_open_cost = USIZE_MAX + 1` in the open list.  The
search does still return `None` afterwards. -/
theorem C8_unreachable_goal_overflows :
    (standard_a_star_search_open_cost 8 mapBlocked agentBlocked [] 0 0
        Stats.default).map Prod.fst = some none ∧
    (standard_a_star_search_open_cost_step mapBlocked agentBlocked [] 0 0
      (initAStarState mapBlocked agentBlocked Stats.default)).isRight = true ∧
    (∃ n ∈ (astarStateOr (initAStarState mapBlocked agentBlocked Stats.default)
        (standard_a_star_search_open_cost_step mapBlocked agentBlocked [] 0 0
          (initAStarState mapBlocked agentBlocked Stats.default))).open_list,
      n.g_cost = 1 ∧ n.f_open_cost = USIZE_MAX + 1) := by
  refine ⟨by decide, by decide, by decide⟩

/-- **C9** (refuted; the spec itself flags the double counting as a bug):
the claim states that each iteration of the alternating focal A* increases
`low_level_expand_open_nodes + low_level_expand_focal_nodes` by exactly one.
In `alternating_focal_a_star_search` a focal pop first increments the focal
counter and then, because the `use_focal` flag has already been toggled, the
post-branch `if` increments the open counter as well (and symmetrically for
open pops), so every iteration adds exactly two.  Concretely, starting from
zeroed statistics on the open 1×3 corridor, one iteration leaves the two
counters summing to `2`, not `1`. -/
theorem C9_alternating_double_counts_expansions :
    (initFocalState mapRow3 agentRow3 Stats.default).stats.low_level_expand_open_nodes +
      (initFocalState mapRow3 agentRow3 Stats.default).stats.low_level_expand_focal_nodes
      = 0 ∧
    (alternating_focal_a_star_search_step mapRow3 agentRow3 1 [] 0 0 [] true
      (initFocalState mapRow3 agentRow3 Stats.default)).isRight = true ∧
    ((altStateOr (true, emptyFocalState)
        (alternating_focal_a_star_search_step mapRow3 agentRow3 1 [] 0 0 [] true
          (initFocalState mapRow3 agentRow3 Stats.default))).2.stats.low_level_expand_open_nodes +
      (altStateOr (true, emptyFocalState)
        (alternating_focal_a_star_search_step mapRow3 agentRow3 1 [] 0 0 [] true
          (initFocalState mapRow3 agentRow3 Stats.default))).2.stats.low_level_expand_focal_nodes
        = 2) ∧
    (2 : Nat) ≠ 1 := by
  refine ⟨by decide, of_decide_eq_true (by with_unfolding_all rfl),
    of_decide_eq_true (by with_unfolding_all rfl), by decide⟩

/-! ### Generic fold and ordered-set helpers -/

theorem foldl_preserve (P : β → Prop) (f : β → α → β) (l : List α)
    (h : ∀ b a, P b → a ∈ l → P (f b a)) (b : β) (hb : P b) : P (l.foldl f b) := by
  induction l generalizing b with
  | nil => exact hb
  | cons x t ih =>
      exact ih (fun b a hb ha => h b a hb (List.mem_cons_of_mem x ha)) (f b x)
        (h b x hb (List.mem_cons_self x t))

theorem foldl_extend_superset (F : List γ → α → List γ)
    (hF : ∀ l x, ∃ s, F l x = l ++ s) :
    ∀ (l : List α) (init : List γ), ∃ s, l.foldl F init = init ++ s := by
  intro l
  induction l with
  | nil => intro init; exact ⟨[], by simp⟩
  | cons x t ih =>
      intro init
      obtain ⟨s1, hs1⟩ := hF init x
      obtain ⟨s2, hs2⟩ := ih (F init x)
      exact ⟨s1 ++ s2, by rw [List.foldl_cons, hs2, hs1, List.append_assoc]⟩

theorem foldl_extend_ne_nil (F : List γ → α → List γ)
    (hF : ∀ l x, ∃ s, F l x = l ++ s) (l : List α) (init : List γ)
    (hinit : init ≠ []) : l.foldl F init ≠ [] := by
  obtain ⟨s, hs⟩ := foldl_extend_superset F hF l init
  rw [hs]
  intro hcon
  rw [List.append_eq_nil] at hcon
  exact hinit hcon.1

theorem foldl_mem_extend_ne_nil (F : List γ → α → List γ)
    (hF : ∀ l x, ∃ s, F l x = l ++ s) (l : List α) (x : α) (hx : x ∈ l)
    (hne : ∀ init, F init x ≠ []) : ∀ init, l.foldl F init ≠ [] := by
  induction l with
  | nil => exact absurd hx (List.not_mem_nil x)
  | cons y t ih =>
      intro init
      rw [List.foldl_cons]
      rcases List.mem_cons.mp hx with rfl | hx
      · exact foldl_extend_ne_nil F hF t (F init x) (hne init)
      · exact ih hx (F init y)

theorem ite_append_suffix {c : Prop} [Decidable c] {l a b : List γ}
    (ha : ∃ s, a = l ++ s) (hb : ∃ s, b = l ++ s) : ∃ s, (if c then a else b) = l ++ s := by
  split
  · exact ha
  · exact hb

theorem append_suffix_append {l a : List γ} (ha : ∃ s, a = l ++ s) (e : List γ) :
    ∃ s, a ++ e = l ++ s := by
  obtain ⟨s, hs⟩ := ha
  exact ⟨s ++ e, by rw [hs, List.append_assoc]⟩

theorem self_suffix (l : List γ) : ∃ s, l = l ++ s := ⟨[], by simp⟩

theorem btMin?_mem (cmp : α → α → Ordering) (l : List α) (a : α)
    (h : btMin? cmp l = some a) : a ∈ l := by
  cases l with
  | nil => simp [btMin?] at h
  | cons x t =>
      simp only [btMin?, Option.some.injEq] at h
      subst h
      have key : ∀ (t : List α) (b : α),
          t.foldl (fun best y => if cmp y best = .lt then y else best) b ∈ b :: t := by
        intro t
        induction t with
        | nil => intro b; simp
        | cons y t ih =>
            intro b
            rw [List.foldl_cons]
            have h2 := ih (if cmp y b = .lt then y else b)
            rcases List.mem_cons.mp h2 with h | h
            · rw [h]
              split
              · exact List.mem_cons_of_mem b (List.mem_cons_self y t)
              · exact List.mem_cons_self b (y :: t)
            · exact List.mem_cons_of_mem b (List.mem_cons_of_mem y h)
      exact key t x

theorem btErase_subset (cmp : α → α → Ordering) :
    ∀ (l : List α) (a x : α), x ∈ btErase cmp l a → x ∈ l := by
  intro l
  induction l with
  | nil => intro a x h; simp [btErase] at h
  | cons y t ih =>
      intro a x h
      simp only [btErase] at h
      split at h
      · exact List.mem_cons_of_mem y h
      · rcases List.mem_cons.mp h with h | h
        · rw [h]; exact List.mem_cons_self y t
        · exact List.mem_cons_of_mem y (ih a x h)

theorem btPopFirst_spec (cmp : α → α → Ordering) (l : List α) (a : α) (r : List α)
    (h : btPopFirst cmp l = some (a, r)) : a ∈ l ∧ ∀ x ∈ r, x ∈ l := by
  unfold btPopFirst at h
  split at h
  · exact absurd h (by simp)
  · rename_i m hm
    simp only [Option.some.injEq, Prod.mk.injEq] at h
    obtain ⟨h1, h2⟩ := h
    subst h1
    subst h2
    exact ⟨btMin?_mem cmp l _ hm, fun x hx => btErase_subset cmp l _ x hx⟩

theorem btPopFirst_none (cmp : α → α → Ordering) (l : List α) :
    btPopFirst cmp l = none ↔ l = [] := by
  cases l <;> simp [btPopFirst, btMin?]

theorem btInsert_mem (cmp : α → α → Ordering) (l : List α) (a x : α)
    (h : x ∈ (btInsert cmp l a).1) : x = a ∨ x ∈ l := by
  unfold btInsert at h
  split at h
  · exact Or.inr h
  · rcases List.mem_cons.mp h with h | h
    · exact Or.inl h
    · exact Or.inr h

/-! ### Trace and anchoring helpers -/

theorem traceLookup_cons (e : (Pos × Nat) × (Pos × Nat)) (tr : Trace) (k : Pos × Nat) :
    traceLookup (e :: tr) k = if e.1 = k then some e.2 else traceLookup tr k := by
  by_cases h : e.1 = k <;> simp [traceLookup, List.find?_cons, h]

theorem traceLookup_some_mem (tr : Trace) (k v : Pos × Nat)
    (h : traceLookup tr k = some v) : (k, v) ∈ tr := by
  unfold traceLookup at h
  obtain ⟨kv, hfind, hmap⟩ := Option.map_eq_some'.mp h
  have hk : kv.1 = k := by simpa using List.find?_some hfind
  have hm := List.mem_of_find?_eq_some hfind
  have hkv : kv = (k, v) := Prod.ext hk hmap
  rwa [hkv] at hm

theorem keyAnchored_cons (start : Pos) (e : (Pos × Nat) × (Pos × Nat)) (tr : Trace)
    (k : Pos × Nat) (h : keyAnchored start tr k) : keyAnchored start (e :: tr) k := by
  rcases h with h | ⟨h1, v, hv⟩
  · exact Or.inl h
  · refine Or.inr ⟨h1, ?_⟩
    rw [traceLookup_cons]
    split
    · exact ⟨_, rfl⟩
    · exact ⟨v, hv⟩

theorem keyAnchored_head (start : Pos) (e : (Pos × Nat) × (Pos × Nat)) (tr : Trace)
    (h : 1 ≤ e.1.2) : keyAnchored start (e :: tr) e.1 :=
  Or.inr ⟨h, e.2, by rw [traceLookup_cons, if_pos rfl]⟩

theorem traceEntryOK_cons (m : Map) (C : ConstraintSet) (start : Pos)
    (e e' : (Pos × Nat) × (Pos × Nat)) (tr : Trace)
    (h : traceEntryOK m C start tr e') : traceEntryOK m C start (e :: tr) e' := by
  obtain ⟨h1, h2, h3, h4, h5⟩ := h
  refine ⟨h1, h2, h3, h4, fun hge => ?_⟩
  obtain ⟨q, hq⟩ := h5 hge
  rw [traceLookup_cons]
  split
  · exact ⟨_, rfl⟩
  · exact ⟨q, hq⟩

theorem traceOK_cons (m : Map) (C : ConstraintSet) (start : Pos) (tr : Trace)
    (e : (Pos × Nat) × (Pos × Nat)) (htr : traceOK m C start tr)
    (h1 : e.1.2 = e.2.2 + 1) (h2 : e.1.1 ∈ m.get_neighbors e.2.1.1 e.2.1.2 true)
    (h3 : ∀ c ∈ C, c.is_violated e.2.1 e.1.1 e.1.2 = false)
    (h4 : keyAnchored start tr e.2) : traceOK m C start (e :: tr) := by
  intro e' he'
  rcases List.mem_cons.mp he' with rfl | he'
  · refine ⟨h1, h2, h3, ?_, ?_⟩
    · intro h0
      rcases h4 with ⟨-, hs⟩ | ⟨hge, -⟩
      · exact hs
      · omega
    · intro hge
      rcases h4 with ⟨h0, -⟩ | ⟨-, v, hv⟩
      · omega
      · rw [traceLookup_cons]
        split
        · exact ⟨_, rfl⟩
        · exact ⟨v, hv⟩
  · exact traceEntryOK_cons m C start e e' tr (htr e' he')

/-! ### Neighbor-list consequences -/

theorem get_neighbors_mono (m : Map) (x y : Nat) (iw : Bool) (p : Pos)
    (h : p ∈ m.get_neighbors x y iw) : p ∈ m.get_neighbors x y true := by
  rw [mem_get_neighbors] at h ⊢
  rcases h with h | h | h | h | ⟨-, h⟩
  · exact Or.inl h
  · exact Or.inr (Or.inl h)
  · exact Or.inr (Or.inr (Or.inl h))
  · exact Or.inr (Or.inr (Or.inr (Or.inl h)))
  · exact Or.inr (Or.inr (Or.inr (Or.inr ⟨rfl, h⟩)))

theorem passable_of_mem_neighbors (m : Map) (x y : Nat) (iw : Bool) (p : Pos)
    (h : p ∈ m.get_neighbors x y iw) : m.passable p = true := by
  rw [mem_get_neighbors] at h
  rcases h with ⟨-, -, -, h, rfl⟩ | ⟨-, -, h, rfl⟩ | ⟨-, -, -, h, rfl⟩ | ⟨-, -, h, rfl⟩ |
    ⟨-, -, -, h, rfl⟩ <;> exact h

theorem are_neighbors_of_mem (m : Map) (x y : Nat) (iw : Bool) (p : Pos)
    (h : p ∈ m.get_neighbors x y iw) : Solution.are_neighbors (x, y) p = true := by
  rw [mem_get_neighbors] at h
  unfold Solution.are_neighbors
  rcases h with ⟨h1, -, -, -, rfl⟩ | ⟨-, -, -, rfl⟩ | ⟨h1, -, -, -, rfl⟩ | ⟨-, -, -, rfl⟩ |
    ⟨-, -, -, -, rfl⟩ <;> simp <;> omega

/-! ### Padded positions -/

theorem padPos_lt (p : Path) (t : Nat) (h : t < p.length) : padPos p t = p.getD t (0, 0) := by
  unfold padPos
  rw [if_pos h]

theorem padPos_last (p : Path) (t : Nat) (hp : p ≠ []) (h : p.length - 1 ≤ t) :
    padPos p t = (p.getLast?).getD (0, 0) := by
  unfold padPos
  by_cases hlt : t < p.length
  · rw [if_pos hlt]
    have hlen : 0 < p.length := List.length_pos.mpr hp
    have ht : t = p.length - 1 := by omega
    subst ht
    rw [List.getD_eq_getElem?_getD, List.getLast?_eq_getElem?]
  · rw [if_neg hlt]

theorem padPos_mem (p : Path) (t : Nat) (hp : p ≠ []) : padPos p t ∈ p := by
  unfold padPos
  split
  · rename_i h
    rw [List.getD_eq_getElem?_getD, List.getElem?_eq_getElem h]
    exact List.getElem_mem h
  · have h0 : 0 < p.length := List.length_pos.mpr hp
    rw [List.getLast?_eq_getElem?, List.getElem?_eq_getElem (by omega)]
    exact List.getElem_mem (by omega)

/-! ### Path reconstruction from the trace -/

theorem construct_path_go_spec (m : Map) (C : ConstraintSet) (start : Pos) (tr : Trace)
    (htr : traceOK m C start tr) :
    ∀ (g : Nat) (p : Pos), keyAnchored start tr (p, g) →
      (construct_path_go tr g (p, g)).length = g + 1 ∧
      (construct_path_go tr g (p, g)).head? = some p ∧
      (construct_path_go tr g (p, g)).getLast? = some start ∧
      List.Chain' (fun a b => a ∈ m.get_neighbors b.1 b.2 true)
        (construct_path_go tr g (p, g)) ∧
      (∀ i, i + 1 ≤ g → ∀ c ∈ C,
        c.is_violated ((construct_path_go tr g (p, g)).getD (i + 1) (0, 0))
          ((construct_path_go tr g (p, g)).getD i (0, 0)) (g - i) = false) := by
  intro g
  induction g with
  | zero =>
      intro p ha
      rcases ha with ⟨-, hp⟩ | ⟨h1, -⟩
      · subst hp
        refine ⟨rfl, rfl, rfl, List.chain'_singleton _, ?_⟩
        intro i hi
        omega
      · omega
  | succ g ih =>
      intro p ha
      rcases ha with ⟨h0, -⟩ | ⟨-, prev, hl⟩
      · omega
      · have hmem : (((p, g + 1), prev) : (Pos × Nat) × (Pos × Nat)) ∈ tr :=
          traceLookup_some_mem tr _ _ hl
        obtain ⟨hgt, hnb, hcon, hz, hres⟩ := htr _ hmem
        have hgt2 : g + 1 = prev.2 + 1 := hgt
        have hprev2 : prev.2 = g := by omega
        have heq : (prev.1, g) = prev := by rw [← hprev2]
        have hanc : keyAnchored start tr (prev.1, g) := by
          rw [heq]
          by_cases hp0 : prev.2 = 0
          · exact Or.inl ⟨hp0, hz hp0⟩
          · exact Or.inr ⟨Nat.one_le_iff_ne_zero.mpr hp0, hres (Nat.one_le_iff_ne_zero.mpr hp0)⟩
        obtain ⟨ihlen, ihhead, ihlast, ihchain, ihcon⟩ := ih prev.1 hanc
        have hstep : construct_path_go tr (g + 1) (p, g + 1) =
            p :: construct_path_go tr g prev := by
          simp only [construct_path_go]
          rw [hl]
        rw [← heq] at hstep
        rw [hstep]
        have hne : construct_path_go tr g (prev.1, g) ≠ [] := by
          intro hcontra
          rw [hcontra] at ihhead
          simp at ihhead
        refine ⟨by simp [ihlen], rfl, ?_, ?_, ?_⟩
        · cases hcl : construct_path_go tr g (prev.1, g) with
          | nil => exact absurd hcl hne
          | cons a t =>
              rw [List.getLast?_cons_cons]
              rw [hcl] at ihlast
              exact ihlast
        · rw [List.chain'_cons']
          refine ⟨?_, ihchain⟩
          intro y hy
          rw [ihhead] at hy
          simp only [Option.mem_def, Option.some.injEq] at hy
          subst hy
          exact hnb
        · intro i hi c hc
          cases i with
          | zero =>
              have hd0 : (p :: construct_path_go tr g (prev.1, g)).getD 0 (0, 0) = p := rfl
              have hd1 : (p :: construct_path_go tr g (prev.1, g)).getD 1 (0, 0) = prev.1 := by
                cases hcl : construct_path_go tr g (prev.1, g) with
                | nil => exact absurd hcl hne
                | cons a t =>
                    rw [hcl] at ihhead
                    simp only [List.head?_cons, Option.some.injEq] at ihhead
                    simp [ihhead]
              rw [hd0, hd1]
              have harr : g + 1 - 0 = g + 1 := by omega
              rw [harr]
              exact hcon c hc
          | succ i' =>
              have hd1 : (p :: construct_path_go tr g (prev.1, g)).getD (i' + 1 + 1) (0, 0) =
                  (construct_path_go tr g (prev.1, g)).getD (i' + 1) (0, 0) := rfl
              have hd2 : (p :: construct_path_go tr g (prev.1, g)).getD (i' + 1) (0, 0) =
                  (construct_path_go tr g (prev.1, g)).getD i' (0, 0) := rfl
              have harr : g + 1 - (i' + 1) = g - i' := by omega
              rw [hd1, hd2, harr]
              exact ihcon i' (by omega) c hc

theorem getD_reverse (l : List α) (i : Nat) (h : i < l.length) (d : α) :
    l.reverse.getD i d = l.getD (l.length - 1 - i) d := by
  rw [List.getD_eq_getElem?_getD, List.getD_eq_getElem?_getD,
    List.getElem?_eq_getElem (by simpa using h), List.getElem?_eq_getElem (by omega)]
  simp [List.getElem_reverse]

theorem construct_path_spec (m : Map) (C : ConstraintSet) (start : Pos) (tr : Trace)
    (htr : traceOK m C start tr) (p : Pos) (g : Nat)
    (ha : keyAnchored start tr (p, g)) :
    (construct_path tr (p, g)).length = g + 1 ∧
    (construct_path tr (p, g)).head? = some start ∧
    (construct_path tr (p, g)).getLast? = some p ∧
    pathChainOK m (construct_path tr (p, g)) ∧
    (∀ i, i + 1 < (construct_path tr (p, g)).length → ∀ c ∈ C,
      c.is_violated ((construct_path tr (p, g)).getD i (0, 0))
        ((construct_path tr (p, g)).getD (i + 1) (0, 0)) (i + 1) = false) := by
  obtain ⟨hlen, hhead, hlast, hchain, hcon⟩ := construct_path_go_spec m C start tr htr g p ha
  unfold construct_path
  refine ⟨by simpa using hlen, ?_, ?_, ?_, ?_⟩
  · rw [List.head?_reverse]
    exact hlast
  · rw [List.getLast?_reverse]
    exact hhead
  · unfold pathChainOK
    rw [List.chain'_reverse]
    exact hchain
  · intro i hi c hc
    simp only [List.length_reverse, hlen] at hi
    have h1 : (construct_path_go tr g (p, g)).reverse.getD i (0, 0) =
        (construct_path_go tr g (p, g)).getD (g - i) (0, 0) := by
      rw [getD_reverse _ _ (by omega) _, hlen]
      congr 1
    have h2 : (construct_path_go tr g (p, g)).reverse.getD (i + 1) (0, 0) =
        (construct_path_go tr g (p, g)).getD (g - i - 1) (0, 0) := by
      rw [getD_reverse _ _ (by omega) _, hlen]
      congr 1
    rw [h1, h2]
    have harr : i + 1 = g - (g - i - 1) := by omega
    rw [harr]
    have hidx : g - i = g - i - 1 + 1 := by omega
    rw [hidx]
    exact hcon (g - i - 1) (by omega) c hc

/-! ### Soundness of the open-cost A* -/

theorem btInsert_snd_false (cmp : α → α → Ordering) (l : List α) (a : α)
    (h : (btInsert cmp l a).2 = false) : (btInsert cmp l a).1 = l := by
  unfold btInsert at h ⊢
  split at h
  · rename_i hc
    rw [if_pos hc]
  · simp at h

theorem astarExpandNeighbor_inv (start : Pos) (map : Map) (agent : Agent)
    (constraints : ConstraintSet) (current : LowLevelNode) (ts : Nat)
    (closed : List (Pos × Nat)) (acc : List LowLevelNode × Trace) (nb : Pos)
    (hnb : nb ∈ map.get_neighbors current.position.1 current.position.2 true)
    (h1 : traceOK map constraints start acc.2)
    (h2 : nodesAnchored start acc.2 acc.1)
    (h3 : keyAnchored start acc.2 (current.position, current.g_cost)) :
    traceOK map constraints start
      (astarExpandNeighbor map agent constraints current (current.g_cost + 1) ts
        closed acc nb).2 ∧
    nodesAnchored start
      (astarExpandNeighbor map agent constraints current (current.g_cost + 1) ts
        closed acc nb).2
      (astarExpandNeighbor map agent constraints current (current.g_cost + 1) ts
        closed acc nb).1 ∧
    keyAnchored start
      (astarExpandNeighbor map agent constraints current (current.g_cost + 1) ts
        closed acc nb).2 (current.position, current.g_cost) := by
  by_cases hcl : ((nb, ts) : Pos × Nat) ∈ closed
  · simp only [astarExpandNeighbor, if_pos hcl]
    exact ⟨h1, h2, h3⟩
  · by_cases hv : (constraints.any fun c =>
        c.is_violated current.position nb (current.g_cost + 1)) = true
    · simp only [astarExpandNeighbor, if_neg hcl, if_pos hv]
      exact ⟨h1, h2, h3⟩
    · have hv2 : ∀ c ∈ constraints,
          c.is_violated current.position nb (current.g_cost + 1) = false := by
        intro c hc
        cases hb : c.is_violated current.position nb (current.g_cost + 1) with
        | false => rfl
        | true => exact absurd (List.any_eq_true.mpr ⟨c, hc, hb⟩) hv
      simp only [astarExpandNeighbor, if_neg hcl, if_neg hv]
      split
      · refine ⟨?_, ?_, ?_⟩
        · exact traceOK_cons map constraints start acc.2
            ((nb, current.g_cost + 1), (current.position, current.g_cost)) h1 rfl hnb hv2 h3
        · intro n hn
          rcases btInsert_mem openCmp acc.1 _ n hn with rfl | hn3
          · exact keyAnchored_head start
              ((nb, current.g_cost + 1), (current.position, current.g_cost)) acc.2
              (Nat.succ_le_succ (Nat.zero_le _))
          · exact keyAnchored_cons start _ acc.2 _ (h2 n hn3)
        · exact keyAnchored_cons start _ acc.2 _ h3
      · rename_i hb
        have hb2 := (Bool.not_eq_true _) ▸ hb
        have hfst := btInsert_snd_false openCmp acc.1 (create_open_node nb
          (current.g_cost + 1 + map.heuristic agent.id nb) (current.g_cost + 1) ts) hb2
        rw [hfst]
        exact ⟨h1, h2, h3⟩

theorem astarExpandFold_inv (start : Pos) (map : Map) (agent : Agent)
    (constraints : ConstraintSet) (current : LowLevelNode) (ts : Nat)
    (closed : List (Pos × Nat)) (iw : Bool) (acc : List LowLevelNode × Trace)
    (h1 : traceOK map constraints start acc.2)
    (h2 : nodesAnchored start acc.2 acc.1)
    (h3 : keyAnchored start acc.2 (current.position, current.g_cost)) :
    traceOK map constraints start
      ((map.get_neighbors current.position.1 current.position.2 iw).foldl
        (astarExpandNeighbor map agent constraints current (current.g_cost + 1) ts closed)
        acc).2 ∧
    nodesAnchored start
      ((map.get_neighbors current.position.1 current.position.2 iw).foldl
        (astarExpandNeighbor map agent constraints current (current.g_cost + 1) ts closed)
        acc).2
      ((map.get_neighbors current.position.1 current.position.2 iw).foldl
        (astarExpandNeighbor map agent constraints current (current.g_cost + 1) ts closed)
        acc).1 ∧
    keyAnchored start
      ((map.get_neighbors current.position.1 current.position.2 iw).foldl
        (astarExpandNeighbor map agent constraints current (current.g_cost + 1) ts closed)
        acc).2 (current.position, current.g_cost) :=
  foldl_preserve
    (fun acc : List LowLevelNode × Trace =>
      traceOK map constraints start acc.2 ∧ nodesAnchored start acc.2 acc.1 ∧
        keyAnchored start acc.2 (current.position, current.g_cost))
    (astarExpandNeighbor map agent constraints current (current.g_cost + 1) ts closed)
    (map.get_neighbors current.position.1 current.position.2 iw)
    (fun b a hb ha =>
      astarExpandNeighbor_inv start map agent constraints current ts closed b a
        (get_neighbors_mono map current.position.1 current.position.2 iw a ha)
        hb.1 hb.2.1 hb.2.2)
    acc ⟨h1, h2, h3⟩

theorem open_cost_step_inv (map : Map) (agent : Agent) (constraints : ConstraintSet)
    (L T : Nat) (st : AStarState) (hinv : astarInv map constraints agent.start st) :
    (∀ st', standard_a_star_search_open_cost_step map agent constraints L T st = .inr st' →
      astarInv map constraints agent.start st') ∧
    (∀ path f stats', standard_a_star_search_open_cost_step map agent constraints L T st =
        .inl (some (path, f), stats') →
      specSatPath map agent constraints path ∧ L + 2 ≤ path.length) := by
  obtain ⟨htr, hnodes⟩ := hinv
  constructor
  · intro st' h
    unfold standard_a_star_search_open_cost_step at h
    split at h
    · exact absurd h (by simp)
    · rename_i current open1 hpop
      obtain ⟨hcur, hsub⟩ := btPopFirst_spec openCmp st.open_list current open1 hpop
      simp only [] at h
      split at h
      · exact absurd h (by simp)
      · injection h with h
        subst h
        refine ⟨?_, ?_⟩
        · exact (astarExpandFold_inv agent.start map agent constraints current _ _ _ _
            htr (fun n hn => hnodes n (hsub n hn)) (hnodes current hcur)).1
        · exact (astarExpandFold_inv agent.start map agent constraints current _ _ _ _
            htr (fun n hn => hnodes n (hsub n hn)) (hnodes current hcur)).2.1
  · intro path f stats' h
    unfold standard_a_star_search_open_cost_step at h
    split at h
    · rename_i hpop
      injection h with h
      simp at h
    · rename_i current open1 hpop
      obtain ⟨hcur, -⟩ := btPopFirst_spec openCmp st.open_list current open1 hpop
      simp only [] at h
      split at h
      · rename_i hacc
        injection h with h
        simp only [Prod.mk.injEq, Option.some.injEq] at h
        obtain ⟨⟨hpath, -⟩, -⟩ := h
        subst hpath
        obtain ⟨hlen, hhead, hlast, hchain, hcons⟩ :=
          construct_path_spec map constraints agent.start st.trace htr
            current.position current.g_cost (hnodes current hcur)
        refine ⟨⟨⟨hhead, ?_, hchain⟩, hcons⟩, ?_⟩
        · rw [hlast, hacc.1]
        · rw [hlen]
          omega
      · exact absurd h (by simp)

theorem open_cost_loop_sound (map : Map) (agent : Agent) (constraints : ConstraintSet)
    (L T : Nat) :
    ∀ (fuel : Nat) (st : AStarState), astarInv map constraints agent.start st →
      ∀ path f stats',
        standard_a_star_search_open_cost_loop map agent constraints L T fuel st =
          some (some (path, f), stats') →
        specSatPath map agent constraints path ∧ L + 2 ≤ path.length := by
  intro fuel
  induction fuel with
  | zero =>
      intro st _ path f stats' h
      exact absurd h (by simp [standard_a_star_search_open_cost_loop])
  | succ fuel ih =>
      intro st hinv path f stats' h
      simp only [standard_a_star_search_open_cost_loop] at h
      split at h
      · rename_i r hstep
        injection h with h
        subst h
        exact (open_cost_step_inv map agent constraints L T st hinv).2 path f stats' hstep
      · rename_i st' hstep
        exact ih st' ((open_cost_step_inv map agent constraints L T st hinv).1 st' hstep)
          path f stats' h

theorem initAStarState_inv (map : Map) (agent : Agent) (constraints : ConstraintSet)
    (stats : Stats) :
    astarInv map constraints agent.start (initAStarState map agent stats) := by
  constructor
  · intro e he
    simp [initAStarState] at he
  · intro n hn
    simp only [initAStarState, List.mem_singleton] at hn
    subst hn
    exact Or.inl ⟨rfl, rfl⟩

theorem open_cost_sound (fuel : Nat) (map : Map) (agent : Agent)
    (constraints : ConstraintSet) (L T : Nat) (stats : Stats) (path : Path) (f : Nat)
    (stats' : Stats)
    (h : standard_a_star_search_open_cost fuel map agent constraints L T stats =
      some (some (path, f), stats')) :
    specSatPath map agent constraints path ∧ L + 2 ≤ path.length := by
  unfold standard_a_star_search_open_cost at h
  exact open_cost_loop_sound map agent constraints L T fuel _
    (initAStarState_inv map agent constraints stats) path f stats' h

/-! ### Soundness of the bounded focal-cost A* -/

theorem focalCostExpandNeighbor_inv (start : Pos) (map : Map) (agent : Agent)
    (constraints : ConstraintSet) (paths : List Path) (opt_cost : ℚ)
    (current : LowLevelNode) (ts : Nat) (closed : List (Pos × Nat))
    (acc : List LowLevelNode × Trace) (nb : Pos)
    (hnb : nb ∈ map.get_neighbors current.position.1 current.position.2 true)
    (h1 : traceOK map constraints start acc.2)
    (h2 : nodesAnchored start acc.2 acc.1)
    (h3 : keyAnchored start acc.2 (current.position, current.g_cost)) :
    traceOK map constraints start
      (focalCostExpandNeighbor map agent constraints paths opt_cost current
        (current.g_cost + 1) ts closed acc nb).2 ∧
    nodesAnchored start
      (focalCostExpandNeighbor map agent constraints paths opt_cost current
        (current.g_cost + 1) ts closed acc nb).2
      (focalCostExpandNeighbor map agent constraints paths opt_cost current
        (current.g_cost + 1) ts closed acc nb).1 ∧
    keyAnchored start
      (focalCostExpandNeighbor map agent constraints paths opt_cost current
        (current.g_cost + 1) ts closed acc nb).2 (current.position, current.g_cost) := by
  by_cases hpr : ((current.g_cost + 1 + map.heuristic agent.id nb : Nat) : ℚ) > opt_cost
  · simp only [focalCostExpandNeighbor, if_pos hpr]
    exact ⟨h1, h2, h3⟩
  · by_cases hcl : ((nb, ts) : Pos × Nat) ∈ closed
    · simp only [focalCostExpandNeighbor, if_neg hpr, if_pos hcl]
      exact ⟨h1, h2, h3⟩
    · by_cases hv : (constraints.any fun c =>
          c.is_violated current.position nb (current.g_cost + 1)) = true
      · simp only [focalCostExpandNeighbor, if_neg hpr, if_neg hcl, if_pos hv]
        exact ⟨h1, h2, h3⟩
      · have hv2 : ∀ c ∈ constraints,
            c.is_violated current.position nb (current.g_cost + 1) = false := by
          intro c hc
          cases hb : c.is_violated current.position nb (current.g_cost + 1) with
          | false => rfl
          | true => exact absurd (List.any_eq_true.mpr ⟨c, hc, hb⟩) hv
        simp only [focalCostExpandNeighbor, if_neg hpr, if_neg hcl, if_neg hv]
        split
        · refine ⟨?_, ?_, ?_⟩
          · exact traceOK_cons map constraints start acc.2
              ((nb, current.g_cost + 1), (current.position, current.g_cost)) h1 rfl hnb
              hv2 h3
          · intro n hn
            rcases btInsert_mem focalCmp acc.1 _ n hn with rfl | hn3
            · exact keyAnchored_head start
                ((nb, current.g_cost + 1), (current.position, current.g_cost)) acc.2
                (Nat.succ_le_succ (Nat.zero_le _))
            · exact keyAnchored_cons start _ acc.2 _ (h2 n hn3)
          · exact keyAnchored_cons start _ acc.2 _ h3
        · rename_i hb
          have hb2 := (Bool.not_eq_true _) ▸ hb
          have hfst := btInsert_snd_false focalCmp acc.1 (create_focal_node nb
            (current.g_cost + 1 + map.heuristic agent.id nb)
            (current.f_focal_cost +
              heuristic_focal agent.id nb current.position (current.g_cost + 1) paths)
            (current.g_cost + 1) ts) hb2
          rw [hfst]
          exact ⟨h1, h2, h3⟩

theorem focalCostExpandFold_inv (start : Pos) (map : Map) (agent : Agent)
    (constraints : ConstraintSet) (paths : List Path) (opt_cost : ℚ)
    (current : LowLevelNode) (ts : Nat) (closed : List (Pos × Nat)) (iw : Bool)
    (acc : List LowLevelNode × Trace)
    (h1 : traceOK map constraints start acc.2)
    (h2 : nodesAnchored start acc.2 acc.1)
    (h3 : keyAnchored start acc.2 (current.position, current.g_cost)) :
    traceOK map constraints start
      ((map.get_neighbors current.position.1 current.position.2 iw).foldl
        (focalCostExpandNeighbor map agent constraints paths opt_cost current
          (current.g_cost + 1) ts closed) acc).2 ∧
    nodesAnchored start
      ((map.get_neighbors current.position.1 current.position.2 iw).foldl
        (focalCostExpandNeighbor map agent constraints paths opt_cost current
          (current.g_cost + 1) ts closed) acc).2
      ((map.get_neighbors current.position.1 current.position.2 iw).foldl
        (focalCostExpandNeighbor map agent constraints paths opt_cost current
          (current.g_cost + 1) ts closed) acc).1 ∧
    keyAnchored start
      ((map.get_neighbors current.position.1 current.position.2 iw).foldl
        (focalCostExpandNeighbor map agent constraints paths opt_cost current
          (current.g_cost + 1) ts closed) acc).2 (current.position, current.g_cost) :=
  foldl_preserve
    (fun acc : List LowLevelNode × Trace =>
      traceOK map constraints start acc.2 ∧ nodesAnchored start acc.2 acc.1 ∧
        keyAnchored start acc.2 (current.position, current.g_cost))
    (focalCostExpandNeighbor map agent constraints paths opt_cost current
      (current.g_cost + 1) ts closed)
    (map.get_neighbors current.position.1 current.position.2 iw)
    (fun b a hb ha =>
      focalCostExpandNeighbor_inv start map agent constraints paths opt_cost current ts
        closed b a (get_neighbors_mono map current.position.1 current.position.2 iw a ha)
        hb.1 hb.2.1 hb.2.2)
    acc ⟨h1, h2, h3⟩

theorem focal_cost_step_inv (map : Map) (agent : Agent) (constraints : ConstraintSet)
    (L : Nat) (paths : List Path) (T : Nat) (opt_cost : ℚ) (st : AStarState)
    (hinv : astarInv map constraints agent.start st) :
    (∀ st', standard_a_star_search_focal_cost_step map agent constraints L paths T
        opt_cost st = .inr st' →
      astarInv map constraints agent.start st') ∧
    (∀ path f stats', standard_a_star_search_focal_cost_step map agent constraints L paths T
        opt_cost st = .inl (some (path, f), stats') →
      specSatPath map agent constraints path ∧ L + 2 ≤ path.length) := by
  obtain ⟨htr, hnodes⟩ := hinv
  constructor
  · intro st' h
    unfold standard_a_star_search_focal_cost_step at h
    split at h
    · exact absurd h (by simp)
    · rename_i current open1 hpop
      obtain ⟨hcur, hsub⟩ := btPopFirst_spec focalCmp st.open_list current open1 hpop
      simp only [] at h
      split at h
      · exact absurd h (by simp)
      · injection h with h
        subst h
        refine ⟨?_, ?_⟩
        · exact (focalCostExpandFold_inv agent.start map agent constraints paths opt_cost
            current _ _ _ _ htr (fun n hn => hnodes n (hsub n hn)) (hnodes current hcur)).1
        · exact (focalCostExpandFold_inv agent.start map agent constraints paths opt_cost
            current _ _ _ _ htr (fun n hn => hnodes n (hsub n hn))
            (hnodes current hcur)).2.1
  · intro path f stats' h
    unfold standard_a_star_search_focal_cost_step at h
    split at h
    · rename_i hpop
      injection h with h
      simp at h
    · rename_i current open1 hpop
      obtain ⟨hcur, -⟩ := btPopFirst_spec focalCmp st.open_list current open1 hpop
      simp only [] at h
      split at h
      · rename_i hacc
        injection h with h
        simp only [Prod.mk.injEq, Option.some.injEq] at h
        obtain ⟨⟨hpath, -⟩, -⟩ := h
        subst hpath
        obtain ⟨hlen, hhead, hlast, hchain, hcons⟩ :=
          construct_path_spec map constraints agent.start st.trace htr
            current.position current.g_cost (hnodes current hcur)
        refine ⟨⟨⟨hhead, ?_, hchain⟩, hcons⟩, ?_⟩
        · rw [hlast, hacc.1]
        · rw [hlen]
          omega
      · exact absurd h (by simp)

theorem focal_cost_loop_sound (map : Map) (agent : Agent) (constraints : ConstraintSet)
    (L : Nat) (paths : List Path) (T : Nat) (opt_cost : ℚ) :
    ∀ (fuel : Nat) (st : AStarState), astarInv map constraints agent.start st →
      ∀ path f stats',
        standard_a_star_search_focal_cost_loop map agent constraints L paths T opt_cost
          fuel st = some (some (path, f), stats') →
        specSatPath map agent constraints path ∧ L + 2 ≤ path.length := by
  intro fuel
  induction fuel with
  | zero =>
      intro st _ path f stats' h
      exact absurd h (by simp [standard_a_star_search_focal_cost_loop])
  | succ fuel ih =>
      intro st hinv path f stats' h
      simp only [standard_a_star_search_focal_cost_loop] at h
      split at h
      · rename_i r hstep
        injection h with h
        subst h
        exact (focal_cost_step_inv map agent constraints L paths T opt_cost st hinv).2
          path f stats' hstep
      · rename_i st' hstep
        exact ih st'
          ((focal_cost_step_inv map agent constraints L paths T opt_cost st hinv).1 st' hstep)
          path f stats' h

theorem focal_cost_sound (fuel : Nat) (map : Map) (agent : Agent)
    (constraints : ConstraintSet) (L : Nat) (paths : List Path) (T : Nat) (opt_cost : ℚ)
    (stats : Stats) (path : Path) (f : Nat) (stats' : Stats)
    (h : standard_a_star_search_focal_cost fuel map agent constraints L paths T opt_cost
      stats = some (some (path, f), stats')) :
    specSatPath map agent constraints path ∧ L + 2 ≤ path.length := by
  unfold standard_a_star_search_focal_cost at h
  refine focal_cost_loop_sound map agent constraints L paths T opt_cost fuel _ ?_
    path f stats' h
  constructor
  · intro e he
    simp at he
  · intro n hn
    simp only [List.mem_singleton] at hn
    subst hn
    exact Or.inl ⟨rfl, rfl⟩

/-! ### Soundness of the dual-queue focal searches -/

theorem ffmLookup_some_mem (l : List ((Pos × Nat) × Nat)) (k : Pos × Nat) (v : Nat)
    (h : ffmLookup l k = some v) : (k, v) ∈ l := by
  unfold ffmLookup at h
  obtain ⟨kv, hfind, hmap⟩ := Option.map_eq_some'.mp h
  have hk : kv.1 = k := by simpa using List.find?_some hfind
  have hm := List.mem_of_find?_eq_some hfind
  have hkv : kv = (k, v) := Prod.ext hk hmap
  rwa [hkv] at hm

theorem focalExpandNeighbor_inv (start : Pos) (map : Map) (agent : Agent)
    (constraints : ConstraintSet) (paths : List Path) (w : ℚ) (current : LowLevelNode)
    (ts nts : Nat) (closed : List (Pos × Nat)) (st : FocalState) (nb : Pos)
    (hnb : nb ∈ map.get_neighbors current.position.1 current.position.2 true)
    (hinv : focalInv map constraints start st)
    (hcur : keyAnchored start st.trace (current.position, current.g_cost)) :
    focalInv map constraints start
      (focalExpandNeighbor map agent constraints paths w current (current.g_cost + 1) ts
        nts closed st nb) ∧
    keyAnchored start
      (focalExpandNeighbor map agent constraints paths w current (current.g_cost + 1) ts
        nts closed st nb).trace (current.position, current.g_cost) := by
  obtain ⟨htr, hopen, hfocal, hffm⟩ := hinv
  by_cases hcl : ((nb, ts) : Pos × Nat) ∈ closed
  · simp only [focalExpandNeighbor, if_pos hcl]
    exact ⟨⟨htr, hopen, hfocal, hffm⟩, hcur⟩
  · by_cases hv : (constraints.any fun c =>
        c.is_violated current.position nb (current.g_cost + 1)) = true
    · simp only [focalExpandNeighbor, if_neg hcl, if_pos hv]
      exact ⟨⟨htr, hopen, hfocal, hffm⟩, hcur⟩
    · have hv2 : ∀ c ∈ constraints,
          c.is_violated current.position nb (current.g_cost + 1) = false := by
        intro c hc
        cases hb : c.is_violated current.position nb (current.g_cost + 1) with
        | false => rfl
        | true => exact absurd (List.any_eq_true.mpr ⟨c, hc, hb⟩) hv
      rcases hffmv : ffmLookup st.f_focal_cost_map (nb, current.g_cost + 1) with _ | old
      · simp only [focalExpandNeighbor, if_neg hcl, if_neg hv, hffmv]
        have htr2 := traceOK_cons map constraints start st.trace
          ((nb, current.g_cost + 1), (current.position, current.g_cost)) htr rfl hnb hv2 hcur
        have hkey := keyAnchored_head start
          ((nb, current.g_cost + 1), (current.position, current.g_cost)) st.trace
          (Nat.succ_le_succ (Nat.zero_le _))
        split
        · refine ⟨⟨htr2, ?_, ?_, ?_⟩, keyAnchored_cons start _ st.trace _ hcur⟩
          · intro n hn
            rcases btInsert_mem openCmp st.open_list _ n hn with rfl | hn2
            · exact hkey
            · exact keyAnchored_cons start _ st.trace _ (hopen n hn2)
          · intro n hn
            rcases btInsert_mem focalCmp st.focal_list _ n hn with rfl | hn2
            · exact hkey
            · exact keyAnchored_cons start _ st.trace _ (hfocal n hn2)
          · intro kv hkv
            rcases List.mem_cons.mp hkv with rfl | hkv2
            · exact hkey
            · exact keyAnchored_cons start _ st.trace _ (hffm kv hkv2)
        · refine ⟨⟨htr2, ?_, ?_, ?_⟩, keyAnchored_cons start _ st.trace _ hcur⟩
          · intro n hn
            rcases btInsert_mem openCmp st.open_list _ n hn with rfl | hn2
            · exact hkey
            · exact keyAnchored_cons start _ st.trace _ (hopen n hn2)
          · intro n hn
            exact keyAnchored_cons start _ st.trace _ (hfocal n hn)
          · intro kv hkv
            rcases List.mem_cons.mp hkv with rfl | hkv2
            · exact hkey
            · exact keyAnchored_cons start _ st.trace _ (hffm kv hkv2)
      · simp only [focalExpandNeighbor, if_neg hcl, if_neg hv, hffmv]
        have hmm := ffmLookup_some_mem st.f_focal_cost_map (nb, current.g_cost + 1) old hffmv
        have hkey : keyAnchored start st.trace (nb, current.g_cost + 1) := hffm _ hmm
        split
        · split
          · refine ⟨⟨htr, ?_, ?_, ?_⟩, hcur⟩
            · intro n hn
              rcases btInsert_mem openCmp _ _ n hn with rfl | hn2
              · exact hkey
              · exact hopen n (btErase_subset openCmp st.open_list _ n hn2)
            · intro n hn
              rcases btInsert_mem focalCmp _ _ n hn with rfl | hn2
              · exact hkey
              · exact hfocal n (btErase_subset focalCmp st.focal_list _ n hn2)
            · intro kv hkv
              rcases List.mem_cons.mp hkv with rfl | hkv2
              · exact hkey
              · exact hffm kv hkv2
          · split
            · refine ⟨⟨htr, ?_, ?_, ?_⟩, hcur⟩
              · intro n hn
                rcases btInsert_mem openCmp _ _ n hn with rfl | hn2
                · exact hkey
                · exact hopen n (btErase_subset openCmp st.open_list _ n hn2)
              · intro n hn
                exact hfocal n hn
              · intro kv hkv
                rcases List.mem_cons.mp hkv with rfl | hkv2
                · exact hkey
                · exact hffm kv hkv2
            · refine ⟨⟨htr, hopen, hfocal, ?_⟩, hcur⟩
              intro kv hkv
              rcases List.mem_cons.mp hkv with rfl | hkv2
              · exact hkey
              · exact hffm kv hkv2
        · exact ⟨⟨htr, hopen, hfocal, hffm⟩, hcur⟩

theorem focalExpandFold_inv (start : Pos) (map : Map) (agent : Agent)
    (constraints : ConstraintSet) (paths : List Path) (w : ℚ) (current : LowLevelNode)
    (ts nts : Nat) (closed : List (Pos × Nat)) (iw : Bool) (st : FocalState)
    (hinv : focalInv map constraints start st)
    (hcur : keyAnchored start st.trace (current.position, current.g_cost)) :
    focalInv map constraints start
      ((map.get_neighbors current.position.1 current.position.2 iw).foldl
        (fun s nb => focalExpandNeighbor map agent constraints paths w current
          (current.g_cost + 1) ts nts closed s nb) st) ∧
    keyAnchored start
      ((map.get_neighbors current.position.1 current.position.2 iw).foldl
        (fun s nb => focalExpandNeighbor map agent constraints paths w current
          (current.g_cost + 1) ts nts closed s nb) st).trace
      (current.position, current.g_cost) :=
  foldl_preserve
    (fun s : FocalState => focalInv map constraints start s ∧
      keyAnchored start s.trace (current.position, current.g_cost))
    (fun s nb => focalExpandNeighbor map agent constraints paths w current
      (current.g_cost + 1) ts nts closed s nb)
    (map.get_neighbors current.position.1 current.position.2 iw)
    (fun b a hb ha =>
      focalExpandNeighbor_inv start map agent constraints paths w current ts nts closed b a
        (get_neighbors_mono map current.position.1 current.position.2 iw a ha) hb.1 hb.2)
    st ⟨hinv, hcur⟩

theorem focalMaintain_inv (m : Map) (C : ConstraintSet) (start : Pos) (w : ℚ)
    (st : FocalState) (hinv : focalInv m C start st) :
    focalInv m C start (focalMaintain w st).1 := by
  obtain ⟨htr, hopen, hfocal, hffm⟩ := hinv
  unfold focalMaintain
  split
  · exact ⟨htr, hopen, hfocal, hffm⟩
  · simp only []
    split
    · refine ⟨htr, hopen, ?_, hffm⟩
      refine foldl_preserve (fun fl => nodesAnchored start st.trace fl) _ _ ?_ _ hfocal
      intro b a hb ha
      split
      · intro n hn
        rcases btInsert_mem focalCmp b a n hn with rfl | hn2
        · exact hopen n ha
        · exact hb n hn2
      · exact hb
    · exact ⟨htr, hopen, hfocal, hffm⟩

theorem focal_step_inv (map : Map) (agent : Agent) (w : ℚ) (constraints : ConstraintSet)
    (L T : Nat) (paths : List Path) (st : FocalState)
    (hinv : focalInv map constraints agent.start st) :
    (∀ st', standard_focal_a_star_search_step map agent w constraints L T paths st =
        .inr st' → focalInv map constraints agent.start st') ∧
    (∀ path f stats', standard_focal_a_star_search_step map agent w constraints L T paths
        st = .inl (some (path, f), stats') →
      specSatPath map agent constraints path ∧ L + 2 ≤ path.length) := by
  obtain ⟨htr, hopen, hfocal, hffm⟩ := hinv
  constructor
  · intro st' h
    unfold standard_focal_a_star_search_step at h
    split at h
    · exact absurd h (by simp)
    · rename_i current focal1 hpop
      obtain ⟨hcur, hsub⟩ := btPopFirst_spec focalCmp st.focal_list current focal1 hpop
      simp only [] at h
      split at h
      · exact absurd h (by simp)
      · injection h with h
        subst h
        refine focalMaintain_inv map constraints agent.start w _ ?_
        refine (focalExpandFold_inv agent.start map agent constraints paths w current
          _ _ _ _ _ ?_ ?_).1
        · exact ⟨htr,
            fun n hn => hopen n (btErase_subset openCmp st.open_list current n hn),
            fun n hn => hfocal n (hsub n hn), hffm⟩
        · exact hfocal current hcur
  · intro path f stats' h
    unfold standard_focal_a_star_search_step at h
    split at h
    · rename_i hpop
      injection h with h
      simp at h
    · rename_i current focal1 hpop
      obtain ⟨hcur, -⟩ := btPopFirst_spec focalCmp st.focal_list current focal1 hpop
      simp only [] at h
      split at h
      · rename_i hacc
        injection h with h
        simp only [Prod.mk.injEq, Option.some.injEq] at h
        obtain ⟨⟨hpath, -⟩, -⟩ := h
        subst hpath
        obtain ⟨hlen, hhead, hlast, hchain, hcons⟩ :=
          construct_path_spec map constraints agent.start st.trace htr
            current.position current.g_cost (hfocal current hcur)
        refine ⟨⟨⟨hhead, ?_, hchain⟩, hcons⟩, ?_⟩
        · rw [hlast, hacc.1]
        · rw [hlen]
          omega
      · exact absurd h (by simp)

theorem focal_loop_sound (map : Map) (agent : Agent) (w : ℚ) (constraints : ConstraintSet)
    (L T : Nat) (paths : List Path) :
    ∀ (fuel : Nat) (st : FocalState), focalInv map constraints agent.start st →
      ∀ path f stats',
        standard_focal_a_star_search_loop map agent w constraints L T paths fuel st =
          some (some (path, f), stats') →
        specSatPath map agent constraints path ∧ L + 2 ≤ path.length := by
  intro fuel
  induction fuel with
  | zero =>
      intro st _ path f stats' h
      exact absurd h (by simp [standard_focal_a_star_search_loop])
  | succ fuel ih =>
      intro st hinv path f stats' h
      simp only [standard_focal_a_star_search_loop] at h
      split at h
      · rename_i r hstep
        injection h with h
        subst h
        exact (focal_step_inv map agent w constraints L T paths st hinv).2 path f stats' hstep
      · rename_i st' hstep
        exact ih st' ((focal_step_inv map agent w constraints L T paths st hinv).1 st' hstep)
          path f stats' h

theorem initFocalState_inv (map : Map) (agent : Agent) (constraints : ConstraintSet)
    (stats : Stats) :
    focalInv map constraints agent.start (initFocalState map agent stats) := by
  refine ⟨?_, ?_, ?_, ?_⟩
  · intro e he
    simp [initFocalState] at he
  · intro n hn
    simp only [initFocalState, List.mem_singleton] at hn
    subst hn
    exact Or.inl ⟨rfl, rfl⟩
  · intro n hn
    simp only [initFocalState, List.mem_singleton] at hn
    subst hn
    exact Or.inl ⟨rfl, rfl⟩
  · intro kv hkv
    simp only [initFocalState, List.mem_singleton] at hkv
    subst hkv
    exact Or.inl ⟨rfl, rfl⟩

theorem standard_focal_sound (fuel : Nat) (map : Map) (agent : Agent) (w : ℚ)
    (constraints : ConstraintSet) (L T : Nat) (paths : List Path) (stats : Stats)
    (path : Path) (f : Nat) (stats' : Stats)
    (h : standard_focal_a_star_search fuel map agent w constraints L T paths stats =
      some (some (path, f), stats')) :
    specSatPath map agent constraints path ∧ L + 2 ≤ path.length := by
  unfold standard_focal_a_star_search at h
  exact focal_loop_sound map agent w constraints L T paths fuel _
    (initFocalState_inv map agent constraints stats) path f stats' h

theorem altPop_spec (start : Pos) (m : Map) (C : ConstraintSet) (uf : Bool)
    (st : FocalState) (hne : ¬(st.open_list.isEmpty = true))
    (hinv : focalInv m C start st) :
    keyAnchored start st.trace ((altPop uf st).1.position, (altPop uf st).1.g_cost) ∧
    (altPop uf st).2.2.trace = st.trace ∧
    (altPop uf st).2.2.f_focal_cost_map = st.f_focal_cost_map ∧
    (∀ n ∈ (altPop uf st).2.2.open_list, n ∈ st.open_list) ∧
    (∀ n ∈ (altPop uf st).2.2.focal_list, n ∈ st.focal_list) := by
  obtain ⟨htr, hopen, hfocal, hffm⟩ := hinv
  unfold altPop
  split
  · rename_i hcond
    split
    · rename_i hpop
      refine absurd ((btPopFirst_none focalCmp st.focal_list).mp hpop) ?_
      intro hcontra
      refine hcond.2 ?_
      rw [hcontra]
      rfl
    · rename_i current focal1 hpop
      obtain ⟨hcur, hsub⟩ := btPopFirst_spec focalCmp st.focal_list current focal1 hpop
      exact ⟨hfocal current hcur, rfl, rfl,
        fun n hn => btErase_subset openCmp st.open_list current n hn,
        fun n hn => hsub n hn⟩
  · split
    · rename_i hpop
      refine absurd ((btPopFirst_none openCmp st.open_list).mp hpop) ?_
      intro hcontra
      refine hne ?_
      rw [hcontra]
      rfl
    · rename_i current open1 hpop
      obtain ⟨hcur, hsub⟩ := btPopFirst_spec openCmp st.open_list current open1 hpop
      exact ⟨hopen current hcur, rfl, rfl,
        fun n hn => hsub n hn,
        fun n hn => btErase_subset focalCmp st.focal_list current n hn⟩

theorem alt_step_inv (map : Map) (agent : Agent) (w : ℚ) (constraints : ConstraintSet)
    (L T : Nat) (paths : List Path) (uf : Bool) (st : FocalState)
    (hinv : focalInv map constraints agent.start st) :
    (∀ uf' st', alternating_focal_a_star_search_step map agent w constraints L T paths
        uf st = .inr (uf', st') → focalInv map constraints agent.start st') ∧
    (∀ path f stats', alternating_focal_a_star_search_step map agent w constraints L T paths
        uf st = .inl (some (path, f), stats') →
      specSatPath map agent constraints path ∧ L + 2 ≤ path.length) := by
  obtain ⟨htr, hopen, hfocal, hffm⟩ := hinv
  constructor
  · intro uf' st' h
    unfold alternating_focal_a_star_search_step at h
    split at h
    · exact absurd h (by simp)
    · rename_i hne
      obtain ⟨hcur, htr2, hffm2, hopen2, hfocal2⟩ :=
        altPop_spec agent.start map constraints uf st hne ⟨htr, hopen, hfocal, hffm⟩
      have hPopInv : focalInv map constraints agent.start (altPop uf st).2.2 := by
        refine ⟨?_, ?_, ?_, ?_⟩
        · rw [htr2]
          exact htr
        · rw [htr2]
          intro n hn
          exact hopen n (hopen2 n hn)
        · rw [htr2]
          intro n hn
          exact hfocal n (hfocal2 n hn)
        · rw [htr2, hffm2]
          exact hffm
      have hcur2 : keyAnchored agent.start (altPop uf st).2.2.trace
          ((altPop uf st).1.position, (altPop uf st).1.g_cost) := by
        rw [htr2]
        exact hcur
      simp only [] at h
      split at h
      · exact absurd h (by simp)
      · split at h
        · injection h with h
          injection h with h1 h2
          subst h2
          refine focalMaintain_inv map constraints agent.start w _
            (focalExpandFold_inv agent.start map agent constraints paths w _ _ _ _ _ _
              ?_ ?_).1
          · exact hPopInv
          · exact hcur2
        · rename_i nf hm
          injection h with h
          injection h with h1 h2
          subst h2
          refine focalMaintain_inv map constraints agent.start w _
            (focalExpandFold_inv agent.start map agent constraints paths w _ _ _ _ _ _
              ?_ ?_).1
          · exact hPopInv
          · exact hcur2
  · intro path f stats' h
    unfold alternating_focal_a_star_search_step at h
    split at h
    · injection h with h
      simp at h
    · rename_i hne
      obtain ⟨hcur, htr2, hffm2, hopen2, hfocal2⟩ :=
        altPop_spec agent.start map constraints uf st hne ⟨htr, hopen, hfocal, hffm⟩
      have htr3 : traceOK map constraints agent.start (altPop uf st).2.2.trace := by
        rw [htr2]
        exact htr
      have hcur2 : keyAnchored agent.start (altPop uf st).2.2.trace
          ((altPop uf st).1.position, (altPop uf st).1.g_cost) := by
        rw [htr2]
        exact hcur
      simp only [] at h
      split at h
      · rename_i hacc
        injection h with h
        simp only [Prod.mk.injEq, Option.some.injEq] at h
        obtain ⟨⟨hpath, -⟩, -⟩ := h
        subst hpath
        obtain ⟨hlen, hhead, hlast, hchain, hcons⟩ :=
          construct_path_spec map constraints agent.start (altPop uf st).2.2.trace htr3
            (altPop uf st).1.position (altPop uf st).1.g_cost hcur2
        refine ⟨⟨⟨hhead, ?_, hchain⟩, hcons⟩, ?_⟩
        · rw [hlast, hacc.1]
        · rw [hlen]
          omega
      · split at h
        · exact absurd h (by simp)
        · exact absurd h (by simp)

theorem alt_loop_sound (map : Map) (agent : Agent) (w : ℚ) (constraints : ConstraintSet)
    (L T : Nat) (paths : List Path) :
    ∀ (fuel : Nat) (uf : Bool) (st : FocalState), focalInv map constraints agent.start st →
      ∀ path f stats',
        alternating_focal_a_star_search_loop map agent w constraints L T paths fuel uf st =
          some (some (path, f), stats') →
        specSatPath map agent constraints path ∧ L + 2 ≤ path.length := by
  intro fuel
  induction fuel with
  | zero =>
      intro uf st _ path f stats' h
      exact absurd h (by simp [alternating_focal_a_star_search_loop])
  | succ fuel ih =>
      intro uf st hinv path f stats' h
      simp only [alternating_focal_a_star_search_loop] at h
      split at h
      · rename_i r hstep
        injection h with h
        subst h
        exact (alt_step_inv map agent w constraints L T paths uf st hinv).2 path f stats'
          hstep
      · rename_i uf' st' hstep
        exact ih uf' st'
          ((alt_step_inv map agent w constraints L T paths uf st hinv).1 uf' st' hstep)
          path f stats' h

theorem alternating_sound (fuel : Nat) (map : Map) (agent : Agent) (w : ℚ)
    (constraints : ConstraintSet) (L T : Nat) (paths : List Path) (stats : Stats)
    (path : Path) (f : Nat) (stats' : Stats)
    (h : alternating_focal_a_star_search fuel map agent w constraints L T paths stats =
      some (some (path, f), stats')) :
    specSatPath map agent constraints path ∧ L + 2 ≤ path.length := by
  unfold alternating_focal_a_star_search at h
  exact alt_loop_sound map agent w constraints L T paths fuel true _
    (initFocalState_inv map agent constraints stats) path f stats' h

/-! ### Soundness of the search dispatchers -/

theorem a_star_search_sound (fuel : Nat) (map : Map) (agent : Agent)
    (constraints : ConstraintSet) (L : Nat) (bm : Bool) (stats : Stats)
    (res : SearchResult) (stats' : Stats)
    (h : a_star_search fuel map agent constraints L bm stats = some (res, stats'))
    (p : Path) (hp : resultPath res = some p) :
    specSatPath map agent constraints p ∧ L + 2 ≤ p.length := by
  unfold a_star_search at h
  simp only [] at h
  split at h
  · split at h
    · exact absurd h (by simp)
    · rename_i r s hoc
      injection h with h
      injection h with h1 h2
      subst h1
      subst h2
      cases r with
      | none => simp [resultPath] at hp
      | some pf =>
          obtain ⟨pp, ff⟩ := pf
          simp only [resultPath, Option.some.injEq] at hp
          subst hp
          exact open_cost_sound fuel map agent constraints L _ stats _ ff s hoc
  · split at h
    · exact absurd h (by simp)
    · rename_i s hoc
      injection h with h
      injection h with h1 h2
      subst h1
      simp [resultPath] at hp
    · rename_i pp ff s hoc
      injection h with h
      injection h with h1 h2
      subst h1
      simp only [resultPath, Option.some.injEq] at hp
      subst hp
      exact open_cost_sound fuel map agent constraints L _ stats _ ff s hoc

theorem double_search_sound (fuel : Nat) (map : Map) (agent : Agent) (w : ℚ)
    (constraints : ConstraintSet) (L T : Nat) (paths : List Path) (stats : Stats)
    (path : Path) (f : Nat) (stats' : Stats)
    (h : standard_focal_double_search fuel map agent w constraints L T paths stats =
      some (some (path, f), stats')) :
    specSatPath map agent constraints path ∧ L + 2 ≤ path.length := by
  unfold standard_focal_double_search at h
  split at h
  · exact absurd h (by simp)
  · injection h with h
    simp at h
  · rename_i pf fm s hoc
    exact focal_cost_sound fuel map agent constraints L paths T _ s path f stats' h

theorem focal_a_star_search_sound (fuel : Nat) (map : Map) (agent : Agent) (w : ℚ)
    (constraints : ConstraintSet) (L : Nat) (paths : List Path) (bm : Bool)
    (solver : String) (stats : Stats) (res : SearchResult) (stats' : Stats)
    (h : focal_a_star_search fuel map agent w constraints L paths bm solver stats =
      some (res, stats'))
    (p : Path) (hp : resultPath res = some p) :
    specSatPath map agent constraints p ∧ L + 2 ≤ p.length := by
  unfold focal_a_star_search at h
  simp only [] at h
  split at h
  · exact absurd h (by simp)
  · rename_i s1 heq
    injection h with h
    injection h with h1 h2
    subst h1
    cases bm <;> simp [resultPath] at hp
  · rename_i sub fm s1 heq
    have hsound : specSatPath map agent constraints sub ∧ L + 2 ≤ sub.length := by
      split at heq
      · split at heq
        · exact double_search_sound fuel map agent w constraints L _ paths stats sub fm
            s1 heq
        · exact standard_focal_sound fuel map agent w constraints L _ paths stats sub fm
            s1 heq
      · split at heq
        · exact standard_focal_sound fuel map agent w constraints L _ paths stats sub fm
            s1 heq
        · split at heq
          · exact alternating_sound fuel map agent w constraints L _ paths stats sub fm
              s1 heq
          · injection heq with heq
            simp at heq
    split at h
    · injection h with h
      injection h with h1 h2
      subst h1
      simp only [resultPath, Option.some.injEq] at hp
      subst hp
      exact hsound
    · split at h
      · injection h with h
        injection h with h1 h2
        subst h1
        simp only [resultPath, Option.some.injEq] at hp
        subst hp
        exact hsound
      · injection h with h
        injection h with h1 h2
        subst h1
        simp only [resultPath, Option.some.injEq] at hp
        subst hp
        exact hsound

theorem lowLevelSolve_sound (fuel : Nat) (map : Map) (config : Config) (solver : String)
    (agent : Agent) (C : ConstraintSet) (L : Nat) (paths : List Path) (stats : Stats)
    (res : SearchResult) (stats' : Stats)
    (h : lowLevelSolve fuel map config solver agent C L paths stats = some (res, stats'))
    (p : Path) (hp : resultPath res = some p) :
    specSatPath map agent C p ∧ L + 2 ≤ p.length := by
  unfold lowLevelSolve at h
  split at h
  · exact a_star_search_sound fuel map agent C L _ stats res stats' h p hp
  · split at h
    · exact focal_a_star_search_sound fuel map agent _ C L paths _ solver stats res stats'
        h p hp
    · injection h with h
      injection h with h1 h2
      subst h1
      simp [resultPath] at hp

/-! ### Well-formedness of reachable CT nodes -/

theorem getD_set_self (l : List α) (i : Nat) (h : i < l.length) (a d : α) :
    (l.set i a).getD i d = a := by
  rw [List.getD_eq_getElem?_getD, List.getElem?_set_self (by simpa using h)]
  rfl

theorem set_oob (l : List α) (i : Nat) (h : l.length ≤ i) (a : α) : l.set i a = l := by
  induction l generalizing i with
  | nil => rfl
  | cons x t ih =>
      cases i with
      | zero => simp at h
      | succ i =>
          simp only [List.set_cons_succ]
          rw [ih i (by simpa using h)]

theorem insertIdx_length_self (l : List α) (a : α) : l.insertIdx l.length a = l ++ [a] := by
  induction l with
  | nil => rfl
  | cons x t ih =>
      simp only [List.length_cons, List.insertIdx_succ_cons, ih, List.cons_append]

theorem getD_append_left (l l' : List α) (i : Nat) (h : i < l.length) (d : α) :
    (l ++ l').getD i d = l.getD i d := by
  rw [List.getD_eq_getElem?_getD, List.getD_eq_getElem?_getD,
    List.getElem?_append_left h]

theorem getD_append_length (l : List α) (a d : α) : (l ++ [a]).getD l.length d = a := by
  rw [List.getD_eq_getElem?_getD, List.getElem?_append_right (le_refl _)]
  simp

theorem rootLoop_sound (fuel : Nat) (map : Map) (config : Config) (solver : String)
    (agents : List Agent)
    (hids : ∀ i, i < agents.length → (agents.getD i dummyAgent).id = i) :
    ∀ (rest : List Agent), ∀ (k : Nat) (pacc : List Path) (fm : List Nat)
      (md : List (Option Mdd)) (tc : Nat) (sa : Stats),
      rest = agents.drop k → pacc.length = k → md.length = k → k ≤ agents.length →
      (∀ i, i < k → validPath map (agents.getD i dummyAgent) (pacc.getD i [])) →
      ∀ out stats',
        rootLoop fuel map config solver rest (pacc, fm, md, tc, sa) =
          some (some out, stats') →
        out.1.length = agents.length ∧ out.2.2.1.length = agents.length ∧
        (∀ i, i < agents.length → validPath map (agents.getD i dummyAgent)
          (out.1.getD i [])) := by
  intro rest
  induction rest with
  | nil =>
      intro k pacc fm md tc sa hrest hpl hml hk hvp out stats' h
      have hkeq : agents.length ≤ k := List.drop_eq_nil_iff.mp hrest.symm
      have hkk : k = agents.length := le_antisymm hk hkeq
      simp only [rootLoop] at h
      injection h with h
      injection h with h1 h2
      injection h1 with h1
      subst h1
      refine ⟨by rw [hpl, hkk], by rw [hml, hkk], ?_⟩
      intro i hi
      exact hvp i (by omega)
  | cons agent rest' ih =>
      intro k pacc fm md tc sa hrest hpl hml hk hvp out stats' h
      have hhead : agents[k]? = some agent := by
        rw [← List.head?_drop, ← hrest]
        rfl
      have htail : rest' = agents.drop (k + 1) := by
        rw [← List.tail_drop, ← hrest]
        rfl
      have hklt : k < agents.length := by
        by_contra hcon
        rw [List.getElem?_eq_none (by omega)] at hhead
        exact absurd hhead (by simp)
      have hagentD : agents.getD k dummyAgent = agent := by
        rw [List.getD_eq_getElem?_getD, hhead]
        rfl
      have hid : agent.id = k := by
        have h0 := hids k hklt
        rwa [hagentD] at h0
      simp only [rootLoop] at h
      split at h
      · exact absurd h (by simp)
      · injection h with h
        simp at h
      · injection h with h
        simp at h
      · rename_i path f s2 heq
        have hins : pacc.insertIdx agent.id path = pacc ++ [path] := by
          rw [hid, ← hpl]
          exact insertIdx_length_self pacc path
        refine ih (k + 1) (pacc.insertIdx agent.id path) (fm ++ [f]) (md ++ [none])
          (tc + (path.length - 1)) s2 htail ?_ ?_ (by omega) ?_ out stats' h
        · rw [hins, List.length_append, hpl]
          rfl
        · rw [List.length_append, hml]
          rfl
        · intro i hi
          rw [hins]
          by_cases hik : i = k
          · subst hik
            rw [hagentD, ← hpl, getD_append_length]
            exact (lowLevelSolve_sound fuel map config solver agent [] 0 pacc sa _ s2 heq
              path rfl).1.1
          · rw [getD_append_left _ _ i (by omega) _]
            exact hvp i (by omega)
      · rename_i path f mdd s2 heq
        have hins : pacc.insertIdx agent.id path = pacc ++ [path] := by
          rw [hid, ← hpl]
          exact insertIdx_length_self pacc path
        refine ih (k + 1) (pacc.insertIdx agent.id path) (fm ++ [f]) (md ++ [some mdd])
          (tc + (path.length - 1)) s2 htail ?_ ?_ (by omega) ?_ out stats' h
        · rw [hins, List.length_append, hpl]
          rfl
        · rw [List.length_append, hml]
          rfl
        · intro i hi
          rw [hins]
          by_cases hik : i = k
          · subst hik
            rw [hagentD, ← hpl, getD_append_length]
            exact (lowLevelSolve_sound fuel map config solver agent [] 0 pacc sa _ s2 heq
              path rfl).1.1
          · rw [getD_append_left _ _ i (by omega) _]
            exact hvp i (by omega)

theorem hl_new_sound (fuel : Nat) (agents : List Agent) (map : Map) (config : Config)
    (solver : String) (stats : Stats) (n : HighLevelOpenNode) (stats' : Stats)
    (hids : ∀ i, i < agents.length → (agents.getD i dummyAgent).id = i)
    (h : HighLevelOpenNode.new fuel agents map config solver stats = some (some n, stats')) :
    NodeWF map config.op_target_reasoning agents n := by
  unfold HighLevelOpenNode.new at h
  split at h
  · exact absurd h (by simp)
  · injection h with h
    simp at h
  · rename_i paths fm md tc s2 hroot
    simp only [] at h
    injection h with h
    injection h with h1 h2
    injection h1 with h1
    subst h1
    have hrl := rootLoop_sound fuel map config solver agents hids agents 0 [] [] [] 0
      stats rfl rfl rfl (Nat.zero_le _) (fun i hi => absurd hi (Nat.not_lt_zero i))
      (paths, fm, md, tc) s2 hroot
    exact ⟨rfl, hrl.1, hrl.2.1, hrl.2.2, rfl⟩

theorem update_constraint_shape (self : HighLevelOpenNode) (conflict : Conflict)
    (rf : Bool) (map : Map) (config : Config) (fuel nid : Nat) (stats stats' : Stats)
    (child : HighLevelOpenNode)
    (h : self.update_constraint conflict rf map config fuel nid stats =
      some (some child, stats')) :
    ∃ np nf nm,
      child.agents = self.agents ∧
      child.paths = self.paths.set (if rf then conflict.agent_1 else conflict.agent_2) np ∧
      child.low_level_f_min_agents = self.low_level_f_min_agents.set
        (if rf then conflict.agent_1 else conflict.agent_2) nf ∧
      child.mdds = self.mdds.set (if rf then conflict.agent_1 else conflict.agent_2) nm ∧
      child.conflicts = detectConflictsList config.op_target_reasoning self.agents
        child.paths child.mdds ∧
      validPath map (self.agents.getD
        (if rf then conflict.agent_1 else conflict.agent_2) dummyAgent) np := by
  unfold HighLevelOpenNode.update_constraint at h
  split at h <;> rename_i hrf
  · simp only [] at h
    split at h
    · exact absurd h (by simp)
    · exact absurd h (by simp)
    · exact absurd h (by simp)
    · rename_i path f stats1 heq
      simp only [Option.some.injEq, Prod.mk.injEq] at h
      obtain ⟨hc, -⟩ := h
      rw [← hc]
      simp only [hrf]
      refine ⟨path, f, none, rfl, rfl, rfl, rfl, rfl, ?_⟩
      exact (lowLevelSolve_sound fuel map config config.solver _ _ _ self.paths stats _
        stats1 heq path rfl).1.1
    · rename_i path f mdd stats1 heq
      simp only [Option.some.injEq, Prod.mk.injEq] at h
      obtain ⟨hc, -⟩ := h
      rw [← hc]
      simp only [hrf]
      refine ⟨path, f, some mdd, rfl, rfl, rfl, rfl, rfl, ?_⟩
      exact (lowLevelSolve_sound fuel map config config.solver _ _ _ self.paths stats _
        stats1 heq path rfl).1.1
  · simp only [] at h
    split at h
    · exact absurd h (by simp)
    · exact absurd h (by simp)
    · exact absurd h (by simp)
    · rename_i path f stats1 heq
      simp only [Option.some.injEq, Prod.mk.injEq] at h
      obtain ⟨hc, -⟩ := h
      rw [← hc]
      simp only [hrf]
      refine ⟨path, f, none, rfl, rfl, rfl, rfl, rfl, ?_⟩
      exact (lowLevelSolve_sound fuel map config config.solver _ _ _ self.paths stats _
        stats1 heq path rfl).1.1
    · rename_i path f mdd stats1 heq
      simp only [Option.some.injEq, Prod.mk.injEq] at h
      obtain ⟨hc, -⟩ := h
      rw [← hc]
      simp only [hrf]
      refine ⟨path, f, some mdd, rfl, rfl, rfl, rfl, rfl, ?_⟩
      exact (lowLevelSolve_sound fuel map config config.solver _ _ _ self.paths stats _
        stats1 heq path rfl).1.1

theorem update_constraint_WF (m : Map) (agents : List Agent) (config : Config)
    (self child : HighLevelOpenNode) (conflict : Conflict) (rf : Bool) (fuel nid : Nat)
    (stats stats' : Stats)
    (hwf : NodeWF m config.op_target_reasoning agents self)
    (h : self.update_constraint conflict rf m config fuel nid stats =
      some (some child, stats')) :
    NodeWF m config.op_target_reasoning agents child := by
  obtain ⟨hag, hlen, hmlen, hvp, hconf⟩ := hwf
  obtain ⟨np, nf, nm, h1, h2, h3, h4, h5, h6⟩ :=
    update_constraint_shape self conflict rf m config fuel nid stats stats' child h
  rw [hag] at h6
  refine ⟨by rw [h1, hag], by rw [h2, List.length_set, hlen],
    by rw [h4, List.length_set, hmlen], ?_, by rw [h5, hag]⟩
  intro i hi
  by_cases hia : i = (if rf then conflict.agent_1 else conflict.agent_2)
  · subst hia
    rw [h2, getD_set_self self.paths _ (by omega) np]
    exact h6
  · rw [h2, getD_set_ne self.paths _ i hia np []]
    exact hvp i hi

theorem update_bypass_WF (m : Map) (agents : List Agent) (config : Config)
    (self child : HighLevelOpenNode) (conflict : Conflict) (rf : Bool) (fuel nid : Nat)
    (stats stats' : Stats)
    (hwfp : NodeWF m config.op_target_reasoning agents self)
    (h : self.update_constraint conflict rf m config fuel nid stats =
      some (some child, stats')) :
    NodeWF m config.op_target_reasoning agents
      (self.update_bypass_node child
        (if rf then conflict.agent_1 else conflict.agent_2)) := by
  have hwfc := update_constraint_WF m agents config self child conflict rf fuel nid
    stats stats' hwfp h
  obtain ⟨np, nf, nm, h1, h2, h3, h4, h5, -⟩ :=
    update_constraint_shape self conflict rf m config fuel nid stats stats' child h
  obtain ⟨hagp, hlenp, hmlenp, hvpp, hconfp⟩ := hwfp
  obtain ⟨hagc, hlenc, hmlenc, hvpc, hconfc⟩ := hwfc
  have hpaths : self.paths.set (if rf then conflict.agent_1 else conflict.agent_2)
      (child.paths.getD (if rf then conflict.agent_1 else conflict.agent_2) []) =
      child.paths := by
    by_cases hlt : (if rf then conflict.agent_1 else conflict.agent_2) < self.paths.length
    · rw [h2, getD_set_self self.paths _ hlt np]
    · have hoob := Nat.le_of_not_lt hlt
      rw [h2, set_oob self.paths _ hoob np, set_oob self.paths _ hoob _]
  have hmdds : self.mdds.set (if rf then conflict.agent_1 else conflict.agent_2)
      (child.mdds.getD (if rf then conflict.agent_1 else conflict.agent_2) none) =
      child.mdds := by
    by_cases hlt : (if rf then conflict.agent_1 else conflict.agent_2) < self.mdds.length
    · rw [h4, getD_set_self self.mdds _ hlt nm]
    · have hoob := Nat.le_of_not_lt hlt
      rw [h4, set_oob self.mdds _ hoob nm, set_oob self.mdds _ hoob _]
  unfold HighLevelOpenNode.update_bypass_node
  refine ⟨hagp, ?_, ?_, ?_, ?_⟩
  · simp only [List.length_set]
    exact hlenp
  · simp only [List.length_set]
    exact hmlenp
  · intro i hi
    simp only [hpaths]
    exact hvpc i hi
  · simp only [hpaths, hmdds, hconfc, hagp]

theorem reachable_WF (m : Map) (agents : List Agent) (config : Config)
    (hids : ∀ i, i < agents.length → (agents.getD i dummyAgent).id = i)
    (n : HighLevelOpenNode) (hr : ReachableNode m agents config n) :
    NodeWF m config.op_target_reasoning agents n := by
  induction hr with
  | root fuel solver stats stats' nd hnew =>
      exact hl_new_sound fuel agents m config solver stats nd stats' hids hnew
  | child parent conflict rf fuel nid stats stats' nd hp hupd ih =>
      exact update_constraint_WF m agents config parent nd conflict rf fuel nid stats
        stats' ih hupd
  | bypass parent ch conflict rf fuel nid stats stats' hp hupd ih =>
      exact update_bypass_WF m agents config parent ch conflict rf fuel nid stats
        stats' ih hupd

/-! ### Conflict-detection emission lemmas -/

theorem ite_ne_nil {c : Prop} [Decidable c] {a b : List γ} (ha : a ≠ []) (hb : b ≠ []) :
    (if c then a else b) ≠ [] := by
  split
  · exact ha
  · exact hb

theorem append_ne_nil_left {a : List γ} (ha : a ≠ []) (e : List γ) : a ++ e ≠ [] := by
  intro h
  rw [List.append_eq_nil] at h
  exact ha h.1

theorem ite_append_singleton_ne_nil {c1 c2 : Prop} [Decidable c1] [Decidable c2]
    (l : List γ) (a b c : γ) :
    (if c1 then l ++ [a] else if c2 then l ++ [b] else l ++ [c]) ≠ [] := by
  split
  · simp
  · split <;> simp

theorem detectPairStep_extends (op : Bool) (g1 g2 : Pos) (p1 p2 : Path)
    (m1 m2 : Option Mdd) (i j : Nat) (l : List Conflict) (step : Nat) :
    ∃ s, detectPairStep op g1 g2 p1 p2 m1 m2 i j l step = l ++ s := by
  unfold detectPairStep
  split
  · exact self_suffix l
  · simp only []
    apply ite_append_suffix
    · apply ite_append_suffix
      · apply ite_append_suffix
        · exact ⟨_, rfl⟩
        · apply ite_append_suffix
          · exact ⟨_, rfl⟩
          · exact ⟨_, rfl⟩
      · exact self_suffix l
    · apply ite_append_suffix
      · refine append_suffix_append ?_ _
        apply ite_append_suffix
        · apply ite_append_suffix
          · exact ⟨_, rfl⟩
          · apply ite_append_suffix
            · exact ⟨_, rfl⟩
            · exact ⟨_, rfl⟩
        · exact self_suffix l
      · apply ite_append_suffix
        · apply ite_append_suffix
          · exact ⟨_, rfl⟩
          · apply ite_append_suffix
            · exact ⟨_, rfl⟩
            · exact ⟨_, rfl⟩
        · exact self_suffix l

theorem detectPairStep_emits_vertex (op : Bool) (g1 g2 : Pos) (p1 p2 : Path)
    (m1 m2 : Option Mdd) (i j : Nat) (step : Nat) (h0 : ¬step = 0)
    (hv : padPos p1 step = padPos p2 step) (l : List Conflict) :
    detectPairStep op g1 g2 p1 p2 m1 m2 i j l step ≠ [] := by
  simp only [detectPairStep, if_neg h0, if_pos hv]
  exact ite_ne_nil (ite_append_singleton_ne_nil l _ _ _)
    (ite_ne_nil (append_ne_nil_left (ite_append_singleton_ne_nil l _ _ _) _)
      (ite_append_singleton_ne_nil l _ _ _))

theorem detectPairStep_emits_edge (op : Bool) (g1 g2 : Pos) (p1 p2 : Path)
    (m1 m2 : Option Mdd) (i j : Nat) (step : Nat) (h0 : ¬step = 0)
    (h1 : step < p1.length) (h2 : step < p2.length)
    (hs1 : p1.getD (step - 1) (0, 0) = padPos p2 step)
    (hs2 : p2.getD (step - 1) (0, 0) = padPos p1 step) (l : List Conflict) :
    detectPairStep op g1 g2 p1 p2 m1 m2 i j l step ≠ [] := by
  have hcut : ¬(step ≥ p1.length ∨ step ≥ p2.length) := by omega
  have hswap : p1.getD (step - 1) (0, 0) = padPos p2 step ∧
      p2.getD (step - 1) (0, 0) = padPos p1 step := ⟨hs1, hs2⟩
  simp only [detectPairStep, if_neg h0, if_neg hcut, if_pos hswap]
  intro hcon
  rw [List.append_eq_nil] at hcon
  exact absurd hcon.2 (by simp)

theorem detect_pair_ne_nil (op : Bool) (agents : List Agent) (paths : List Path)
    (mdds : List (Option Mdd)) (i j step : Nat)
    (hstep : step < max (paths.getD i []).length (paths.getD j []).length)
    (hemit : ∀ l, detectPairStep op (agents.getD i dummyAgent).goal
      (agents.getD j dummyAgent).goal (paths.getD i []) (paths.getD j [])
      (mdds.getD i none) (mdds.getD j none) i j l step ≠ []) :
    detect_conflicts_pair op agents paths mdds i j ≠ [] := by
  simp only [detect_conflicts_pair]
  exact foldl_mem_extend_ne_nil _
    (fun l x => detectPairStep_extends op _ _ _ _ _ _ i j l x)
    (List.range _) step (List.mem_range.mpr hstep) hemit []

theorem detectConflictsList_ne_nil (op : Bool) (agents : List Agent) (paths : List Path)
    (mdds : List (Option Mdd)) (i j : Nat) (hij : i < j) (hj : j < agents.length)
    (hpair : detect_conflicts_pair op agents paths mdds i j ≠ []) :
    detectConflictsList op agents paths mdds ≠ [] := by
  unfold detectConflictsList
  refine foldl_mem_extend_ne_nil _ ?_ (List.range agents.length) i
    (List.mem_range.mpr (by omega)) ?_ []
  · intro l x
    exact foldl_extend_superset _ (fun l2 x2 => ⟨_, rfl⟩) _ l
  · intro init
    refine foldl_mem_extend_ne_nil _ (fun l2 x2 => ⟨_, rfl⟩) _ j ?_ ?_ init
    · rw [List.mem_filter]
      exact ⟨List.mem_range.mpr hj, by simpa using hij⟩
    · intro init2 hcon
      rw [List.append_eq_nil] at hcon
      exact hpair hcon.2

theorem padPos_singleton (p : Path) (hp : p.length = 1) (t : Nat) :
    padPos p t = p.getD 0 (0, 0) := by
  unfold padPos
  split
  · rename_i h
    have ht : t = 0 := by omega
    subst ht
    rfl
  · rw [List.getLast?_eq_getElem?, hp, List.getD_eq_getElem?_getD]

theorem detect_nonempty_of_coincidence (op : Bool) (agents : List Agent)
    (paths : List Path) (mdds : List (Option Mdd)) (i j t : Nat)
    (hij : i < j) (hj : j < agents.length)
    (hne1 : paths.getD i [] ≠ []) (hne2 : paths.getD j [] ≠ [])
    (hstarts : (paths.getD i []).getD 0 (0, 0) ≠ (paths.getD j []).getD 0 (0, 0))
    (ht : 1 ≤ t) (hco : padPos (paths.getD i []) t = padPos (paths.getD j []) t) :
    detectConflictsList op agents paths mdds ≠ [] := by
  by_cases hlt : t < max (paths.getD i []).length (paths.getD j []).length
  · exact detectConflictsList_ne_nil op agents paths mdds i j hij hj
      (detect_pair_ne_nil op agents paths mdds i j t hlt
        (detectPairStep_emits_vertex op _ _ _ _ _ _ i j t (by omega) hco))
  · have hM1 : 1 ≤ (paths.getD i []).length := List.length_pos.mpr hne1
    have hM2 : 1 ≤ (paths.getD j []).length := List.length_pos.mpr hne2
    by_cases hM : max (paths.getD i []).length (paths.getD j []).length ≤ 1
    · refine absurd ?_ hstarts
      rw [← padPos_singleton (paths.getD i []) (by omega) t,
        ← padPos_singleton (paths.getD j []) (by omega) t]
      exact hco
    · have hco2 : padPos (paths.getD i [])
          (max (paths.getD i []).length (paths.getD j []).length - 1) =
          padPos (paths.getD j [])
          (max (paths.getD i []).length (paths.getD j []).length - 1) := by
        rw [padPos_last _ _ hne1 (by omega), padPos_last _ _ hne2 (by omega),
          ← padPos_last _ t hne1 (by omega), ← padPos_last _ t hne2 (by omega)]
        exact hco
      exact detectConflictsList_ne_nil op agents paths mdds i j hij hj
        (detect_pair_ne_nil op agents paths mdds i j _ (by omega)
          (detectPairStep_emits_vertex op _ _ _ _ _ _ i j _ (by omega) hco2))

theorem detect_nonempty_of_swap (op : Bool) (agents : List Agent) (paths : List Path)
    (mdds : List (Option Mdd)) (i j t : Nat) (hij : i < j) (hj : j < agents.length)
    (ht : 1 ≤ t) (h1 : t < (paths.getD i []).length) (h2 : t < (paths.getD j []).length)
    (hs1 : (paths.getD i []).getD (t - 1) (0, 0) = padPos (paths.getD j []) t)
    (hs2 : (paths.getD j []).getD (t - 1) (0, 0) = padPos (paths.getD i []) t) :
    detectConflictsList op agents paths mdds ≠ [] :=
  detectConflictsList_ne_nil op agents paths mdds i j hij hj
    (detect_pair_ne_nil op agents paths mdds i j t (by omega)
      (detectPairStep_emits_edge op _ _ _ _ _ _ i j t (by omega) h1 h2 hs1 hs2))

/-! ### From an empty conflict list to a verified solution -/

theorem getD_eq_getElem (l : List α) (i : Nat) (h : i < l.length) (d : α) :
    l.getD i d = l[i] := by
  rw [List.getD_eq_getElem?_getD, List.getElem?_eq_getElem h]
  rfl

theorem getD_mem (l : List α) (i : Nat) (h : i < l.length) (d : α) : l.getD i d ∈ l := by
  rw [getD_eq_getElem l i h d]
  exact List.getElem_mem h

theorem chain'_all (R : α → α → Prop) (P : α → Prop) (hR : ∀ x y, R x y → P y) :
    ∀ (l : List α) (x : α), List.Chain' R (x :: l) → P x → ∀ q ∈ x :: l, P q := by
  intro l
  induction l with
  | nil =>
      intro x hc hx q hq
      rcases List.mem_cons.mp hq with rfl | hq
      · exact hx
      · simp at hq
  | cons y t ih =>
      intro x hc hx q hq
      rw [List.chain'_cons] at hc
      rcases List.mem_cons.mp hq with rfl | hq
      · exact hx
      · exact ih y hc.2 (hR x y hc.1) q hq

theorem chain'_zip_tail (R : α → α → Prop) :
    ∀ (l : List α), List.Chain' R l → ∀ w ∈ l.zip l.tail, R w.1 w.2 := by
  intro l
  induction l with
  | nil =>
      intro _ w hw
      simp at hw
  | cons x t ih =>
      intro hc w hw
      cases t with
      | nil => simp at hw
      | cons y t2 =>
          rw [List.chain'_cons] at hc
          simp only [List.tail_cons, List.zip_cons_cons] at hw
          rcases List.mem_cons.mp hw with rfl | hw
          · exact hc.1
          · exact ih hc.2 w hw

theorem validPath_nonempty (m : Map) (a : Agent) (p : Path) (h : validPath m a p) :
    p ≠ [] := by
  obtain ⟨hh, -, -⟩ := h
  intro hcon
  rw [hcon] at hh
  simp at hh

theorem getD_zero_start (m : Map) (a : Agent) (p : Path) (h : validPath m a p) :
    p.getD 0 (0, 0) = a.start := by
  obtain ⟨hh, -, -⟩ := h
  cases p with
  | nil => simp at hh
  | cons x rest =>
      simp only [List.head?_cons, Option.some.injEq] at hh
      subst hh
      rfl

theorem padPos_zero_start (m : Map) (a : Agent) (p : Path) (h : validPath m a p) :
    padPos p 0 = a.start := by
  rw [padPos_lt p 0 (List.length_pos.mpr (validPath_nonempty m a p h))]
  exact getD_zero_start m a p h

theorem validPath_cells_passable (m : Map) (a : Agent) (p : Path) (hvp : validPath m a p)
    (hstart : m.passable a.start = true) : ∀ q ∈ p, m.passable q = true := by
  obtain ⟨hh, -, hchain⟩ := hvp
  cases p with
  | nil => simp at hh
  | cons x rest =>
      simp only [List.head?_cons, Option.some.injEq] at hh
      subst hh
      exact chain'_all _ (fun q => m.passable q = true)
        (fun x y hxy => passable_of_mem_neighbors m x.1 x.2 true y hxy) rest a.start
        hchain hstart

theorem validPath_steps (m : Map) (a : Agent) (p : Path) (hvp : validPath m a p) :
    ∀ w ∈ p.zip p.tail, Solution.are_neighbors w.1 w.2 = true := by
  obtain ⟨-, -, hchain⟩ := hvp
  intro w hw
  have hr := chain'_zip_tail _ p hchain w hw
  exact are_neighbors_of_mem m w.1.1 w.1.2 true w.2 hr

theorem seenPositions_mem (t : Nat) (pre : List Path) (q : Pos) :
    q ∈ seenPositions t pre ↔ ∃ jj, jj < pre.length ∧ padPos (pre.getD jj []) t = q := by
  unfold seenPositions
  rw [List.mem_reverse, List.mem_map]
  constructor
  · rintro ⟨x, hx, rfl⟩
    obtain ⟨jj, hjj, hget⟩ := List.mem_iff_getElem.mp hx
    refine ⟨jj, hjj, ?_⟩
    rw [getD_eq_getElem pre jj hjj [], hget]
  · rintro ⟨jj, hjj, rfl⟩
    exact ⟨pre.getD jj [], getD_mem pre jj hjj [], rfl⟩

theorem seenEdges_mem (t : Nat) (pre : List Path) (e : Pos × Pos) :
    e ∈ seenEdges t pre ↔ ∃ jj, jj < pre.length ∧ edgeAt t (pre.getD jj []) = some e := by
  unfold seenEdges
  rw [List.mem_reverse, List.mem_filterMap]
  constructor
  · rintro ⟨x, hx, hex⟩
    obtain ⟨jj, hjj, hget⟩ := List.mem_iff_getElem.mp hx
    refine ⟨jj, hjj, ?_⟩
    rw [getD_eq_getElem pre jj hjj [], hget]
    exact hex
  · rintro ⟨jj, hjj, hej⟩
    exact ⟨pre.getD jj [], getD_mem pre jj hjj [], hej⟩

theorem seenPositions_append (t : Nat) (pre : List Path) (p : Path) :
    seenPositions t (pre ++ [p]) = padPos p t :: seenPositions t pre := by
  simp [seenPositions]

theorem seenEdges_append_some (t : Nat) (pre : List Path) (p : Path) (e : Pos × Pos)
    (h : edgeAt t p = some e) : seenEdges t (pre ++ [p]) = e :: seenEdges t pre := by
  simp [seenEdges, h]

theorem seenEdges_append_none (t : Nat) (pre : List Path) (p : Path)
    (h : edgeAt t p = none) : seenEdges t (pre ++ [p]) = seenEdges t pre := by
  simp [seenEdges, h]

theorem edgeAt_some (t : Nat) (p : Path) (e : Pos × Pos) (h : edgeAt t p = some e) :
    1 ≤ t ∧ t < p.length ∧ p.getD (t - 1) (0, 0) ≠ padPos p t ∧
      e = (p.getD (t - 1) (0, 0), padPos p t) := by
  unfold edgeAt at h
  split at h
  · rename_i hc
    injection h with h
    exact ⟨hc.1, hc.2.1, hc.2.2, h.symm⟩
  · exact absurd h (by simp)

theorem verifyStepFold_step (map : Map) (agents : List Agent) (paths : List Path)
    (mdds : List (Option Mdd)) (op : Bool) (t : Nat)
    (hlen : paths.length = agents.length)
    (hvp : ∀ i, i < agents.length →
      validPath map (agents.getD i dummyAgent) (paths.getD i []))
    (hpass : ∀ i, i < agents.length →
      map.passable (agents.getD i dummyAgent).start = true)
    (hdist : ∀ i, i < agents.length → ∀ j, j < agents.length → i ≠ j →
      (agents.getD i dummyAgent).start ≠ (agents.getD j dummyAgent).start)
    (hnc : detectConflictsList op agents paths mdds = [])
    (pre : List Path) (p : Path) (suf : List Path)
    (hsplit : paths = pre ++ p :: suf) :
    verifyStepFold map t (true, seenPositions t pre, seenEdges t pre) p =
      (true, seenPositions t (pre ++ [p]), seenEdges t (pre ++ [p])) := by
  have hlenp : paths.length = pre.length + (suf.length + 1) := by
    rw [hsplit, List.length_append]
    rfl
  have hka : pre.length < agents.length := by omega
  have hgetk : paths.getD pre.length [] = p := by
    rw [hsplit, List.getD_eq_getElem?_getD, List.getElem?_append_right (le_refl _)]
    simp
  have hprej : ∀ jj, jj < pre.length → paths.getD jj [] = pre.getD jj [] := by
    intro jj hjj
    rw [hsplit]
    exact getD_append_left pre (p :: suf) jj hjj []
  have hvpk := hvp pre.length hka
  rw [hgetk] at hvpk
  have hpne : p ≠ [] := validPath_nonempty map _ p hvpk
  have hcoin : ∀ jj, jj < pre.length → padPos (pre.getD jj []) t = padPos p t → 1 ≤ t →
      False := by
    intro jj hjj hq ht1
    have hja : jj < agents.length := by omega
    have hvpj := hvp jj hja
    rw [hprej jj hjj] at hvpj
    refine detect_nonempty_of_coincidence op agents paths mdds jj pre.length t hjj hka
      ?_ ?_ ?_ ht1 ?_ hnc
    · rw [hprej jj hjj]
      exact validPath_nonempty map _ _ hvpj
    · rw [hgetk]
      exact hpne
    · rw [hprej jj hjj, hgetk, getD_zero_start map _ _ hvpj, getD_zero_start map _ _ hvpk]
      exact hdist jj hja pre.length hka (by omega)
    · rw [hprej jj hjj, hgetk]
      exact hq
  have hcoin0 : ∀ jj, jj < pre.length → padPos (pre.getD jj []) 0 = padPos p 0 →
      False := by
    intro jj hjj hq
    have hja : jj < agents.length := by omega
    have hvpj := hvp jj hja
    rw [hprej jj hjj] at hvpj
    rw [padPos_zero_start map _ _ hvpj, padPos_zero_start map _ _ hvpk] at hq
    exact hdist jj hja pre.length hka (by omega) hq
  have hnotseen : padPos p t ∉ seenPositions t pre := by
    intro hmem
    obtain ⟨jj, hjj, hjq⟩ := (seenPositions_mem t pre _).mp hmem
    cases Nat.eq_zero_or_pos t with
    | inl h0 =>
        subst h0
        exact hcoin0 jj hjj hjq
    | inr h1 =>
        exact hcoin jj hjj hjq h1
  have hpas : map.passable (padPos p t) = true :=
    validPath_cells_passable map _ p hvpk (hpass pre.length hka) (padPos p t)
      (padPos_mem p t hpne)
  have hcond1 : ¬¬(map.is_passable (padPos p t).1 (padPos p t).2 = true) :=
    fun hc => hc hpas
  unfold verifyStepFold
  simp only []
  rw [if_neg hcond1, if_neg hnotseen]
  by_cases hbr : t ≥ 1 ∧ t < p.length
  · rw [if_pos hbr]
    by_cases hpe : p.getD (t - 1) (0, 0) ≠ padPos p t
    · rw [if_pos hpe]
      have hedges : ¬((p.getD (t - 1) (0, 0), padPos p t) ∈ seenEdges t pre ∨
          (padPos p t, p.getD (t - 1) (0, 0)) ∈ seenEdges t pre) := by
        rintro (hf | hr)
        · obtain ⟨jj, hjj, hej⟩ := (seenEdges_mem t pre _).mp hf
          obtain ⟨-, -, -, hee⟩ := edgeAt_some t (pre.getD jj []) _ hej
          have hco : padPos (pre.getD jj []) t = padPos p t :=
            (congrArg Prod.snd hee).symm
          exact hcoin jj hjj hco hbr.1
        · obtain ⟨jj, hjj, hej⟩ := (seenEdges_mem t pre _).mp hr
          obtain ⟨-, hjl, -, hee⟩ := edgeAt_some t (pre.getD jj []) _ hej
          have h1 : (pre.getD jj []).getD (t - 1) (0, 0) = padPos p t :=
            (congrArg Prod.fst hee).symm
          have h2 : p.getD (t - 1) (0, 0) = padPos (pre.getD jj []) t :=
            congrArg Prod.snd hee
          refine detect_nonempty_of_swap op agents paths mdds jj pre.length t hjj hka
            hbr.1 ?_ ?_ ?_ ?_ hnc
          · rw [hprej jj hjj]
            exact hjl
          · rw [hgetk]
            exact hbr.2
          · rw [hprej jj hjj, hgetk]
            exact h1
          · rw [hprej jj hjj, hgetk]
            exact h2
      rw [if_neg hedges]
      have hea : edgeAt t p = some (p.getD (t - 1) (0, 0), padPos p t) := by
        unfold edgeAt
        rw [if_pos ⟨hbr.1, hbr.2, hpe⟩]
      rw [seenPositions_append, seenEdges_append_some t pre p _ hea]
    · rw [if_neg hpe]
      have hea : edgeAt t p = none := by
        unfold edgeAt
        rw [if_neg (fun hc => hpe hc.2.2)]
      rw [seenPositions_append, seenEdges_append_none t pre p hea]
  · rw [if_neg hbr]
    have hea : edgeAt t p = none := by
      unfold edgeAt
      rw [if_neg (fun hc => hbr ⟨hc.1, hc.2.1⟩)]
    rw [seenPositions_append, seenEdges_append_none t pre p hea]

theorem verifyStep_true (map : Map) (agents : List Agent) (paths : List Path)
    (mdds : List (Option Mdd)) (op : Bool) (t : Nat)
    (hlen : paths.length = agents.length)
    (hvp : ∀ i, i < agents.length →
      validPath map (agents.getD i dummyAgent) (paths.getD i []))
    (hpass : ∀ i, i < agents.length →
      map.passable (agents.getD i dummyAgent).start = true)
    (hdist : ∀ i, i < agents.length → ∀ j, j < agents.length → i ≠ j →
      (agents.getD i dummyAgent).start ≠ (agents.getD j dummyAgent).start)
    (hnc : detectConflictsList op agents paths mdds = []) :
    verifyStep map paths t = true := by
  have main : ∀ (suf pre : List Path), paths = pre ++ suf →
      suf.foldl (verifyStepFold map t) (true, seenPositions t pre, seenEdges t pre) =
        (true, seenPositions t (pre ++ suf), seenEdges t (pre ++ suf)) := by
    intro suf
    induction suf with
    | nil =>
        intro pre hpre
        rw [List.foldl_nil, List.append_nil]
    | cons p suf2 ih =>
        intro pre hpre
        rw [List.foldl_cons, verifyStepFold_step map agents paths mdds op t hlen hvp
          hpass hdist hnc pre p suf2 hpre]
        rw [ih (pre ++ [p]) (by rw [hpre, List.append_assoc]; rfl)]
        rw [List.append_assoc]
        rfl
  have h0 := main paths [] rfl
  simp only [seenPositions, seenEdges, List.map_nil, List.filterMap_nil,
    List.reverse_nil, List.nil_append] at h0
  unfold verifyStep
  rw [h0]

theorem verify_of_no_conflicts (map : Map) (agents : List Agent) (paths : List Path)
    (mdds : List (Option Mdd)) (op : Bool)
    (hlen : paths.length = agents.length)
    (hvp : ∀ i, i < agents.length →
      validPath map (agents.getD i dummyAgent) (paths.getD i []))
    (hpass : ∀ i, i < agents.length →
      map.passable (agents.getD i dummyAgent).start = true)
    (hdist : ∀ i, i < agents.length → ∀ j, j < agents.length → i ≠ j →
      (agents.getD i dummyAgent).start ≠ (agents.getD j dummyAgent).start)
    (hnc : detectConflictsList op agents paths mdds = []) :
    Solution.verify ⟨paths⟩ map agents = true := by
  unfold Solution.verify
  simp only []
  by_cases hemp : paths.isEmpty = true
  · rw [if_pos hemp]
  · rw [if_neg hemp, if_neg (fun hcc => hcc hlen)]
    rw [Bool.and_eq_true]
    constructor
    · rw [List.all_eq_true]
      intro pa hpa
      obtain ⟨idx, hidx, hget⟩ := List.mem_iff_getElem.mp hpa
      rw [List.getElem_zip] at hget
      have hip : idx < paths.length := by
        rw [List.length_zip] at hidx
        omega
      have hia : idx < agents.length := by
        rw [List.length_zip] at hidx
        omega
      have hvpi := hvp idx hia
      rw [getD_eq_getElem paths idx hip [], getD_eq_getElem agents idx hia dummyAgent]
        at hvpi
      obtain ⟨hh, hl, hch⟩ := hvpi
      rw [← hget]
      simp only [hh, hl]
      rw [Bool.and_eq_true, Bool.and_eq_true]
      refine ⟨⟨by simp, by simp⟩, ?_⟩
      rw [List.all_eq_true]
      intro w hw
      refine validPath_steps map (agents[idx]) (paths[idx]) ?_ w hw
      exact ⟨hh, hl, hch⟩
    · rw [List.all_eq_true]
      intro t ht
      exact verifyStep_true map agents paths mdds op t hlen hvp hpass hdist hnc

/-- **C1** (refuted as universally stated; amended below): the claim says
every returned solution passes `Solution::verify` on every input.  On the
legal input below — two agents sharing the passable start cell `(1,1)`,
which no loader, constructor or driver rejects — plain CBS returns a
solution whose `verify` is `false`: `detect_conflicts` scans only time
steps `t ≥ 1`, so the root CT node of the duplicate-start instance is
conflict-free and is returned at once, while `verify` checks time step 0
and finds the shared cell. -/
theorem C1_counterexample_shared_starts :
    (CBS.solve 64 agentsShared map3 cfgCBS).map
        (fun r => r.1.map (fun s => (s.paths, s.verify map3 agentsShared))) =
      some (some ([[(1, 1), (0, 1)], [(1, 1), (2, 1)]], false)) := by
  decide

/-- **C1** (amended): for every variant and every input whose agents have
canonical ids (`agents[i].id = i`), pairwise distinct start cells and
passable start cells, every CT node any driver can pop — the root of
`HighLevelOpenNode::new`, an `update_constraint` child, or an
`update_bypass_node` adoption — with an empty conflict list carries paths
that `Solution::verify` accepts for the map and agents. -/
theorem C1_reachable_solution_verifies (m : Map) (agents : List Agent) (config : Config)
    (n : HighLevelOpenNode)
    (hids : ∀ i, i < agents.length → (agents.getD i dummyAgent).id = i)
    (hpass : ∀ i, i < agents.length →
      m.passable (agents.getD i dummyAgent).start = true)
    (hdist : ∀ i, i < agents.length → ∀ j, j < agents.length → i ≠ j →
      (agents.getD i dummyAgent).start ≠ (agents.getD j dummyAgent).start)
    (hreach : ReachableNode m agents config n)
    (hconf : n.conflicts = []) :
    Solution.verify ⟨n.paths⟩ m agents = true := by
  obtain ⟨hag, hlen, hmlen, hvp, hdet⟩ := reachable_WF m agents config hids n hreach
  refine verify_of_no_conflicts m agents n.paths n.mdds config.op_target_reasoning hlen
    hvp hpass hdist ?_
  rw [← hdet]
  exact hconf

/-- Witness for the amended C1: the root CT node of the conflict-free
two-agent instance on the open 3×3 map is reachable, has no conflicts, and
its paths verify. -/
theorem C1_reachable_solution_verifies_witness :
    Solution.verify ⟨rootTB.paths⟩ mapTopBottom agentsTB = true :=
  C1_reachable_solution_verifies mapTopBottom agentsTB cfgCBS rootTB (by decide)
    (by decide) (by decide)
    (ReachableNode.root 64 "cbs" Stats.default rootTBStats rootTB (by decide))
    (by decide)

/-! ### The suboptimality window of the dual-queue focal search -/

theorem ordering_then_eq {a b : Ordering} (h : a.then b = .eq) : a = .eq ∧ b = .eq := by
  cases a with
  | lt => exact absurd h (by simp [Ordering.then])
  | eq => exact ⟨rfl, h⟩
  | gt => exact absurd h (by simp [Ordering.then])

theorem nat_compare_eq {a b : Nat} (h : compare a b = .eq) : a = b := by
  rcases Nat.lt_trichotomy a b with hlt | heq | hgt
  · rw [Nat.compare_eq_lt.mpr hlt] at h
    exact absurd h (by simp)
  · exact heq
  · rw [Nat.compare_eq_gt.mpr hgt] at h
    exact absurd h (by simp)

theorem focalCmp_eq_f_open (x y : LowLevelNode) (h : focalCmp x y = .eq) :
    x.f_open_cost = y.f_open_cost := by
  unfold focalCmp at h
  obtain ⟨h1, h2⟩ := ordering_then_eq h
  obtain ⟨h3, h4⟩ := ordering_then_eq h2
  exact nat_compare_eq h3

theorem btContains_exists (cmp : α → α → Ordering) (l : List α) (a : α)
    (h : btContains cmp l a = true) : ∃ x ∈ l, cmp x a = .eq := by
  unfold btContains at h
  rw [List.any_eq_true] at h
  obtain ⟨x, hx, hcmp⟩ := h
  refine ⟨x, hx, ?_⟩
  cases hc : cmp x a with
  | lt => rw [hc] at hcmp; exact absurd hcmp (by decide)
  | eq => rfl
  | gt => rw [hc] at hcmp; exact absurd hcmp (by decide)

theorem focalExpandNeighbor_bnd (map : Map) (agent : Agent) (constraints : ConstraintSet)
    (paths : List Path) (w : ℚ) (current : LowLevelNode) (ts nts : Nat)
    (closed : List (Pos × Nat)) (st : FocalState) (nb : Pos)
    (hT : focalTight w st) (hE : focalFEq map agent.id st) :
    focalTight w (focalExpandNeighbor map agent constraints paths w current
      (current.g_cost + 1) ts nts closed st nb) ∧
    focalFEq map agent.id (focalExpandNeighbor map agent constraints paths w current
      (current.g_cost + 1) ts nts closed st nb) := by
  obtain ⟨hEo, hEf⟩ := hE
  by_cases hcl : ((nb, ts) : Pos × Nat) ∈ closed
  · simp only [focalExpandNeighbor, if_pos hcl]
    exact ⟨hT, hEo, hEf⟩
  · by_cases hv : (constraints.any fun c =>
        c.is_violated current.position nb (current.g_cost + 1)) = true
    · simp only [focalExpandNeighbor, if_neg hcl, if_pos hv]
      exact ⟨hT, hEo, hEf⟩
    · rcases hffmv : ffmLookup st.f_focal_cost_map (nb, current.g_cost + 1) with _ | old
      · simp only [focalExpandNeighbor, if_neg hcl, if_neg hv, hffmv]
        split
        · rename_i hbw
          refine ⟨?_, ?_, ?_⟩
          · intro n hn
            rcases btInsert_mem focalCmp st.focal_list _ n hn with rfl | hn2
            · exact hbw
            · exact hT n hn2
          · intro n hn
            rcases btInsert_mem openCmp st.open_list _ n hn with rfl | hn2
            · rfl
            · exact hEo n hn2
          · intro n hn
            rcases btInsert_mem focalCmp st.focal_list _ n hn with rfl | hn2
            · rfl
            · exact hEf n hn2
        · refine ⟨fun n hn => hT n hn, ?_, fun n hn => hEf n hn⟩
          intro n hn
          rcases btInsert_mem openCmp st.open_list _ n hn with rfl | hn2
          · rfl
          · exact hEo n hn2
      · simp only [focalExpandNeighbor, if_neg hcl, if_neg hv, hffmv]
        split
        · split
          · rename_i hrf2
            obtain ⟨x, hxmem, hxcmp⟩ := btContains_exists focalCmp st.focal_list _ hrf2
            have hxf := focalCmp_eq_f_open x _ hxcmp
            refine ⟨?_, ?_, ?_⟩
            · intro n hn
              rcases btInsert_mem focalCmp _ _ n hn with rfl | hn2
              · have hb := hT x hxmem
                rw [hxf] at hb
                exact hb
              · exact hT n (btErase_subset focalCmp st.focal_list _ n hn2)
            · intro n hn
              rcases btInsert_mem openCmp _ _ n hn with rfl | hn2
              · rfl
              · exact hEo n (btErase_subset openCmp st.open_list _ n hn2)
            · intro n hn
              rcases btInsert_mem focalCmp _ _ n hn with rfl | hn2
              · rfl
              · exact hEf n (btErase_subset focalCmp st.focal_list _ n hn2)
          · split
            · refine ⟨fun n hn => hT n hn, ?_, fun n hn => hEf n hn⟩
              intro n hn
              rcases btInsert_mem openCmp _ _ n hn with rfl | hn2
              · rfl
              · exact hEo n (btErase_subset openCmp st.open_list _ n hn2)
            · exact ⟨hT, hEo, hEf⟩
        · exact ⟨hT, hEo, hEf⟩

theorem focalMaintain_bnd (map : Map) (aid : Nat) (w : ℚ) (st : FocalState) (hw : 1 ≤ w)
    (hT : focalTight w st) (hE : focalFEq map aid st) :
    focalLoose w (focalMaintain w st).1 ∧ focalFEq map aid (focalMaintain w st).1 := by
  obtain ⟨hEo, hEf⟩ := hE
  have hw0 : (0 : ℚ) ≤ w := by linarith
  have hloose : focalLoose w st := by
    intro n hn
    refine le_trans (hT n hn) (mul_le_mul_of_nonneg_right ?_ hw0)
    exact_mod_cast le_max_right (openMinF st) st.f_min
  rcases hmin : btMin? openCmp st.open_list with _ | first
  · simp only [focalMaintain, hmin]
    exact ⟨fun n hn => hloose n hn, fun n hn => hEo n hn, fun n hn => hEf n hn⟩
  · simp only [focalMaintain, hmin]
    split
    · rename_i hlt
      have homf : openMinF st = first.f_open_cost := by
        unfold openMinF
        rw [hmin]
        rfl
      have hfold := foldl_preserve
        (fun fl => (∀ n ∈ fl, (n.f_open_cost : ℚ) ≤
            ((max (openMinF st) st.f_min : Nat) : ℚ) * w) ∧
          (∀ n ∈ fl, n.f_open_cost = n.g_cost + map.heuristic aid n.position))
        (fun focal node =>
          if (node.f_open_cost : ℚ) > (st.f_min : ℚ) * w ∧
              (node.f_open_cost : ℚ) ≤ (first.f_open_cost : ℚ) * w then
            (btInsert focalCmp focal node).1
          else focal)
        st.open_list ?_ st.focal_list ⟨fun n hn => hloose n hn, hEf⟩
      · exact ⟨fun n hn => (hfold.1 n hn), fun n hn => hEo n hn,
          fun n hn => (hfold.2 n hn)⟩
      · intro b a hb ha
        simp only []
        split
        · rename_i hcond
          constructor
          · intro n hn
            rcases btInsert_mem focalCmp b a n hn with rfl | hn2
            · refine le_trans hcond.2 (mul_le_mul_of_nonneg_right ?_ hw0)
              rw [← homf]
              exact_mod_cast le_max_left (openMinF st) st.f_min
            · exact hb.1 n hn2
          · intro n hn
            rcases btInsert_mem focalCmp b a n hn with rfl | hn2
            · exact hEo n ha
            · exact hb.2 n hn2
        · exact hb
    · exact ⟨fun n hn => hloose n hn, fun n hn => hEo n hn, fun n hn => hEf n hn⟩

theorem focalExpandFold_bnd (map : Map) (agent : Agent) (constraints : ConstraintSet)
    (paths : List Path) (w : ℚ) (current : LowLevelNode) (ts nts : Nat)
    (closed : List (Pos × Nat)) (iw : Bool) (st : FocalState)
    (hT : focalTight w st) (hE : focalFEq map agent.id st) :
    focalTight w
      ((map.get_neighbors current.position.1 current.position.2 iw).foldl
        (fun s nb => focalExpandNeighbor map agent constraints paths w current
          (current.g_cost + 1) ts nts closed s nb) st) ∧
    focalFEq map agent.id
      ((map.get_neighbors current.position.1 current.position.2 iw).foldl
        (fun s nb => focalExpandNeighbor map agent constraints paths w current
          (current.g_cost + 1) ts nts closed s nb) st) :=
  foldl_preserve
    (fun s : FocalState => focalTight w s ∧ focalFEq map agent.id s)
    (fun s nb => focalExpandNeighbor map agent constraints paths w current
      (current.g_cost + 1) ts nts closed s nb)
    (map.get_neighbors current.position.1 current.position.2 iw)
    (fun b a hb _ =>
      focalExpandNeighbor_bnd map agent constraints paths w current ts nts closed b a
        hb.1 hb.2)
    st ⟨hT, hE⟩

theorem focal_step_accept_f (map : Map) (agent : Agent) (w : ℚ)
    (constraints : ConstraintSet) (L T : Nat) (paths : List Path) (st : FocalState)
    (path2 : Path) (f2 : Nat) (stats2 : Stats)
    (h : standard_focal_a_star_search_step map agent w constraints L T paths st =
      .inl (some (path2, f2), stats2)) :
    f2 = max (openMinF st) st.f_min := by
  unfold standard_focal_a_star_search_step at h
  split at h
  · injection h with h
    simp at h
  · rename_i current focal1 hpop
    simp only [] at h
    split at h
    · injection h with h
      simp only [Prod.mk.injEq, Option.some.injEq] at h
      obtain ⟨⟨-, hf⟩, -⟩ := h
      exact hf.symm
    · exact absurd h (by simp)

theorem focal_step_bnd (map : Map) (agent : Agent) (w : ℚ) (constraints : ConstraintSet)
    (L T : Nat) (paths : List Path) (st : FocalState) (hw : 1 ≤ w)
    (hgoal : map.heuristic agent.id agent.goal = 0)
    (hL : focalLoose w st) (hE : focalFEq map agent.id st)
    (hinv : focalInv map constraints agent.start st) :
    (∀ st', standard_focal_a_star_search_step map agent w constraints L T paths st =
        .inr st' → focalLoose w st' ∧ focalFEq map agent.id st') ∧
    (∀ path f stats', standard_focal_a_star_search_step map agent w constraints L T paths
        st = .inl (some (path, f), stats') →
      ((path.length - 1 : Nat) : ℚ) ≤ (f : ℚ) * w) := by
  obtain ⟨hEo, hEf⟩ := hE
  obtain ⟨htr, hopen, hfocal, hffm⟩ := hinv
  constructor
  · intro st' h
    unfold standard_focal_a_star_search_step at h
    split at h
    · exact absurd h (by simp)
    · rename_i current focal1 hpop
      obtain ⟨hcur, hsub⟩ := btPopFirst_spec focalCmp st.focal_list current focal1 hpop
      simp only [] at h
      split at h
      · exact absurd h (by simp)
      · injection h with h
        subst h
        refine focalMaintain_bnd map agent.id w _ hw ?_ ?_
        · refine (focalExpandFold_bnd map agent constraints paths w current
            _ _ _ _ _ ?_ ?_).1
          · exact fun n hn => hL n (hsub n hn)
          · exact ⟨fun n hn => hEo n (btErase_subset openCmp st.open_list current n hn),
              fun n hn => hEf n (hsub n hn)⟩
        · refine (focalExpandFold_bnd map agent constraints paths w current
            _ _ _ _ _ ?_ ?_).2
          · exact fun n hn => hL n (hsub n hn)
          · exact ⟨fun n hn => hEo n (btErase_subset openCmp st.open_list current n hn),
              fun n hn => hEf n (hsub n hn)⟩
  · intro path f stats' h
    have hfc := focal_step_accept_f map agent w constraints L T paths st path f stats' h
    unfold standard_focal_a_star_search_step at h
    split at h
    · injection h with h
      simp at h
    · rename_i current focal1 hpop
      obtain ⟨hcur, -⟩ := btPopFirst_spec focalCmp st.focal_list current focal1 hpop
      simp only [] at h
      split at h
      · rename_i hacc
        injection h with h
        simp only [Prod.mk.injEq, Option.some.injEq] at h
        obtain ⟨⟨hpath, -⟩, -⟩ := h
        subst hpath
        obtain ⟨hlen, -, -, -, -⟩ :=
          construct_path_spec map constraints agent.start st.trace htr
            current.position current.g_cost (hfocal current hcur)
        have hfo := hEf current hcur
        rw [hacc.1, hgoal] at hfo
        have hbd := hL current hcur
        rw [hfo] at hbd
        rw [hlen, hfc]
        simpa using hbd
      · exact absurd h (by simp)

theorem focal_loop_bnd (map : Map) (agent : Agent) (w : ℚ) (constraints : ConstraintSet)
    (L T : Nat) (paths : List Path) (hw : 1 ≤ w)
    (hgoal : map.heuristic agent.id agent.goal = 0) :
    ∀ (fuel : Nat) (st : FocalState), focalInv map constraints agent.start st →
      focalLoose w st → focalFEq map agent.id st →
      ∀ path f stats',
        standard_focal_a_star_search_loop map agent w constraints L T paths fuel st =
          some (some (path, f), stats') →
        ((path.length - 1 : Nat) : ℚ) ≤ (f : ℚ) * w := by
  intro fuel
  induction fuel with
  | zero =>
      intro st _ _ _ path f stats' h
      exact absurd h (by simp [standard_focal_a_star_search_loop])
  | succ fuel ih =>
      intro st hinv hL hE path f stats' h
      simp only [standard_focal_a_star_search_loop] at h
      split at h
      · rename_i r hstep
        injection h with h
        subst h
        exact (focal_step_bnd map agent w constraints L T paths st hw hgoal hL hE hinv).2
          path f stats' hstep
      · rename_i st' hstep
        have hLE := (focal_step_bnd map agent w constraints L T paths st hw hgoal hL hE
          hinv).1 st' hstep
        exact ih st' ((focal_step_inv map agent w constraints L T paths st hinv).1 st'
          hstep) hLE.1 hLE.2 path f stats' h

theorem initFocalState_loose (map : Map) (agent : Agent) (w : ℚ) (stats : Stats)
    (hw : 1 ≤ w) : focalLoose w (initFocalState map agent stats) := by
  intro n hn
  simp only [initFocalState, List.mem_singleton] at hn
  subst hn
  have homf : openMinF (initFocalState map agent stats) =
      map.heuristic agent.id agent.start := rfl
  rw [homf]
  have hmax : max (map.heuristic agent.id agent.start)
      (initFocalState map agent stats).f_min = map.heuristic agent.id agent.start := by
    simp [initFocalState]
  rw [hmax]
  refine le_mul_of_one_le_right ?_ hw
  exact Nat.cast_nonneg _

theorem initFocalState_feq (map : Map) (agent : Agent) (stats : Stats) :
    focalFEq map agent.id (initFocalState map agent stats) := by
  constructor
  · intro n hn
    simp only [initFocalState, List.mem_singleton] at hn
    subst hn
    exact (Nat.zero_add _).symm
  · intro n hn
    simp only [initFocalState, List.mem_singleton] at hn
    subst hn
    exact (Nat.zero_add _).symm

/-- C5: for every agent, constraint set, other agents' paths, length bound `L` and
suboptimality factor `w ≥ 1` (with the heuristic vanishing at the goal, as every
shortest-distance heuristic does), whenever `standard_focal_a_star_search` returns
`some (path, f_min)`: the path runs from the agent's start to its goal with
`g = len(path) - 1 > L` (so `L + 2 ≤ len(path)`), the returned `f_min` of any
accepting step equals the latest lower bound `max` of the open list's minimum
`f_open` and the stored `f_min`, and the suboptimality guarantee
`len(path) - 1 ≤ f_min · w` holds. -/
theorem C5_standard_focal_accept_and_bound (fuel : Nat) (map : Map) (agent : Agent)
    (w : ℚ) (constraints : ConstraintSet) (L T : Nat) (paths : List Path)
    (stats : Stats) (path : Path) (f : Nat) (stats' : Stats) (hw : 1 ≤ w)
    (hgoal : map.heuristic agent.id agent.goal = 0)
    (h : standard_focal_a_star_search fuel map agent w constraints L T paths stats =
      some (some (path, f), stats')) :
    path.head? = some agent.start ∧ path.getLast? = some agent.goal ∧
    L + 2 ≤ path.length ∧
    ((path.length - 1 : Nat) : ℚ) ≤ (f : ℚ) * w ∧
    (∀ st path2 f2 stats2,
      standard_focal_a_star_search_step map agent w constraints L T paths st =
        .inl (some (path2, f2), stats2) → f2 = max (openMinF st) st.f_min) := by
  obtain ⟨hsat, hlen⟩ := standard_focal_sound fuel map agent w constraints L T paths
    stats path f stats' h
  refine ⟨hsat.1.1, hsat.1.2.1, hlen, ?_, ?_⟩
  · unfold standard_focal_a_star_search at h
    exact focal_loop_bnd map agent w constraints L T paths hw hgoal fuel _
      (initFocalState_inv map agent constraints stats)
      (initFocalState_loose map agent w stats hw)
      (initFocalState_feq map agent stats) path f stats' h
  · intro st path2 f2 stats2 h2
    exact focal_step_accept_f map agent w constraints L T paths st path2 f2 stats2 h2

theorem C5_standard_focal_accept_and_bound_witness :
    [(0, 0), (0, 1), (0, 2)].head? = some agentRow3.start ∧
    [(0, 0), (0, 1), (0, 2)].getLast? = some agentRow3.goal ∧
    0 + 2 ≤ [(0, 0), (0, 1), (0, 2)].length ∧
    (([(0, 0), (0, 1), (0, 2)].length - 1 : Nat) : ℚ) ≤ ((2 : Nat) : ℚ) * 1 ∧
    (∀ st path2 f2 stats2,
      standard_focal_a_star_search_step mapRow3 agentRow3 1 [] 0 0 [] st =
        .inl (some (path2, f2), stats2) → f2 = max (openMinF st) st.f_min) :=
  C5_standard_focal_accept_and_bound 8 mapRow3 agentRow3 1 [] 0 0 [] Stats.default
    [(0, 0), (0, 1), (0, 2)] 2 ⟨0, 0, 0, 3, 0⟩ (by norm_num) (by decide)
    (of_decide_eq_true (by with_unfolding_all rfl))

/-! ### Optimality of the open-cost A*: order and structure helpers -/

theorem posCmp_eq (a b : Pos) (h : posCmp a b = .eq) : a = b := by
  unfold posCmp at h
  obtain ⟨h1, h2⟩ := ordering_then_eq h
  have e1 := nat_compare_eq h1
  have e2 := nat_compare_eq h2
  cases a
  cases b
  simp_all

theorem openCmp_lt_f (a b : LowLevelNode) (h : openCmp a b = .lt) :
    a.f_open_cost ≤ b.f_open_cost := by
  unfold openCmp at h
  rcases hc : compare a.f_open_cost b.f_open_cost with _ | _ | _
  · exact le_of_lt (Nat.compare_eq_lt.mp hc)
  · exact le_of_eq (nat_compare_eq hc)
  · rw [hc] at h
    exact absurd h (by simp [Ordering.then])

theorem openCmp_lt_of_f_lt (a b : LowLevelNode) (h : a.f_open_cost < b.f_open_cost) :
    openCmp a b = .lt := by
  unfold openCmp
  rw [Nat.compare_eq_lt.mpr h]
  rfl

theorem openCmp_eq_fields (a b : LowLevelNode) (h : openCmp a b = .eq) :
    a.f_open_cost = b.f_open_cost ∧ a.g_cost = b.g_cost ∧ a.position = b.position := by
  unfold openCmp at h
  obtain ⟨h1, h2⟩ := ordering_then_eq h
  obtain ⟨h3, h4⟩ := ordering_then_eq h2
  exact ⟨nat_compare_eq h1, (nat_compare_eq h3).symm, posCmp_eq _ _ h4⟩

theorem foldl_min_f (t : List LowLevelNode) :
    ∀ (a : LowLevelNode) (x : LowLevelNode), x ∈ a :: t →
      (t.foldl (fun best y => if openCmp y best = .lt then y else best) a).f_open_cost ≤
        x.f_open_cost := by
  induction t with
  | nil =>
      intro a x hx
      rcases List.mem_cons.mp hx with rfl | hx
      · exact le_refl _
      · simp at hx
  | cons y s ih =>
      intro a x hx
      have hba : (if openCmp y a = .lt then y else a).f_open_cost ≤ a.f_open_cost := by
        split
        · exact openCmp_lt_f _ _ (by assumption)
        · exact le_refl _
      have hby : (if openCmp y a = .lt then y else a).f_open_cost ≤ y.f_open_cost := by
        split
        · exact le_refl _
        · rename_i hnl
          by_contra hc
          push_neg at hc
          exact hnl (openCmp_lt_of_f_lt y a hc)
      have hmin := ih (if openCmp y a = .lt then y else a) _
        (List.mem_cons_self (if openCmp y a = .lt then y else a) s)
      rcases List.mem_cons.mp hx with rfl | hx
      · exact le_trans hmin hba
      · rcases List.mem_cons.mp hx with rfl | hx
        · exact le_trans hmin hby
        · exact ih (if openCmp y a = .lt then y else a) x (List.mem_cons_of_mem _ hx)

theorem btMin?_f_le (l : List LowLevelNode) (mn : LowLevelNode)
    (h : btMin? openCmp l = some mn) : ∀ x ∈ l, mn.f_open_cost ≤ x.f_open_cost := by
  cases l with
  | nil => simp [btMin?] at h
  | cons a t =>
      simp only [btMin?, Option.some.injEq] at h
      subst h
      exact fun x hx => foldl_min_f t a x hx

theorem btErase_mem_or (cmp : α → α → Ordering) :
    ∀ (l : List α) (a x : α), x ∈ l → x ∈ btErase cmp l a ∨ cmp x a = .eq := by
  intro l
  induction l with
  | nil =>
      intro a x hx
      simp at hx
  | cons y t ih =>
      intro a x hx
      simp only [btErase]
      split
      · rename_i hy
        rcases List.mem_cons.mp hx with rfl | hx
        · exact Or.inr hy
        · exact Or.inl hx
      · rcases List.mem_cons.mp hx with rfl | hx
        · exact Or.inl (List.mem_cons_self _ _)
        · rcases ih a x hx with h | h
          · exact Or.inl (List.mem_cons_of_mem _ h)
          · exact Or.inr h

theorem hsInsert_mem [DecidableEq α] (s : List α) (a x : α) :
    x ∈ hsInsert s a ↔ x = a ∨ x ∈ s := by
  unfold hsInsert
  split
  · rename_i ha
    constructor
    · exact fun h => Or.inr h
    · rintro (rfl | h)
      · exact ha
      · exact h
  · simp [List.mem_cons]

theorem self_not_mem_gn_false (m : Map) (x y : Nat) :
    ((x, y) : Pos) ∉ m.get_neighbors x y false := by
  intro h
  rw [mem_get_neighbors] at h
  rcases h with ⟨h1, -, -, -, he⟩ | ⟨-, -, -, he⟩ | ⟨h1, -, -, -, he⟩ | ⟨-, -, -, he⟩ |
    ⟨hf, -⟩
  · injection he with e1 e2
    omega
  · injection he with e1 e2
    omega
  · injection he with e1 e2
    omega
  · injection he with e1 e2
    omega
  · exact absurd hf (by simp)

theorem mem_gn_false_of_ne (m : Map) (x y : Nat) (p : Pos)
    (h : p ∈ m.get_neighbors x y true) (hne : p ≠ (x, y)) :
    p ∈ m.get_neighbors x y false := by
  rw [mem_get_neighbors] at h ⊢
  rcases h with h | h | h | h | ⟨-, -, -, -, h5⟩
  · exact Or.inl h
  · exact Or.inr (Or.inl h)
  · exact Or.inr (Or.inr (Or.inl h))
  · exact Or.inr (Or.inr (Or.inr (Or.inl h)))
  · exact absurd h5 hne

theorem is_violated_shift (c : Constraint) (T : Nat) (hc : c.refTime ≤ T)
    (a b : Pos) (t t' : Nat) (ht : T < t) (ht' : T < t') :
    c.is_violated a b t = c.is_violated a b t' := by
  cases c with
  | Vertex pos ts perm =>
      simp only [Constraint.refTime] at hc
      simp only [Constraint.is_violated]
      by_cases hb : b ≠ pos
      · rw [if_pos hb, if_pos hb]
      · rw [if_neg hb, if_neg hb]
        cases perm with
        | false =>
            have h1 : t ≠ ts := by omega
            have h2 : t' ≠ ts := by omega
            simp [h1, h2]
        | true =>
            have h1 : ts ≤ t := by omega
            have h2 : ts ≤ t' := by omega
            simp [h1, h2]
  | Edge f p tts =>
      simp only [Constraint.refTime] at hc
      simp only [Constraint.is_violated]
      have h1 : t ≠ tts := by omega
      have h2 : t' ≠ tts := by omega
      simp [h1, h2]

theorem getD_last (q : List α) (g : Nat) (v z : α) (hlen : q.length = g + 1)
    (hlast : q.getLast? = some v) : q.getD g z = v := by
  have h1 : q[g]? = q.getLast? := by
    rw [List.getLast?_eq_getElem?, hlen]
    simp
  rw [List.getD_eq_getElem?_getD, h1, hlast]
  rfl

theorem getD_take (q : List α) (n i : Nat) (z : α) (hi : i < n) :
    (q.take n).getD i z = q.getD i z := by
  rw [List.getD_eq_getElem?_getD, List.getD_eq_getElem?_getD,
    List.getElem?_take_of_lt hi]

theorem chain_getD (m : Map) (q : Path) (hchain : pathChainOK m q) (i : Nat)
    (hi : i + 1 < q.length) :
    q.getD (i + 1) (0, 0) ∈
      m.get_neighbors (q.getD i (0, 0)).1 (q.getD i (0, 0)).2 true := by
  unfold pathChainOK at hchain
  rw [List.chain'_iff_get] at hchain
  have h := hchain i (by omega)
  rw [getD_eq_getElem q i (by omega), getD_eq_getElem q (i + 1) (by omega)]
  exact h

theorem runPath_singleton (m : Map) (start : Pos) (C : ConstraintSet) (T : Nat) :
    runPath m start C T [start] := by
  refine ⟨by simp, rfl, List.chain'_singleton _, ?_, ?_⟩
  · intro i hi
    simp at hi
  · intro i hi
    simp at hi

theorem reach_start (m : Map) (start : Pos) (C : ConstraintSet) (T : Nat) :
    reach m start C T start 0 :=
  ⟨[start], runPath_singleton m start C T, by simp, by simp⟩

theorem runPath_extend (m : Map) (start : Pos) (C : ConstraintSet) (T : Nat)
    (q : Path) (v w : Pos) (g : Nat)
    (hq : runPath m start C T q) (hlen : q.length = g + 1) (hlast : q.getLast? = some v)
    (hnb : w ∈ m.get_neighbors v.1 v.2 true)
    (hcons : ∀ c ∈ C, c.is_violated v w (g + 1) = false)
    (hdisc : w = v → g ≤ T) :
    runPath m start C T (q ++ [w]) ∧ (q ++ [w]).length = g + 2 ∧
      (q ++ [w]).getLast? = some w := by
  obtain ⟨hne, hhead, hchain, hcok, hdok⟩ := hq
  refine ⟨⟨by simp, ?_, ?_, ?_, ?_⟩, by simp [hlen], by simp⟩
  · cases q with
    | nil => simp at hne
    | cons a t => simpa using hhead
  · unfold pathChainOK
    rw [List.chain'_append]
    refine ⟨hchain, List.chain'_singleton _, ?_⟩
    intro x hx y hy
    rw [hlast] at hx
    simp only [Option.mem_def, Option.some.injEq] at hx
    simp only [List.head?_cons, Option.mem_def, Option.some.injEq] at hy
    subst hx
    subst hy
    exact hnb
  · intro i hi c hc
    simp only [List.length_append, List.length_singleton, hlen] at hi
    rcases Nat.lt_or_ge (i + 1) (g + 1) with hlt | hge
    · rw [getD_append_left q [w] i (by omega) (0, 0),
        getD_append_left q [w] (i + 1) (by omega) (0, 0)]
      exact hcok i (by omega) c hc
    · have hieq : i = g := by omega
      subst hieq
      rw [getD_append_left q [w] i (by omega) (0, 0)]
      have hg : q.getD i (0, 0) = v := getD_last q i v (0, 0) hlen hlast
      have hw : (q ++ [w]).getD (i + 1) (0, 0) = w := by
        have := getD_append_length q w (0, 0)
        rw [hlen] at this
        simpa using this
      rw [hg, hw]
      exact hcons c hc
  · intro i hi he
    simp only [List.length_append, List.length_singleton, hlen] at hi
    rcases Nat.lt_or_ge (i + 1) (g + 1) with hlt | hge
    · rw [getD_append_left q [w] i (by omega) (0, 0),
        getD_append_left q [w] (i + 1) (by omega) (0, 0)] at he
      exact hdok i (by omega) he
    · have hieq : i = g := by omega
      subst hieq
      rw [getD_append_left q [w] i (by omega) (0, 0)] at he
      have hg : q.getD i (0, 0) = v := getD_last q i v (0, 0) hlen hlast
      have hw : (q ++ [w]).getD (i + 1) (0, 0) = w := by
        have := getD_append_length q w (0, 0)
        rw [hlen] at this
        simpa using this
      rw [hg, hw] at he
      exact hdisc he

theorem reach_getD (m : Map) (start : Pos) (C : ConstraintSet) (T : Nat)
    (q : Path) (hq : runPath m start C T q) (k : Nat) (hk : k < q.length) :
    reach m start C T (q.getD k (0, 0)) k := by
  obtain ⟨hne, hhead, hchain, hcok, hdok⟩ := hq
  have hlen : (q.take (k + 1)).length = k + 1 := by
    rw [List.length_take]
    omega
  refine ⟨q.take (k + 1), ⟨?_, ?_, ?_, ?_, ?_⟩, hlen, ?_⟩
  · intro h
    rw [h] at hlen
    simp at hlen
  · cases q with
    | nil => simp at hne
    | cons a t => simpa using hhead
  · unfold pathChainOK
    exact List.Chain'.take hchain _
  · intro i hi c hc
    rw [hlen] at hi
    rw [getD_take q (k + 1) i (0, 0) (by omega),
      getD_take q (k + 1) (i + 1) (0, 0) (by omega)]
    exact hcok i (by omega) c hc
  · intro i hi he
    rw [hlen] at hi
    rw [getD_take q (k + 1) i (0, 0) (by omega),
      getD_take q (k + 1) (i + 1) (0, 0) (by omega)] at he
    exact hdok i (by omega) he
  · have h1 : (q.take (k + 1))[k]? = q[k]? := List.getElem?_take_of_lt (by omega)
    rw [List.getLast?_eq_getElem?, hlen]
    simp only [Nat.add_sub_cancel]
    rw [h1, List.getElem?_eq_getElem hk]
    rw [getD_eq_getElem q k hk]

theorem getD_eraseIdx_lt (q : List α) (j i : Nat) (z : α) (h : i < j) :
    (q.eraseIdx j).getD i z = q.getD i z := by
  rw [List.getD_eq_getElem?_getD, List.getD_eq_getElem?_getD,
    List.getElem?_eraseIdx_of_lt q j i h]

theorem getD_eraseIdx_ge (q : List α) (j i : Nat) (z : α) (h : j ≤ i) :
    (q.eraseIdx j).getD i z = q.getD (i + 1) z := by
  rw [List.getD_eq_getElem?_getD, List.getD_eq_getElem?_getD,
    List.getElem?_eraseIdx_of_ge q j i h]

theorem head?_eraseIdx_pos (q : List α) (j : Nat) (hj : 1 ≤ j) :
    (q.eraseIdx j).head? = q.head? := by
  rw [List.head?_eq_getElem?, List.head?_eq_getElem?,
    List.getElem?_eraseIdx_of_lt q j 0 (by omega)]

theorem getLast?_eq_getD (q : List α) (g : Nat) (z : α) (hlen : q.length = g + 1) :
    q.getLast? = some (q.getD g z) := by
  rw [List.getLast?_eq_getElem?, hlen]
  simp only [Nat.add_sub_cancel]
  rw [List.getElem?_eq_getElem (by omega), getD_eq_getElem q g (by omega) z]

theorem chain'_of_getD (m : Map) (q : Path)
    (h : ∀ i, i + 1 < q.length → q.getD (i + 1) (0, 0) ∈
      m.get_neighbors (q.getD i (0, 0)).1 (q.getD i (0, 0)).2 true) :
    pathChainOK m q := by
  unfold pathChainOK
  rw [List.chain'_iff_get]
  intro i hi
  have hs := h i (by omega)
  rwa [getD_eq_getElem q i (by omega), getD_eq_getElem q (i + 1) (by omega)] at hs

theorem compress_aux (m : Map) (start goal : Pos) (C : ConstraintSet) (T : Nat)
    (hT : ∀ c ∈ C, c.refTime ≤ T) :
    ∀ N (q : Path), q.length = N → q ≠ [] → q.head? = some start →
      q.getLast? = some goal → pathChainOK m q → consOKPath C q →
      ∃ c', reach m start C T goal c' ∧ c' + 1 ≤ q.length ∧
        (c' + 1 = q.length ∨ T + 1 ≤ c') := by
  intro N
  induction N using Nat.strong_induction_on with
  | _ N ih =>
      intro q hqN hne hh hl hch hco
      by_cases hd : discOK T q
      · have hlp : 1 ≤ q.length := List.length_pos.mpr hne
        exact ⟨q.length - 1, ⟨q, ⟨hne, hh, hch, hco, hd⟩, by omega, hl⟩, by omega,
          Or.inl (by omega)⟩
      · unfold discOK at hd
        push_neg at hd
        obtain ⟨k, hk1, hk2, hk3⟩ := hd
        have hlen' : (q.eraseIdx (k + 1)).length = q.length - 1 :=
          List.length_eraseIdx_of_lt hk1
        have hne' : q.eraseIdx (k + 1) ≠ [] := by
          intro h0
          rw [h0] at hlen'
          simp only [List.length_nil] at hlen'
          omega
        have hh' : (q.eraseIdx (k + 1)).head? = some start := by
          rw [head?_eraseIdx_pos q (k + 1) (by omega)]
          exact hh
        have hgl : q.getD (q.length - 1) (0, 0) = goal :=
          getD_last q (q.length - 1) goal (0, 0) (by omega) hl
        have hl' : (q.eraseIdx (k + 1)).getLast? = some goal := by
          rw [getLast?_eq_getD (q.eraseIdx (k + 1)) (q.length - 2) (0, 0) (by omega)]
          rcases Nat.lt_or_ge (k + 1) (q.length - 1) with hc | hc
          · rw [getD_eraseIdx_ge q (k + 1) (q.length - 2) (0, 0) (by omega)]
            have he : q.length - 2 + 1 = q.length - 1 := by omega
            rw [he, hgl]
          · have he : q.length - 2 = k := by omega
            rw [he, getD_eraseIdx_lt q (k + 1) k (0, 0) (by omega), ← hk2]
            have he2 : k + 1 = q.length - 1 := by omega
            rw [he2, hgl]
        have hch' : pathChainOK m (q.eraseIdx (k + 1)) := by
          refine chain'_of_getD m _ ?_
          intro i hi
          rw [hlen'] at hi
          rcases Nat.lt_or_ge (i + 1) (k + 1) with hc | hc
          · rw [getD_eraseIdx_lt q (k + 1) i (0, 0) (by omega),
              getD_eraseIdx_lt q (k + 1) (i + 1) (0, 0) (by omega)]
            exact chain_getD m q hch i (by omega)
          · rcases Nat.lt_or_ge i (k + 1) with hc2 | hc2
            · have he : i = k := by omega
              subst he
              rw [getD_eraseIdx_lt q (i + 1) i (0, 0) (by omega),
                getD_eraseIdx_ge q (i + 1) (i + 1) (0, 0) (by omega), ← hk2]
              exact chain_getD m q hch (i + 1) (by omega)
            · rw [getD_eraseIdx_ge q (k + 1) i (0, 0) (by omega),
                getD_eraseIdx_ge q (k + 1) (i + 1) (0, 0) (by omega)]
              exact chain_getD m q hch (i + 1) (by omega)
        have hco' : consOKPath C (q.eraseIdx (k + 1)) := by
          intro i hi c hc
          rw [hlen'] at hi
          rcases Nat.lt_or_ge (i + 1) (k + 1) with hcs | hcs
          · rw [getD_eraseIdx_lt q (k + 1) i (0, 0) (by omega),
              getD_eraseIdx_lt q (k + 1) (i + 1) (0, 0) (by omega)]
            exact hco i (by omega) c hc
          · rcases Nat.lt_or_ge i (k + 1) with hc2 | hc2
            · have he : i = k := by omega
              subst he
              rw [getD_eraseIdx_lt q (i + 1) i (0, 0) (by omega),
                getD_eraseIdx_ge q (i + 1) (i + 1) (0, 0) (by omega), ← hk2]
              rw [is_violated_shift c T (hT c hc) _ _ (i + 1) (i + 2) (by omega)
                (by omega)]
              exact hco (i + 1) (by omega) c hc
            · rw [getD_eraseIdx_ge q (k + 1) i (0, 0) (by omega),
                getD_eraseIdx_ge q (k + 1) (i + 1) (0, 0) (by omega)]
              rw [is_violated_shift c T (hT c hc) _ _ (i + 1) (i + 2) (by omega)
                (by omega)]
              exact hco (i + 1) (by omega) c hc
        obtain ⟨c', hre, hle, hdis⟩ := ih (q.length - 1) (by omega) (q.eraseIdx (k + 1))
          hlen' hne' hh' hl' hch' hco'
        refine ⟨c', hre, by omega, Or.inr ?_⟩
        rcases hdis with hdis | hdis
        · omega
        · exact hdis

theorem heuristic_telescope (m : Map) (aid : Nat)
    (hcons : ∀ p q : Pos, q ∈ m.get_neighbors p.1 p.2 true →
      m.heuristic aid p ≤ m.heuristic aid q + 1)
    (q : Path) (hchain : pathChainOK m q) :
    ∀ j d, j + d < q.length →
      m.heuristic aid (q.getD j (0, 0)) ≤
        d + m.heuristic aid (q.getD (j + d) (0, 0)) := by
  intro j d
  induction d with
  | zero =>
      intro h
      simp
  | succ d ih =>
      intro h
      have h1 : j + d < q.length := by omega
      have hstep := chain_getD m q hchain (j + d) (by omega)
      have h2 := hcons _ _ hstep
      have h3 := ih h1
      have he : j + (d + 1) = j + d + 1 := by omega
      rw [he]
      omega

theorem node_eq_of_cmp_eq (m : Map) (aid : Nat) (start : Pos) (C : ConstraintSet)
    (T : Nat) (a b : LowLevelNode)
    (ha : nodeShape m aid start C T a) (hb : nodeShape m aid start C T b)
    (h : openCmp a b = .eq) : a = b := by
  obtain ⟨hf, hg, hp⟩ := openCmp_eq_fields a b h
  obtain ⟨hta, -, hfa, -⟩ := ha
  obtain ⟨htb, -, hfb, -⟩ := hb
  cases a
  cases b
  simp_all

theorem btInsert_superset (cmp : α → α → Ordering) (l : List α) (a x : α) (hx : x ∈ l) :
    x ∈ (btInsert cmp l a).1 := by
  unfold btInsert
  split
  · exact hx
  · exact List.mem_cons_of_mem _ hx

theorem btInsert_self_mem (cmp : α → α → Ordering) (l : List α) (a : α) :
    a ∈ (btInsert cmp l a).1 ∨ ∃ y ∈ l, cmp y a = .eq := by
  unfold btInsert
  split
  · rename_i hcont
    exact Or.inr (btContains_exists cmp l a hcont)
  · exact Or.inl (List.mem_cons_self _ _)

theorem wait_le_T (m : Map) (T : Nat) (current : LowLevelNode) (nb : Pos)
    (hts : current.time_step = tsOf T current.g_cost)
    (hnb : nb ∈ m.get_neighbors current.position.1 current.position.2
      (!decide (current.time_step > T)))
    (heq : nb = current.position) : current.g_cost ≤ T := by
  by_cases hex : current.time_step > T
  · have hiw : (!decide (current.time_step > T)) = false := by simp [hex]
    rw [hiw] at hnb
    subst heq
    exact absurd hnb (self_not_mem_gn_false m current.position.1 current.position.2)
  · push_neg at hex
    rw [hts] at hex
    unfold tsOf at hex
    omega

theorem astarExpand_open_mono (m : Map) (agent : Agent) (C : ConstraintSet)
    (current : LowLevelNode) (tg tts : Nat) (closed : List (Pos × Nat))
    (acc : List LowLevelNode × Trace) (nb : Pos) (x : LowLevelNode) (hx : x ∈ acc.1) :
    x ∈ (astarExpandNeighbor m agent C current tg tts closed acc nb).1 := by
  unfold astarExpandNeighbor
  split
  · exact hx
  · split
    · exact hx
    · simp only []
      split
      · exact btInsert_superset openCmp acc.1 _ x hx
      · exact btInsert_superset openCmp acc.1 _ x hx

theorem astarExpandFold_mono (m : Map) (agent : Agent) (C : ConstraintSet)
    (current : LowLevelNode) (tg tts : Nat) (closed : List (Pos × Nat))
    (l : List Pos) (acc : List LowLevelNode × Trace) (x : LowLevelNode)
    (hx : x ∈ acc.1) :
    x ∈ (l.foldl (astarExpandNeighbor m agent C current tg tts closed) acc).1 :=
  foldl_preserve (fun b => x ∈ b.1)
    (astarExpandNeighbor m agent C current tg tts closed) l
    (fun b a hb _ => astarExpand_open_mono m agent C current tg tts closed b a x hb)
    acc hx

theorem astarExpandNeighbor_shape (m : Map) (agent : Agent) (C : ConstraintSet)
    (T : Nat) (current : LowLevelNode) (tts : Nat) (closed : List (Pos × Nat))
    (acc : List LowLevelNode × Trace) (nb : Pos)
    (hsh : nodeShape m agent.id agent.start C T current)
    (hts : tts = tsOf T (current.g_cost + 1))
    (hnb : nb ∈ m.get_neighbors current.position.1 current.position.2 true)
    (hwait : nb = current.position → current.g_cost ≤ T)
    (hacc : ∀ x ∈ acc.1, nodeShape m agent.id agent.start C T x) :
    ∀ x ∈ (astarExpandNeighbor m agent C current (current.g_cost + 1) tts
        closed acc nb).1, nodeShape m agent.id agent.start C T x := by
  intro x hx
  unfold astarExpandNeighbor at hx
  split at hx
  · exact hacc x hx
  · split at hx
    · exact hacc x hx
    · rename_i hnv
      simp only [] at hx
      have hcons2 : ∀ c ∈ C,
          c.is_violated current.position nb (current.g_cost + 1) = false := by
        intro c hc
        cases hb : c.is_violated current.position nb (current.g_cost + 1) with
        | false => rfl
        | true => exact absurd (List.any_eq_true.mpr ⟨c, hc, hb⟩) hnv
      have hnew : nodeShape m agent.id agent.start C T
          (create_open_node nb (current.g_cost + 1 + m.heuristic agent.id nb)
            (current.g_cost + 1) tts) := by
        refine ⟨hts, rfl, rfl, ?_⟩
        obtain ⟨-, -, -, hre⟩ := hsh
        obtain ⟨q, hq, hlen, hlast⟩ := hre
        obtain ⟨hq', hlen', hlast'⟩ := runPath_extend m agent.start C T q
          current.position nb current.g_cost hq hlen hlast hnb hcons2 hwait
        refine ⟨q ++ [nb], hq', ?_, hlast'⟩
        show (q ++ [nb]).length = current.g_cost + 1 + 1
        omega
      split at hx
      · rcases btInsert_mem openCmp acc.1 _ x hx with rfl | hx2
        · exact hnew
        · exact hacc x hx2
      · rcases btInsert_mem openCmp acc.1 _ x hx with rfl | hx2
        · exact hnew
        · exact hacc x hx2

theorem astarExpandFold_shape (m : Map) (agent : Agent) (C : ConstraintSet)
    (T : Nat) (current : LowLevelNode) (tts : Nat) (closed : List (Pos × Nat))
    (hsh : nodeShape m agent.id agent.start C T current)
    (hts : tts = tsOf T (current.g_cost + 1)) :
    ∀ (l : List Pos) (acc : List LowLevelNode × Trace),
      (∀ x ∈ acc.1, nodeShape m agent.id agent.start C T x) →
      (∀ p ∈ l, p ∈ m.get_neighbors current.position.1 current.position.2 true ∧
        (p = current.position → current.g_cost ≤ T)) →
      ∀ x ∈ (l.foldl (astarExpandNeighbor m agent C current (current.g_cost + 1) tts
          closed) acc).1, nodeShape m agent.id agent.start C T x := by
  intro l
  induction l with
  | nil =>
      intro acc hacc _ x hx
      exact hacc x hx
  | cons p t ih =>
      intro acc hacc hl x hx
      refine ih (astarExpandNeighbor m agent C current (current.g_cost + 1) tts closed
        acc p) ?_ ?_ x hx
      · exact astarExpandNeighbor_shape m agent C T current tts closed acc p hsh hts
          (hl p (List.mem_cons_self p t)).1 (hl p (List.mem_cons_self p t)).2 hacc
      · intro r hr
        exact hl r (List.mem_cons_of_mem p hr)

theorem astarExpandFold_gen (m : Map) (agent : Agent) (C : ConstraintSet) (T : Nat)
    (current : LowLevelNode) (tts : Nat) (closed : List (Pos × Nat)) (nb : Pos)
    (hsh : nodeShape m agent.id agent.start C T current)
    (hts : tts = tsOf T (current.g_cost + 1))
    (hnode : nodeShape m agent.id agent.start C T
      (create_open_node nb (current.g_cost + 1 + m.heuristic agent.id nb)
        (current.g_cost + 1) tts))
    (hcl : ((nb, tts) : Pos × Nat) ∉ closed)
    (hnv : (C.any fun c =>
      c.is_violated current.position nb (current.g_cost + 1)) = false) :
    ∀ (l : List Pos) (acc : List LowLevelNode × Trace),
      (∀ x ∈ acc.1, nodeShape m agent.id agent.start C T x) →
      (∀ p ∈ l, p ∈ m.get_neighbors current.position.1 current.position.2 true ∧
        (p = current.position → current.g_cost ≤ T)) →
      nb ∈ l →
      create_open_node nb (current.g_cost + 1 + m.heuristic agent.id nb)
          (current.g_cost + 1) tts ∈
        (l.foldl (astarExpandNeighbor m agent C current (current.g_cost + 1) tts
          closed) acc).1 := by
  intro l
  induction l with
  | nil =>
      intro acc _ _ h
      simp at h
  | cons p t ih =>
      intro acc hacc hl hmem
      rcases List.mem_cons.mp hmem with rfl | hmem
      · refine astarExpandFold_mono m agent C current (current.g_cost + 1) tts closed t
          _ _ ?_
        unfold astarExpandNeighbor
        rw [if_neg hcl, if_neg (by simp [hnv])]
        simp only []
        rcases btInsert_self_mem openCmp acc.1
            (create_open_node nb (current.g_cost + 1 + m.heuristic agent.id nb)
              (current.g_cost + 1) tts) with hin | ⟨y, hy, hcmp⟩
        · split
          · exact hin
          · exact hin
        · have hyeq : y = create_open_node nb
              (current.g_cost + 1 + m.heuristic agent.id nb) (current.g_cost + 1) tts :=
            node_eq_of_cmp_eq m agent.id agent.start C T y _ (hacc y hy) hnode hcmp
        -- the node is already in the accumulator
          subst hyeq
          split
          · exact btInsert_superset openCmp acc.1 _ _ hy
          · exact btInsert_superset openCmp acc.1 _ _ hy
      · refine ih (astarExpandNeighbor m agent C current (current.g_cost + 1) tts closed
          acc p) ?_ ?_ hmem
        · exact astarExpandNeighbor_shape m agent C T current tts closed acc p hsh hts
            (hl p (List.mem_cons_self p t)).1 (hl p (List.mem_cons_self p t)).2 hacc
        · intro r hr
          exact hl r (List.mem_cons_of_mem p hr)

theorem btPopFirst_min (cmp : α → α → Ordering) (l : List α) (a : α) (r : List α)
    (h : btPopFirst cmp l = some (a, r)) :
    btMin? cmp l = some a ∧ r = btErase cmp l a := by
  unfold btPopFirst at h
  split at h
  · exact absurd h (by simp)
  · rename_i mx hm
    simp only [Option.some.injEq, Prod.mk.injEq] at h
    obtain ⟨h1, h2⟩ := h
    subst h1
    exact ⟨hm, h2.symm⟩

theorem open_cost_step_empty (m : Map) (agent : Agent) (C : ConstraintSet)
    (L T : Nat) (st : AStarState) (h : st.open_list = []) :
    standard_a_star_search_open_cost_step m agent C L T st = .inl (none, st.stats) := by
  unfold standard_a_star_search_open_cost_step
  rw [h]
  rfl

theorem astarExpandNeighbor_members (m : Map) (agent : Agent) (C : ConstraintSet)
    (current : LowLevelNode) (tg tts : Nat) (closed : List (Pos × Nat))
    (acc : List LowLevelNode × Trace) (nb : Pos) (x : LowLevelNode)
    (hx : x ∈ (astarExpandNeighbor m agent C current tg tts closed acc nb).1) :
    x ∈ acc.1 ∨ (((nb, tts) : Pos × Nat) ∉ closed ∧
      (∀ c ∈ C, c.is_violated current.position nb tg = false) ∧
      x = create_open_node nb (tg + m.heuristic agent.id nb) tg tts) := by
  unfold astarExpandNeighbor at hx
  split at hx
  · exact Or.inl hx
  · rename_i hcl
    split at hx
    · exact Or.inl hx
    · rename_i hnv
      have hcons2 : ∀ c ∈ C, c.is_violated current.position nb tg = false := by
        intro c hc
        cases hb : c.is_violated current.position nb tg with
        | false => rfl
        | true => exact absurd (List.any_eq_true.mpr ⟨c, hc, hb⟩) hnv
      simp only [] at hx
      split at hx
      · rcases btInsert_mem openCmp acc.1 _ x hx with rfl | h2
        · exact Or.inr ⟨hcl, hcons2, rfl⟩
        · exact Or.inl h2
      · rcases btInsert_mem openCmp acc.1 _ x hx with rfl | h2
        · exact Or.inr ⟨hcl, hcons2, rfl⟩
        · exact Or.inl h2

theorem astarExpandFold_members (m : Map) (agent : Agent) (C : ConstraintSet)
    (current : LowLevelNode) (tg tts : Nat) (closed : List (Pos × Nat)) :
    ∀ (l : List Pos) (acc : List LowLevelNode × Trace) (x : LowLevelNode),
      x ∈ (l.foldl (astarExpandNeighbor m agent C current tg tts closed) acc).1 →
      x ∈ acc.1 ∨ ∃ nb ∈ l, ((nb, tts) : Pos × Nat) ∉ closed ∧
        (∀ c ∈ C, c.is_violated current.position nb tg = false) ∧
        x = create_open_node nb (tg + m.heuristic agent.id nb) tg tts := by
  intro l
  induction l with
  | nil =>
      intro acc x hx
      exact Or.inl hx
  | cons p t ih =>
      intro acc x hx
      rcases ih (astarExpandNeighbor m agent C current tg tts closed acc p) x hx with
        h | ⟨nb, hnb, hrest⟩
      · rcases astarExpandNeighbor_members m agent C current tg tts closed acc p x h with
          h2 | h2
        · exact Or.inl h2
        · exact Or.inr ⟨p, List.mem_cons_self p t, h2⟩
      · exact Or.inr ⟨nb, List.mem_cons_of_mem p hnb, hrest⟩

theorem gap_of_inv (m : Map) (agent : Agent) (C : ConstraintSet) (L T : Nat)
    (st : AStarState) (hopt : astarOpt m agent C L T st)
    (q : Path) (hq : runPath m agent.start C T q) :
    ∀ i, i < q.length → (q.getD i (0, 0), tsOf T i) ∉ st.closed_list →
      ∃ j, j ≤ i ∧ openW T st (q.getD j (0, 0)) j := by
  obtain ⟨-, -, -, -, hSW, hCAS⟩ := hopt
  have h0 : q.getD 0 (0, 0) = agent.start := by
    cases q with
    | nil =>
        obtain ⟨hne, -, -, -, -⟩ := hq
        exact absurd rfl hne
    | cons a t =>
        obtain ⟨-, hh, -, -, -⟩ := hq
        simp only [List.head?_cons, Option.some.injEq] at hh
        simpa using hh
  intro i
  induction i with
  | zero =>
      intro hi hncl
      rcases hSW with hcl | ⟨n, hn, hp, hg⟩
      · refine absurd ?_ hncl
        rw [h0]
        have ht0 : tsOf T 0 = 0 := by simp [tsOf]
        rw [ht0]
        exact hcl
      · exact ⟨0, le_refl 0, n, hn, by rw [h0]; exact hp, by omega, Or.inl hg⟩
  | succ i ih =>
      intro hi hncl
      by_cases hprev : (q.getD i (0, 0), tsOf T i) ∈ st.closed_list
      · rcases hCAS q hq i hi hprev with hcl | hw
        · exact absurd hcl hncl
        · exact ⟨i + 1, le_refl _, hw⟩
      · obtain ⟨j, hj, hw⟩ := ih (by omega) hprev
        exact ⟨j, by omega, hw⟩

theorem astarOpt_step (map : Map) (agent : Agent) (C : ConstraintSet) (L T : Nat)
    (hT : ∀ c ∈ C, c.refTime ≤ T)
    (hcons : ∀ p q : Pos, q ∈ map.get_neighbors p.1 p.2 true →
      map.heuristic agent.id p ≤ map.heuristic agent.id q + 1)
    (hgoal : map.heuristic agent.id agent.goal = 0)
    (st : AStarState) (hopt : astarOpt map agent C L T st) :
    ∀ st', standard_a_star_search_open_cost_step map agent C L T st = .inr st' →
      astarOpt map agent C L T st' := by
  intro st' h
  unfold standard_a_star_search_open_cost_step at h
  split at h
  · exact absurd h (by simp)
  · rename_i current open1 hpop
    simp only [] at h
    split at h
    · exact absurd h (by simp)
    · rename_i hrej
      injection h with h
      subst h
      obtain ⟨hAR, hGB, hCL, hCGB, hSW, hCAS⟩ := hopt
      obtain ⟨hmin, hopen1⟩ := btPopFirst_min openCmp st.open_list current open1 hpop
      have hcur : current ∈ st.open_list := btMin?_mem openCmp st.open_list current hmin
      have hfmin : ∀ x ∈ st.open_list, current.f_open_cost ≤ x.f_open_cost :=
        btMin?_f_le st.open_list current hmin
      obtain ⟨hts, hfo, hff, hre⟩ := hAR current hcur
      have hsub1 : ∀ x ∈ open1, x ∈ st.open_list := by
        intro x hx
        rw [hopen1] at hx
        exact btErase_subset openCmp st.open_list current x hx
      have htts : (if current.time_step > T then current.time_step
          else current.time_step + 1) = tsOf T (current.g_cost + 1) := by
        rw [hts]
        unfold tsOf
        split
        · omega
        · omega
      have hlprop : ∀ p ∈ map.get_neighbors current.position.1 current.position.2
          (!decide (current.time_step > T)),
          p ∈ map.get_neighbors current.position.1 current.position.2 true ∧
          (p = current.position → current.g_cost ≤ T) := by
        intro p hp
        exact ⟨get_neighbors_mono map current.position.1 current.position.2 _ p hp,
          fun he => wait_le_T map T current p hts hp he⟩
      refine ⟨?_, ?_, ?_, ?_, ?_, ?_⟩
      · -- node shapes
        intro x hx
        rcases astarExpandFold_members map agent C current _ _ _ _ _ x hx with
          hold | ⟨nb, hnb, hncl, hnv, rfl⟩
        · exact hAR x (hsub1 x hold)
        · obtain ⟨hnbt, hw⟩ := hlprop nb hnb
          refine ⟨htts, rfl, rfl, ?_⟩
          obtain ⟨q, hq, hlen, hlast⟩ := hre
          obtain ⟨hq', hlen', hlast'⟩ := runPath_extend map agent.start C T q
            current.position nb current.g_cost hq hlen hlast hnbt hnv hw
          refine ⟨q ++ [nb], hq', ?_, hlast'⟩
          show (q ++ [nb]).length = current.g_cost + 1 + 1
          omega
      · -- goal nodes within one step of every open f
        intro n hn hpos x hx
        have hxlb : current.f_open_cost ≤ x.f_open_cost := by
          rcases astarExpandFold_members map agent C current _ _ _ _ _ x hx with
            hold | ⟨nb, hnb, -, -, rfl⟩
          · exact hfmin x (hsub1 x hold)
          · have hc := hcons current.position nb (hlprop nb hnb).1
            show current.f_open_cost ≤ current.g_cost + 1 + map.heuristic agent.id nb
            rw [hfo]
            omega
        rcases astarExpandFold_members map agent C current _ _ _ _ _ n hn with
          hold | ⟨nb, hnb, -, -, rfl⟩
        · have hb := hGB n (hsub1 n hold) hpos current hcur
          omega
        · show current.g_cost + 1 ≤ x.f_open_cost + 1
          have hglb : current.g_cost ≤ current.f_open_cost := by
            rw [hfo]
            omega
          omega
      · -- closed keys are cheap
        intro k hk
        rcases (hsInsert_mem st.closed_list (current.position, current.time_step) k).mp
          hk with hKeq | hold
        · subst hKeq
          refine ⟨current.g_cost, hre, hts.symm, ?_, ?_⟩
          · intro hg
            have hng : ¬ current.g_cost > L := fun hgt => hrej ⟨hg, hgt⟩
            omega
          · intro n hn
            rw [← hfo]
            rcases astarExpandFold_members map agent C current _ _ _ _ _ n hn with
              hold2 | ⟨nb, hnb, -, -, rfl⟩
            · exact hfmin n (hsub1 n hold2)
            · have hc := hcons current.position nb (hlprop nb hnb).1
              show current.f_open_cost ≤ current.g_cost + 1 + map.heuristic agent.id nb
              rw [hfo]
              omega
        · obtain ⟨g', hr', hts', hgl', hb'⟩ := hCL k hold
          refine ⟨g', hr', hts', hgl', ?_⟩
          intro n hn
          have h1 : g' + map.heuristic agent.id k.1 ≤ current.f_open_cost :=
            hb' current hcur
          rcases astarExpandFold_members map agent C current _ _ _ _ _ n hn with
            hold2 | ⟨nb, hnb, -, -, rfl⟩
          · exact le_trans h1 (hfmin n (hsub1 n hold2))
          · refine le_trans h1 ?_
            have hc := hcons current.position nb (hlprop nb hnb).1
            show current.f_open_cost ≤ current.g_cost + 1 + map.heuristic agent.id nb
            rw [hfo]
            omega
      · -- beyond-horizon goal-key closure bound
        intro hclg n hn hpos hnts
        rcases (hsInsert_mem st.closed_list (current.position, current.time_step)
          (agent.goal, T + 1)).mp hclg with hKeq | hold
        · have hp : agent.goal = current.position := congrArg Prod.fst hKeq
          have hgle : current.g_cost ≤ L := by
            have hng : ¬ current.g_cost > L := fun hgt => hrej ⟨hp.symm, hgt⟩
            omega
          have hfcur : current.f_open_cost = current.g_cost := by
            rw [hfo, ← hp, hgoal]
            omega
          rcases astarExpandFold_members map agent C current _ _ _ _ _ n hn with
            hold2 | ⟨nb, hnb, -, -, rfl⟩
          · have hb := hGB n (hsub1 n hold2) hpos current hcur
            omega
          · show current.g_cost + 1 ≤ L + 1
            omega
        · rcases astarExpandFold_members map agent C current _ _ _ _ _ n hn with
            hold2 | ⟨nb, hnb, hncl, -, rfl⟩
          · exact hCGB hold n (hsub1 n hold2) hpos hnts
          · refine absurd ?_ hncl
            have hnb2 : nb = agent.goal := hpos
            have hts2 : (if current.time_step > T then current.time_step
                else current.time_step + 1) = T + 1 := hnts
            rw [hnb2, hts2]
            exact (hsInsert_mem _ _ _).mpr (Or.inr hold)
      · -- the start key
        rcases hSW with hcl | ⟨n, hn, hp, hg⟩
        · exact Or.inl ((hsInsert_mem _ _ _).mpr (Or.inr hcl))
        · rcases btErase_mem_or openCmp st.open_list current n hn with hsur | hceq
          · refine Or.inr ⟨n, ?_, hp, hg⟩
            refine astarExpandFold_mono map agent C current _ _ _ _ _ n ?_
            show n ∈ open1
            rw [hopen1]
            exact hsur
          · have hneq : n = current := node_eq_of_cmp_eq map agent.id agent.start C T n
              current (hAR n hn) ⟨hts, hfo, hff, hre⟩ hceq
            refine Or.inl ((hsInsert_mem _ _ _).mpr (Or.inl ?_))
            rw [← hneq, hp]
            have ht0 : n.time_step = 0 := by
              rw [(hAR n hn).1, hg]
              simp [tsOf]
            rw [ht0]
      · -- the cascade
        intro q hq i hi hk
        have hchain := hq.2.2.1
        by_cases hKold : (q.getD i (0, 0), tsOf T i) ∈ st.closed_list
        · rcases hCAS q hq i hi hKold with hcl | ⟨n, hn, hp, hle2, hde⟩
          · exact Or.inl ((hsInsert_mem _ _ _).mpr (Or.inr hcl))
          · rcases btErase_mem_or openCmp st.open_list current n hn with hsur | hceq
            · refine Or.inr ⟨n, ?_, hp, hle2, hde⟩
              refine astarExpandFold_mono map agent C current _ _ _ _ _ n ?_
              show n ∈ open1
              rw [hopen1]
              exact hsur
            · have hneq : n = current := node_eq_of_cmp_eq map agent.id agent.start C T
                n current (hAR n hn) ⟨hts, hfo, hff, hre⟩ hceq
              refine Or.inl ((hsInsert_mem _ _ _).mpr (Or.inl ?_))
              rw [← hneq, hp]
              have htsn : n.time_step = tsOf T (i + 1) := by
                rw [(hAR n hn).1]
                rcases hde with he | hbig
                · rw [he]
                · unfold tsOf
                  omega
              rw [htsn]
        · have hKeq : (q.getD i (0, 0), tsOf T i) =
              (current.position, current.time_step) := by
            rcases (hsInsert_mem _ _ _).mp hk with he | hin
            · exact he
            · exact absurd hin hKold
          have hpi : q.getD i (0, 0) = current.position := congrArg Prod.fst hKeq
          have hti : tsOf T i = current.time_step := congrArg Prod.snd hKeq
          have hstep := chain_getD map q hchain i hi
          rcases Nat.lt_or_ge i (T + 1) with hiT | hiT
          · -- exact tracking below the horizon
            have hgi : current.g_cost = i := by
              have h1 : tsOf T i = i := by
                unfold tsOf
                omega
              rw [h1] at hti
              rw [hts] at hti
              unfold tsOf at hti
              omega
            have hiw : (!decide (current.time_step > T)) = true := by
              have hng : ¬ current.time_step > T := by
                rw [← hti]
                unfold tsOf
                omega
              simp [hng]
            have hnbl : q.getD (i + 1) (0, 0) ∈ map.get_neighbors current.position.1
                current.position.2 (!decide (current.time_step > T)) := by
              rw [hiw, ← hpi]
              exact hstep
            have hnv : ∀ c ∈ C, c.is_violated current.position (q.getD (i + 1) (0, 0))
                (current.g_cost + 1) = false := by
              intro c hc
              rw [← hpi, hgi]
              exact hq.2.2.2.1 i hi c hc
            by_cases hclosed2 : ((q.getD (i + 1) (0, 0),
                (if current.time_step > T then current.time_step
                 else current.time_step + 1)) : Pos × Nat) ∈
                hsInsert st.closed_list (current.position, current.time_step)
            · refine Or.inl ?_
              have hts1 : (if current.time_step > T then current.time_step
                  else current.time_step + 1) = tsOf T (i + 1) := by
                rw [htts, hgi]
              rw [← hts1]
              exact hclosed2
            · refine Or.inr ⟨create_open_node (q.getD (i + 1) (0, 0))
                (current.g_cost + 1 + map.heuristic agent.id (q.getD (i + 1) (0, 0)))
                (current.g_cost + 1)
                (if current.time_step > T then current.time_step
                 else current.time_step + 1), ?_, rfl, ?_, ?_⟩
              · refine astarExpandFold_gen map agent C T current
                  (if current.time_step > T then current.time_step
                   else current.time_step + 1)
                  (hsInsert st.closed_list (current.position, current.time_step))
                  (q.getD (i + 1) (0, 0))
                  ⟨hts, hfo, hff, hre⟩ htts ?_ hclosed2 ?_
                  (map.get_neighbors current.position.1 current.position.2
                    (!decide (current.time_step > T)))
                  (open1, st.trace) ?_ hlprop hnbl
                · refine ⟨htts, rfl, rfl, ?_⟩
                  show reach map agent.start C T (q.getD (i + 1) (0, 0))
                    (current.g_cost + 1)
                  rw [hgi]
                  exact reach_getD map agent.start C T q hq (i + 1) (by omega)
                · rw [List.any_eq_false]
                  intro c hc
                  rw [hnv c hc]
                  simp
                · intro x hx
                  exact hAR x (hsub1 x hx)
              · show current.g_cost + 1 ≤ i + 1
                omega
              · refine Or.inl ?_
                show current.g_cost + 1 = i + 1
                omega
          · -- beyond the horizon: pooled tracking
            have hcts : current.time_step = T + 1 := by
              rw [← hti]
              unfold tsOf
              omega
            have hgct : T + 1 ≤ current.g_cost := by
              have hts2 := hts
              rw [hcts] at hts2
              unfold tsOf at hts2
              omega
            obtain ⟨j, hj, n, hn, hp, hle2, -⟩ := gap_of_inv map agent C L T st
              ⟨hAR, hGB, hCL, hCGB, hSW, hCAS⟩ q hq i (by omega) hKold
            have hfn : n.f_open_cost = n.g_cost + map.heuristic agent.id n.position :=
              (hAR n hn).2.1
            have htel := heuristic_telescope map agent.id hcons q hchain j (i - j)
              (by omega)
            have hji : j + (i - j) = i := by omega
            rw [hji] at htel
            have hgci : current.g_cost ≤ i := by
              have h1 := hfmin n hn
              rw [hfo, hfn, hp, ← hpi] at h1
              omega
            have hmove : q.getD (i + 1) (0, 0) ≠ current.position := by
              rw [← hpi]
              intro he
              have hd := hq.2.2.2.2 i hi he
              omega
            have hiw : (!decide (current.time_step > T)) = false := by
              rw [hcts]
              simp
            have hnbl : q.getD (i + 1) (0, 0) ∈ map.get_neighbors current.position.1
                current.position.2 (!decide (current.time_step > T)) := by
              rw [hiw]
              refine mem_gn_false_of_ne map current.position.1 current.position.2 _ ?_
                hmove
              rw [← hpi]
              exact hstep
            have hnv : ∀ c ∈ C, c.is_violated current.position (q.getD (i + 1) (0, 0))
                (current.g_cost + 1) = false := by
              intro c hc
              rw [is_violated_shift c T (hT c hc) _ _ (current.g_cost + 1) (i + 1)
                (by omega) (by omega)]
              rw [← hpi]
              exact hq.2.2.2.1 i hi c hc
            by_cases hclosed2 : ((q.getD (i + 1) (0, 0),
                (if current.time_step > T then current.time_step
                 else current.time_step + 1)) : Pos × Nat) ∈
                hsInsert st.closed_list (current.position, current.time_step)
            · refine Or.inl ?_
              have hts1 : (if current.time_step > T then current.time_step
                  else current.time_step + 1) = tsOf T (i + 1) := by
                rw [htts]
                unfold tsOf
                omega
              rw [← hts1]
              exact hclosed2
            · refine Or.inr ⟨create_open_node (q.getD (i + 1) (0, 0))
                (current.g_cost + 1 + map.heuristic agent.id (q.getD (i + 1) (0, 0)))
                (current.g_cost + 1)
                (if current.time_step > T then current.time_step
                 else current.time_step + 1), ?_, rfl, ?_, ?_⟩
              · refine astarExpandFold_gen map agent C T current
                  (if current.time_step > T then current.time_step
                   else current.time_step + 1)
                  (hsInsert st.closed_list (current.position, current.time_step))
                  (q.getD (i + 1) (0, 0))
                  ⟨hts, hfo, hff, hre⟩ htts ?_ hclosed2 ?_
                  (map.get_neighbors current.position.1 current.position.2
                    (!decide (current.time_step > T)))
                  (open1, st.trace) ?_ hlprop hnbl
                · refine ⟨htts, rfl, rfl, ?_⟩
                  show reach map agent.start C T (q.getD (i + 1) (0, 0))
                    (current.g_cost + 1)
                  obtain ⟨qq, hqq, hqlen, hqlast⟩ := hre
                  obtain ⟨hq', hlen', hlast'⟩ := runPath_extend map agent.start C T qq
                    current.position (q.getD (i + 1) (0, 0)) current.g_cost hqq hqlen
                    hqlast (by rw [← hpi]; exact hstep) hnv (fun he => absurd he hmove)
                  exact ⟨qq ++ [q.getD (i + 1) (0, 0)], hq', by omega, hlast'⟩
                · rw [List.any_eq_false]
                  intro c hc
                  rw [hnv c hc]
                  simp
                · intro x hx
                  exact hAR x (hsub1 x hx)
              · show current.g_cost + 1 ≤ i + 1
                omega
              · refine Or.inr ?_
                show T + 1 ≤ current.g_cost + 1
                omega

theorem astarOpt_accept (map : Map) (agent : Agent) (C : ConstraintSet) (L T : Nat)
    (hcons : ∀ p q : Pos, q ∈ map.get_neighbors p.1 p.2 true →
      map.heuristic agent.id p ≤ map.heuristic agent.id q + 1)
    (hgoal : map.heuristic agent.id agent.goal = 0)
    (st : AStarState) (hopt : astarOpt map agent C L T st)
    (hinv : astarInv map C agent.start st)
    (path : Path) (f : Nat) (stats' : Stats)
    (h : standard_a_star_search_open_cost_step map agent C L T st =
      .inl (some (path, f), stats')) :
    f + 1 = path.length ∧
    ∀ c, reach map agent.start C T agent.goal c →
      (L < c → f ≤ c) ∧ (T + 1 ≤ c → c ≤ L → f ≤ L + 1) := by
  obtain ⟨htr, hanch⟩ := hinv
  unfold standard_a_star_search_open_cost_step at h
  split at h
  · injection h with h
    simp at h
  · rename_i current open1 hpop
    simp only [] at h
    split at h
    · rename_i hacc
      injection h with h
      simp only [Prod.mk.injEq, Option.some.injEq] at h
      obtain ⟨⟨hpath, hf⟩, -⟩ := h
      subst hpath
      obtain ⟨hmin, -⟩ := btPopFirst_min openCmp st.open_list current open1 hpop
      have hcur : current ∈ st.open_list := btMin?_mem openCmp st.open_list current hmin
      have hfmin : ∀ x ∈ st.open_list, current.f_open_cost ≤ x.f_open_cost :=
        btMin?_f_le st.open_list current hmin
      obtain ⟨hAR, hGB, hCL, hCGB, hSW, hCAS⟩ := hopt
      obtain ⟨hts, hfo, hff, hre⟩ := hAR current hcur
      have hfg : f = current.g_cost := by
        rw [← hf, hfo, hacc.1, hgoal]
        omega
      constructor
      · obtain ⟨hlen, -, -, -, -⟩ := construct_path_spec map C agent.start st.trace htr
          current.position current.g_cost (hanch current hcur)
        rw [hlen, hfg]
      · intro c hrc
        obtain ⟨R, hR, hRlen, hRlast⟩ := hrc
        have hgoalD : R.getD c (0, 0) = agent.goal :=
          getD_last R c agent.goal (0, 0) hRlen hRlast
        by_cases hclg : (agent.goal, tsOf T c) ∈ st.closed_list
        · obtain ⟨g', hr', hts', hgl', -⟩ := hCL (agent.goal, tsOf T c) hclg
          have hgL : g' ≤ L := hgl' rfl
          rcases Nat.lt_or_ge c (T + 1) with hcT | hcT
          · have h1 : tsOf T c = c := by
              unfold tsOf
              omega
            rw [h1] at hts'
            have hgc : g' = c := by
              unfold tsOf at hts'
              omega
            constructor
            · intro hLc
              omega
            · intro hTc hcL
              omega
          · have h1 : tsOf T c = T + 1 := by
              unfold tsOf
              omega
            rw [h1] at hclg
            rcases Nat.lt_or_ge current.time_step (T + 1) with hct | hct
            · have hga : current.g_cost ≤ T := by
                rw [hts] at hct
                unfold tsOf at hct
                omega
              constructor
              · intro hLc
                omega
              · intro hTc hcL
                omega
            · have hct2 : current.time_step = T + 1 := by
                rw [hts] at hct ⊢
                unfold tsOf at hct ⊢
                omega
              have hgb := hCGB hclg current hcur hacc.1 hct2
              constructor
              · intro hLc
                omega
              · intro hTc hcL
                omega
        · obtain ⟨j, hj, n, hn, hp, hle2, -⟩ := gap_of_inv map agent C L T st
            ⟨hAR, hGB, hCL, hCGB, hSW, hCAS⟩ R hR c (by omega)
            (by rw [hgoalD]; exact hclg)
          have hfn : n.f_open_cost = n.g_cost + map.heuristic agent.id n.position :=
            (hAR n hn).2.1
          have htel := heuristic_telescope map agent.id hcons R hR.2.2.1 j (c - j)
            (by omega)
          have hji : j + (c - j) = c := by omega
          rw [hji] at htel
          rw [hgoalD, hgoal] at htel
          have h1 := hfmin n hn
          rw [hfn, hp] at h1
          have hfc : f ≤ c := by
            rw [← hf]
            omega
          constructor
          · intro hLc
            exact hfc
          · intro hTc hcL
            have hg2 := hacc.2
            omega
    · exact absurd h (by simp)

theorem astarOpt_loop (map : Map) (agent : Agent) (C : ConstraintSet) (L T : Nat)
    (hT : ∀ c ∈ C, c.refTime ≤ T)
    (hcons : ∀ p q : Pos, q ∈ map.get_neighbors p.1 p.2 true →
      map.heuristic agent.id p ≤ map.heuristic agent.id q + 1)
    (hgoal : map.heuristic agent.id agent.goal = 0) :
    ∀ (fuel : Nat) (st : AStarState), astarInv map C agent.start st →
      astarOpt map agent C L T st →
      ∀ path f stats',
        standard_a_star_search_open_cost_loop map agent C L T fuel st =
          some (some (path, f), stats') →
        f + 1 = path.length ∧
        ∀ c, reach map agent.start C T agent.goal c →
          (L < c → f ≤ c) ∧ (T + 1 ≤ c → c ≤ L → f ≤ L + 1) := by
  intro fuel
  induction fuel with
  | zero =>
      intro st _ _ path f stats' h
      exact absurd h (by simp [standard_a_star_search_open_cost_loop])
  | succ fuel ih =>
      intro st hinv hopt path f stats' h
      simp only [standard_a_star_search_open_cost_loop] at h
      split at h
      · rename_i r hstep
        injection h with h
        subst h
        exact astarOpt_accept map agent C L T hcons hgoal st hopt hinv path f stats'
          hstep
      · rename_i st2 hstep
        exact ih st2 ((open_cost_step_inv map agent C L T st hinv).1 st2 hstep)
          (astarOpt_step map agent C L T hT hcons hgoal st hopt st2 hstep) path f
          stats' h

theorem initAStarState_opt (map : Map) (agent : Agent) (C : ConstraintSet) (L T : Nat)
    (stats : Stats) : astarOpt map agent C L T (initAStarState map agent stats) := by
  refine ⟨?_, ?_, ?_, ?_, ?_, ?_⟩
  · intro n hn
    simp only [initAStarState, List.mem_singleton] at hn
    subst hn
    refine ⟨?_, ?_, rfl, reach_start map agent.start C T⟩
    · show (0 : Nat) = tsOf T 0
      simp [tsOf]
    · exact (Nat.zero_add _).symm
  · intro n hn hpos x hx
    simp only [initAStarState, List.mem_singleton] at hn
    subst hn
    show (0 : Nat) ≤ x.f_open_cost + 1
    omega
  · intro k hk
    simp [initAStarState] at hk
  · intro hmem
    simp [initAStarState] at hmem
  · refine Or.inr ⟨create_open_node agent.start (map.heuristic agent.id agent.start)
      0 0, ?_, rfl, rfl⟩
    simp [initAStarState]
  · intro q hq i hi hcl
    simp [initAStarState] at hcl

/-- C2: for every map, agent, constraint set and length bound `L` — with the
constraint horizon `T` covering every constraint time, a consistent heuristic
vanishing at the goal (every shipped shortest-distance table is such) —
whenever `standard_a_star_search_open_cost` returns `some (path, f_min)`: the
path runs from the agent's start to its goal, the accepted node satisfies
`g = len(path) - 1 > L` (so `L + 2 ≤ len(path)`), `f_min` (the accepted node's
`f_open`) equals `len(path) - 1`, and the cost is minimal among all
constraint-satisfying paths from start to goal of cost strictly greater than
`L`; when the open set empties, the step returns the source's `None`. -/
theorem C2_open_cost_optimal (fuel : Nat) (map : Map) (agent : Agent)
    (constraints : ConstraintSet) (L T : Nat) (stats : Stats)
    (path : Path) (f : Nat) (stats' : Stats)
    (hT : ∀ c ∈ constraints, c.refTime ≤ T)
    (hcons : ∀ p q : Pos, q ∈ map.get_neighbors p.1 p.2 true →
      map.heuristic agent.id p ≤ map.heuristic agent.id q + 1)
    (hgoal : map.heuristic agent.id agent.goal = 0)
    (h : standard_a_star_search_open_cost fuel map agent constraints L T stats =
      some (some (path, f), stats')) :
    path.head? = some agent.start ∧ path.getLast? = some agent.goal ∧
    L + 2 ≤ path.length ∧ f + 1 = path.length ∧
    (∀ q, specSatPath map agent constraints q → L + 1 < q.length →
      path.length ≤ q.length) ∧
    (∀ st : AStarState, st.open_list = [] →
      standard_a_star_search_open_cost_step map agent constraints L T st =
        .inl (none, st.stats)) := by
  obtain ⟨⟨⟨hh, hl, hch⟩, hco⟩, hlen2⟩ :=
    open_cost_sound fuel map agent constraints L T stats path f stats' h
  unfold standard_a_star_search_open_cost at h
  obtain ⟨hflen, hbnd⟩ := astarOpt_loop map agent constraints L T hT hcons hgoal fuel _
    (initAStarState_inv map agent constraints stats)
    (initAStarState_opt map agent constraints L T stats) path f stats' h
  refine ⟨hh, hl, hlen2, hflen, ?_, fun st hst =>
    open_cost_step_empty map agent constraints L T st hst⟩
  intro q hq hqlen
  obtain ⟨⟨hqh, hql, hqch⟩, hqco⟩ := hq
  have hqne : q ≠ [] := by
    intro h0
    rw [h0] at hqh
    simp at hqh
  obtain ⟨c', hre, hc1, hc2⟩ := compress_aux map agent.start agent.goal constraints T
    hT q.length q rfl hqne hqh hql hqch hqco
  rcases hc2 with hceq | hcbig
  · have hb := (hbnd c' hre).1 (by omega)
    omega
  · rcases Nat.lt_or_ge L c' with hgt | hle
    · have hb := (hbnd c' hre).1 hgt
      omega
    · have hb := (hbnd c' hre).2 hcbig hle
      omega

theorem C2_open_cost_optimal_witness :
    ([(0, 0), (0, 1), (0, 2)] : Path).head? = some agentRow3.start ∧
    ([(0, 0), (0, 1), (0, 2)] : Path).getLast? = some agentRow3.goal ∧
    0 + 2 ≤ ([(0, 0), (0, 1), (0, 2)] : Path).length ∧
    2 + 1 = ([(0, 0), (0, 1), (0, 2)] : Path).length ∧
    (∀ q, specSatPath mapRow3 agentRow3 [] q → 0 + 1 < q.length →
      ([(0, 0), (0, 1), (0, 2)] : Path).length ≤ q.length) ∧
    (∀ st : AStarState, st.open_list = [] →
      standard_a_star_search_open_cost_step mapRow3 agentRow3 [] 0 0 st =
        .inl (none, st.stats)) :=
  C2_open_cost_optimal 8 mapRow3 agentRow3 [] 0 0 Stats.default
    [(0, 0), (0, 1), (0, 2)] 2 ⟨0, 0, 3, 0, 0⟩
    (by simp)
    (by
      intro p q hq
      rw [mem_get_neighbors] at hq
      rcases hq with ⟨h1, -, -, -, rfl⟩ | ⟨-, -, -, rfl⟩ | ⟨h1, -, -, -, rfl⟩ |
        ⟨-, -, -, rfl⟩ | ⟨-, -, -, -, rfl⟩ <;>
        simp [mapRow3, natDist] <;> omega)
    (by decide)
    (of_decide_eq_true (by with_unfolding_all rfl))

end RustCBS
